import Mathlib

/-! VirtualFileSystem: the block file system of `fs_util.c`.

A shallow embedding of the on-disk data model (superblock, inode table, free-block
bitmap, data area) and of the operations `addNewFile`, `removeFile`,
`copyFileToVirtualDisk`, `copyFileFromVirtualDisk`, `listFiles` and `defragmentDisk`,
followed by the properties checked against the specification.

Conventions of the embedding.
* A C string (`char[32]` buffer or `const char*`) is the list of its bytes before the
  terminating NUL.
* `int` fields that hold block indices and counts are natural numbers: the states
  considered hold non-negative values below `2^31` there.
* `size_t` arithmetic that can wrap is written with an explicit `% 2^64`.
* The image file is split into its persisted structures; the bytes of the file are the
  function `data` from file offset to byte, and a read of a data block is served in
  full (no short read). Block offsets are computed without wrap.
* A loop is a structural recursion on the number of rounds left (`fuel`), started with
  the loop bound of the source, so every function is total.
* Failures of `fopen`, `calloc` and `malloc` and of the underlying reads and writes are
  outside the embedding. An array read outside its bounds (undefined in C) gives 0 and
  a write outside is dropped; the properties are stated on well-formed images, where
  no access is out of bounds.
-/

namespace VFS

/-- The macro `#define MAX_FILES 64`. -/
def MAX_FILES : Nat := 64

/-- The macro `#define INODE_BLOCK_NUM 16`. -/
def INODE_BLOCK_NUM : Nat := 16

/-- The macro `#define MAX_FILENAME_LENGTH 32`. -/
def MAX_FILENAME_LENGTH : Nat := 32

/-- Number of values of a `size_t` (LP64). -/
def SIZE_MOD : Nat := 2 ^ 64

/-- The `SuperBlock` record. -/
structure SuperBlock where
  diskName : List Nat
  diskSize : Nat
  blockSize : Nat
  blocksCount : Nat
  inodeAreaSize : Nat
  inodeAreaOffset : Nat
  bitmapSize : Nat
  bitmapOffset : Nat
  dataAreaOffset : Nat

/-- The `Inode` record; `blockIndex` is the array `int blockIndex[INODE_BLOCK_NUM]`. -/
structure Inode where
  fileName : List Nat
  fileSize : Nat
  isUsed : Bool
  blockIndex : List Nat
  blocksAllocated : Nat
deriving DecidableEq, Repr

/-- An inode as `calloc` leaves it: every byte zero. -/
def Inode.zero : Inode :=
  { fileName := [], fileSize := 0, isUsed := false,
    blockIndex := List.replicate INODE_BLOCK_NUM 0, blocksAllocated := 0 }

instance : Inhabited Inode := ⟨Inode.zero⟩

/-- The persisted image: superblock, inode table, bitmap bytes and the bytes of the
file by offset. -/
structure Disk where
  sb : SuperBlock
  inodes : List Inode
  bitmap : List Nat
  data : Nat → Nat

/-! ## Bitmap accessors -/

/-- Function `isBlockUsed`: `(bitmap[blockIndex / 8] & (1 << (blockIndex % 8))) != 0`. -/
def isBlockUsed (bitmap : List Nat) (blockIndex : Nat) : Bool :=
  let byteIndex := blockIndex / 8
  let bitOffset := blockIndex % 8
  (bitmap.getD byteIndex 0 &&& (1 <<< bitOffset)) != 0

/-- Function `setBlockUsed`: `bitmap[byteIndex] |= (1 << bitOffset)` when `used`, else
`bitmap[byteIndex] &= ~(1 << bitOffset)`; the stored value is an `unsigned char`, so
`~(1 << bitOffset)` acts through its low eight bits `255 ^ (1 << bitOffset)`. -/
def setBlockUsed (bitmap : List Nat) (blockIndex : Nat) (used : Bool) : List Nat :=
  let byteIndex := blockIndex / 8
  let bitOffset := blockIndex % 8
  if used then
    bitmap.set byteIndex ((bitmap.getD byteIndex 0 ||| (1 <<< bitOffset)) % 256)
  else
    bitmap.set byteIndex ((bitmap.getD byteIndex 0 &&& (255 ^^^ (1 <<< bitOffset))) % 256)

/-- Every entry of the bitmap is a byte. -/
def BytesOk (bitmap : List Nat) : Prop := ∀ x ∈ bitmap, x < 256

/-- The loop `for (...) setBlockUsed(bitmap, l[i], used)` over a list of block indices. -/
def setBlocks (bitmap : List Nat) (l : List Nat) (used : Bool) : List Nat :=
  l.foldl (fun bm x => setBlockUsed bm x used) bitmap

/-- The loop of `findFreeBlocks` (lines 54-66), from block `i`: `found` is the part of
`foundIndexes` written so far (`foundCount` is its length). The result is the return
value (0 or -1) and the indexes written. -/
def findFreeBlocksLoop (bitmap : List Nat) (countNeeded : Nat) :
    Nat → Nat → List Nat → Int × List Nat
  | 0, _, found => (-1, found)
  | fuel + 1, i, found =>
    if isBlockUsed bitmap i = false then
      if (found ++ [i]).length = countNeeded then (0, found ++ [i])
      else findFreeBlocksLoop bitmap countNeeded fuel (i + 1) (found ++ [i])
    else findFreeBlocksLoop bitmap countNeeded fuel (i + 1) found

/-- Function `findFreeBlocks(bitmap, blocksCount, countNeeded, foundIndexes)`. -/
def findFreeBlocks (bitmap : List Nat) (blocksCount countNeeded : Nat) : Int × List Nat :=
  findFreeBlocksLoop bitmap countNeeded blocksCount 0 []

/-! ## The catalogue: `addNewFile`, `removeFile`, `listFiles` -/

/-- The element `inodes[i]` of the in-memory inode table. -/
def inodeAt (inodes : List Inode) (i : Nat) : Inode := inodes.getD i default

/-- Function `createVirtualDisk`: the superblock geometry, `MAX_FILES` zeroed inodes and
a zeroed bitmap. `sizeofSuperBlock` and `sizeofInode` stand for `sizeof(SuperBlock)` and
`sizeof(Inode)`. The `int` field `blocksCount` receives `diskSize / blockSize`, which it
holds unchanged when that is below `2^31`. No data byte is written; the embedding reads
the data area of a new image as zero. -/
def createVirtualDisk (sizeofSuperBlock sizeofInode : Nat) (diskName : List Nat)
    (diskSize blockSize : Nat) : Disk :=
  let blocksCount := diskSize / blockSize
  let inodeAreaSize := MAX_FILES * sizeofInode
  let bitmapSize := (blocksCount + 7) / 8
  let inodeAreaOffset := sizeofSuperBlock
  let bitmapOffset := inodeAreaOffset + inodeAreaSize
  let dataAreaOffset := bitmapOffset + bitmapSize
  { sb := { diskName := diskName, diskSize := diskSize, blockSize := blockSize,
            blocksCount := blocksCount, inodeAreaSize := inodeAreaSize,
            inodeAreaOffset := inodeAreaOffset, bitmapSize := bitmapSize,
            bitmapOffset := bitmapOffset, dataAreaOffset := dataAreaOffset },
    inodes := List.replicate MAX_FILES Inode.zero,
    bitmap := List.replicate bitmapSize 0,
    data := fun _ => 0 }

/-- Result of the slot search of `addNewFile`: the user declined the overwrite, or the
loop ended with `inodeIndex` (`none` is `-1`). -/
inductive SlotChoice where
  | cancelled
  | chosen (inodeIndex : Option Nat)
deriving DecidableEq, Repr

/-- The slot loop of `addNewFile` (lines 227-246), from index `i` with `fuel` iterations
left; `overwrite` is the answer given to the prompt. -/
def slotLoop (inodes : List Inode) (filename : List Nat) (overwrite : Bool) :
    Nat → Nat → Option Nat → SlotChoice
  | 0, _, inodeIndex => SlotChoice.chosen inodeIndex
  | fuel + 1, i, inodeIndex =>
    if (inodeAt inodes i).isUsed = true ∧ (inodeAt inodes i).fileName = filename then
      if overwrite then SlotChoice.chosen (some i) else SlotChoice.cancelled
    else
      slotLoop inodes filename overwrite fuel (i + 1)
        (if (inodeAt inodes i).isUsed = false ∧ inodeIndex = none then some i else inodeIndex)

/-- The value `requiredBlocks = (fileSize + sb.blockSize - 1) / sb.blockSize` in `size_t`. -/
def requiredBlocks (sb : SuperBlock) (fileSize : Nat) : Nat :=
  ((fileSize + sb.blockSize - 1) % SIZE_MOD) / sb.blockSize

/-- The allocation loop of `addNewFile` (lines 263-270), from block `i` with `fuel`
iterations left; the state is the in-memory bitmap, the slot's `blockIndex` array and
`allocatedBlocks`. -/
def allocLoop (required : Nat) :
    Nat → Nat → List Nat → List Nat → Nat → List Nat × List Nat × Nat
  | 0, _, bitmap, blockIndex, allocated => (bitmap, blockIndex, allocated)
  | fuel + 1, i, bitmap, blockIndex, allocated =>
    if allocated < required then
      if isBlockUsed bitmap i = false then
        allocLoop required fuel (i + 1) (setBlockUsed bitmap i true)
          (blockIndex.set allocated i) (allocated + 1)
      else
        allocLoop required fuel (i + 1) bitmap blockIndex allocated
    else (bitmap, blockIndex, allocated)

/-- How `addNewFile` ends. -/
inductive AddOutcome where
  | nameTooLong
  | cancelled
  | noFreeInode
  | fileTooLarge
  | insufficientSpace
  | added
deriving DecidableEq, Repr

/-- What `addNewFile` leaves: the outcome, the persisted image, and the in-memory bitmap
at the point of return (the loaded bitmap where the function returns before touching
it). -/
structure AddResult where
  outcome : AddOutcome
  disk : Disk
  bitmapMem : List Nat

/-- Function `addNewFile(diskName, filename, fileSize)` on the image `d`; `overwrite` is
the answer to the "Overwrite? (y/n)" prompt. -/
def addNewFile (d : Disk) (filename : List Nat) (fileSize : Nat) (overwrite : Bool) :
    AddResult :=
  if filename.length ≥ MAX_FILENAME_LENGTH then
    { outcome := AddOutcome.nameTooLong, disk := d, bitmapMem := d.bitmap }
  else
    match slotLoop d.inodes filename overwrite MAX_FILES 0 none with
    | SlotChoice.cancelled =>
      { outcome := AddOutcome.cancelled, disk := d, bitmapMem := d.bitmap }
    | SlotChoice.chosen none =>
      { outcome := AddOutcome.noFreeInode, disk := d, bitmapMem := d.bitmap }
    | SlotChoice.chosen (some inodeIndex) =>
      if requiredBlocks d.sb fileSize > INODE_BLOCK_NUM then
        { outcome := AddOutcome.fileTooLarge, disk := d, bitmapMem := d.bitmap }
      else
        match allocLoop (requiredBlocks d.sb fileSize) d.sb.blocksCount 0 d.bitmap
            (inodeAt d.inodes inodeIndex).blockIndex 0 with
        | (bitmap, blockIndex, allocatedBlocks) =>
          if allocatedBlocks < requiredBlocks d.sb fileSize then
            { outcome := AddOutcome.insufficientSpace, disk := d,
              bitmapMem := setBlocks bitmap (blockIndex.take allocatedBlocks) false }
          else
            { outcome := AddOutcome.added,
              disk := { d with
                inodes := d.inodes.set inodeIndex
                  { fileName := filename, fileSize := fileSize, isUsed := true,
                    blockIndex := blockIndex, blocksAllocated := allocatedBlocks },
                bitmap := bitmap },
              bitmapMem := bitmap }

/-- The lookup loop of `removeFile` (lines 324-330): the first used slot named
`filename`, from index `i`. -/
def findFile (inodes : List Inode) (filename : List Nat) : Nat → Nat → Option Nat
  | 0, _ => none
  | fuel + 1, i =>
    if (inodeAt inodes i).isUsed = true ∧ (inodeAt inodes i).fileName = filename then some i
    else findFile inodes filename fuel (i + 1)

/-- Function `deleteInode`: the slot is reset to the unused state. -/
def deleteInode (_inode : Inode) : Inode :=
  { isUsed := false, fileSize := 0, blocksAllocated := 0, fileName := [],
    blockIndex := List.replicate INODE_BLOCK_NUM 0 }

/-- How `removeFile` ends. -/
inductive RemoveOutcome where
  | notFound
  | removed
deriving DecidableEq, Repr

/-- Function `removeFile(diskName, filename)` on the image `d`: outcome and persisted
image. -/
def removeFile (d : Disk) (filename : List Nat) : RemoveOutcome × Disk :=
  match findFile d.inodes filename MAX_FILES 0 with
  | none => (RemoveOutcome.notFound, d)
  | some inodeIndex =>
    let inode := inodeAt d.inodes inodeIndex
    (RemoveOutcome.removed,
      { d with
        inodes := d.inodes.set inodeIndex (deleteInode inode),
        bitmap := setBlocks d.bitmap (inode.blockIndex.take inode.blocksAllocated) false })

/-- Function `listFiles`: name and size of every used slot, by ascending slot index. -/
def listFiles (d : Disk) : List (List Nat × Nat) :=
  (List.range MAX_FILES).filterMap fun i =>
    if (inodeAt d.inodes i).isUsed then
      some ((inodeAt d.inodes i).fileName, (inodeAt d.inodes i).fileSize)
    else none

/-! ## Well-formed images and the notions the properties speak of -/

/-- Shape of an image that the program can hold: positive block size, block offsets
that fit a `long`, `MAX_FILES` inodes of `INODE_BLOCK_NUM` block entries, and a bitmap of
`bitmapSize = ceil(blocksCount / 8)` bytes. -/
structure WF (d : Disk) : Prop where
  blockSize_pos : 0 < d.sb.blockSize
  blockSize_lt : d.sb.blockSize < SIZE_MOD
  extent_lt : d.sb.blocksCount * d.sb.blockSize < 2 ^ 63
  inodes_len : d.inodes.length = MAX_FILES
  blockIndex_len : ∀ n ∈ d.inodes, n.blockIndex.length = INODE_BLOCK_NUM
  bitmap_len : d.bitmap.length = d.sb.bitmapSize
  bitmapSize_eq : d.sb.bitmapSize = (d.sb.blocksCount + 7) / 8
  bytes : BytesOk d.bitmap

/-- The free blocks of the bitmap, by ascending index. -/
def freeBlocks (sb : SuperBlock) (bitmap : List Nat) : List Nat :=
  (List.range sb.blocksCount).filter fun i => !isBlockUsed bitmap i

/-- Mathematical `ceil(a / b)`. -/
def ceilDiv (a b : Nat) : Nat := (a + b - 1) / b

/-- The image of the specification's scenario: 4096 bytes in blocks of 256. -/
def scenarioDisk : Disk := createVirtualDisk 72 112 [100] 4096 256

/-- The first unused slot from index `i`, looking at `fuel` slots. -/
def firstUnused (inodes : List Inode) : Nat → Nat → Option Nat
  | 0, _ => none
  | fuel + 1, i =>
    if (inodeAt inodes i).isUsed = false then some i else firstUnused inodes fuel (i + 1)

/-- The scenario after `add a 600`, `add b 300`, `rm a` (the names are the bytes of "a",
"b"). -/
def scenarioAfterRemove : Disk :=
  (removeFile (addNewFile (addNewFile scenarioDisk [97] 600 false).disk [98] 300 false).disk
    [97]).2

/-! ## The data area -/

/-- The `n` bytes the image holds from `offset`: what `fseek(offset); fread(buf, 1, n)`
reads when the `n` bytes lie inside the file. The read on a file of a given length, which
comes back short behind its end, is `freadAt`. -/
def readAt (data : Nat → Nat) (offset n : Nat) : List Nat :=
  (List.range n).map fun k => data (offset + k)

/-- The calls `fseek(offset); fwrite(bytes, 1, bytes.length)`. -/
def writeAt (data : Nat → Nat) (offset : Nat) (bytes : List Nat) : Nat → Nat :=
  fun p => if offset ≤ p ∧ p < offset + bytes.length then bytes.getD (p - offset) 0 else data p

/-- File offset of a data block: `sb.dataAreaOffset + blockIndex * sb.blockSize`. -/
def blockOffset (sb : SuperBlock) (blockIndex : Nat) : Nat :=
  sb.dataAreaOffset + blockIndex * sb.blockSize

/-- The whole block `blockIndex`, as `fread(tempBlock, 1, block_size, g_diskFile)` reads
it when the block lies inside the file. -/
def readBlock (sb : SuperBlock) (data : Nat → Nat) (blockIndex : Nat) : List Nat :=
  readAt data (blockOffset sb blockIndex) sb.blockSize

/-- The value of `sizeof(buffer)` for `char* buffer` (LP64, where `size_t` has 64 bits). -/
def SIZEOF_POINTER : Nat := 8

/-- The length of the image file after `fwrite` of `n` bytes at `offset`: a write of no
byte leaves it, a longer write behind the end extends it. -/
def fileLenAfterWrite (fileLen offset n : Nat) : Nat :=
  if n = 0 then fileLen else max fileLen (offset + n)

/-- The calls `fseek(offset); fwrite(bytes, 1, bytes.length)` on an image file of `fileLen`
bytes: the bytes of the file and its length afterwards. The bytes between the old end of
the file and `offset` read as 0 afterwards. -/
def fwriteAt (data : Nat → Nat) (fileLen offset : Nat) (bytes : List Nat) :
    (Nat → Nat) × Nat :=
  if bytes.length = 0 then (data, fileLen)
  else
    (fun p =>
      if offset ≤ p ∧ p < offset + bytes.length then bytes.getD (p - offset) 0
      else if fileLen ≤ p ∧ p < offset then 0
      else data p,
     fileLenAfterWrite fileLen offset bytes.length)

/-- The length of the image file that `createVirtualDisk` leaves (lines 142-161): the
record, the inode table and the bitmap are written one behind the other, then one byte at
offset `diskSize - 1` (behind the bitmap when `fseek` refuses the offset). -/
def createFileLen (sizeofSuperBlock sizeofInode diskSize blockSize : Nat) : Nat :=
  let sb := (createVirtualDisk sizeofSuperBlock sizeofInode [] diskSize blockSize).sb
  let len1 := fileLenAfterWrite 0 0 sizeofSuperBlock
  let len2 := fileLenAfterWrite len1 sb.inodeAreaOffset (MAX_FILES * sizeofInode)
  let len3 := fileLenAfterWrite len2 sb.bitmapOffset sb.bitmapSize
  let last := (diskSize + SIZE_MOD - 1) % SIZE_MOD
  let pos := if last < 2 ^ 63 then last else sb.bitmapOffset + sb.bitmapSize
  fileLenAfterWrite len3 pos 1

/-- The copy loop of `copyFileToVirtualDisk` (lines 425-437), from position `i`: each
round seeks to the block, reads `fread(buffer, 1, sizeof(buffer), file)` from the source
and writes the bytes read. The state is the image bytes, the length of the image file and
the unread rest of the source. -/
def copyInLoop (sb : SuperBlock) (inode : Inode) :
    Nat → Nat → (Nat → Nat) → Nat → List Nat → (Nat → Nat) × Nat × List Nat
  | 0, _, data, fileLen, source => (data, fileLen, source)
  | fuel + 1, i, data, fileLen, source =>
    if i < inode.blocksAllocated then
      let offset := blockOffset sb (inode.blockIndex.getD i 0)
      let buffer := source.take SIZEOF_POINTER
      copyInLoop sb inode fuel (i + 1) (fwriteAt data fileLen offset buffer).1
        (fwriteAt data fileLen offset buffer).2 (source.drop SIZEOF_POINTER)
    else (data, fileLen, source)

/-- The value `addNewFile` returns: 0 when the file was added and when the overwrite was
declined, -1 otherwise. -/
def addNewFileReturn : AddOutcome → Int
  | AddOutcome.added => 0
  | AddOutcome.cancelled => 0
  | _ => -1

/-- How `copyFileToVirtualDisk` ends. `noInode` is the end of the path for a name that is
not in use once `addNewFile` has returned 0: `addNewFile` has pointed `g_diskFile` to its
own stream and closed it, so the table that `readInodeArea` (line 416) should read again
is the one read before, the lookup finds no slot and `inodes[-1]` is used. -/
inductive CopyInOutcome where
  | nameTooLong
  | cancelled
  | addFailed
  | noInode
  | copied
deriving DecidableEq, Repr

/-- Function `copyFileToVirtualDisk(diskName, filename)` on the image `d` whose file has
`fileLen` bytes: `source` is the content of the host file, `newFilename` the name typed at
the prompt, `overwrite` the answer to the overwrite prompt. The result is the outcome, the
image and the length of its file. When the name is in use and the overwrite accepted, the
loop writes into the blocks the slot holds. When the name is not in use, `addNewFile` is
called; at `noInode` the image is the one `addNewFile` has left, and what the loop writes
through `inodes[-1]` is not defined by C and is left out. -/
def copyFileToVirtualDisk (d : Disk) (fileLen : Nat) (source newFilename : List Nat)
    (overwrite : Bool) : CopyInOutcome × Disk × Nat :=
  let fileSize := source.length
  if newFilename.length ≥ MAX_FILENAME_LENGTH then (CopyInOutcome.nameTooLong, d, fileLen)
  else
    match findFile d.inodes newFilename MAX_FILES 0 with
    | some inodeIndex =>
      if overwrite then
        (CopyInOutcome.copied,
          { d with data := (copyInLoop d.sb (inodeAt d.inodes inodeIndex)
              (inodeAt d.inodes inodeIndex).blocksAllocated 0 d.data fileLen source).1 },
          (copyInLoop d.sb (inodeAt d.inodes inodeIndex)
              (inodeAt d.inodes inodeIndex).blocksAllocated 0 d.data fileLen source).2.1)
      else (CopyInOutcome.cancelled, d, fileLen)
    | none =>
      let r := addNewFile d newFilename fileSize overwrite
      if addNewFileReturn r.outcome ≠ 0 then (CopyInOutcome.addFailed, r.disk, fileLen)
      else (CopyInOutcome.noInode, r.disk, fileLen)

/-- The copy loop of `copyFileFromVirtualDisk` (lines 508-528) where every read is served
in full and every write succeeds, from position `i` with `remainingBytes` left; `out` is
what was written to the output file so far. The loop with its two checks is
`copyOutLoopChecked`. -/
def copyOutLoop (sb : SuperBlock) (data : Nat → Nat) (inode : Inode) :
    Nat → Nat → Nat → List Nat → List Nat
  | 0, _, _, out => out
  | fuel + 1, i, remainingBytes, out =>
    if i < inode.blocksAllocated then
      let bytesToRead := if remainingBytes < sb.blockSize then remainingBytes else sb.blockSize
      let buffer := readAt data (blockOffset sb (inode.blockIndex.getD i 0)) bytesToRead
      copyOutLoop sb data inode fuel (i + 1) (remainingBytes - bytesToRead) (out ++ buffer)
    else out

/-- The bytes of the file of `inode` in the image: its blocks in list order,
`min(remaining, blockSize)` bytes of each, read without regard to the length of the image
file. The function with its checks on a file of a given length is
`copyFileFromVirtualDisk`; it writes these bytes to the output when every read lies inside
the file. -/
def copyOut (sb : SuperBlock) (data : Nat → Nat) (inode : Inode) : List Nat :=
  copyOutLoop sb data inode inode.blocksAllocated 0 inode.fileSize []

/-- A 16-byte source file for the copy-in example. -/
def sampleSource : List Nat := [1, 2, 3, 4, 5, 6, 7, 8, 9, 10, 11, 12, 13, 14, 15, 16]

/-- An image of 16 blocks of 16 bytes, for the copy-in example. -/
def copyInDisk : Disk := createVirtualDisk 72 112 [100] 256 16

/-- A two-block image, too small for a file of three blocks. -/
def smallDisk : Disk := createVirtualDisk 72 112 [100] 512 256

/-! ## Defragmentation -/

/-- The entry `inodes[i].blockIndex[b]`. -/
def blockAt (inodes : List Inode) (i b : Nat) : Nat :=
  (inodeAt inodes i).blockIndex.getD b 0

/-- The assignment `inodes[i].blockIndex[b] = v`. -/
def setBlockAt (inodes : List Inode) (i b v : Nat) : List Inode :=
  inodes.set i { inodeAt inodes i with blockIndex := (inodeAt inodes i).blockIndex.set b v }

/-- The in-memory state of `defragmentDisk` together with the bytes of the image. Every
change of `inodes` or `bitmap` in the loop is followed by `writeInodeArea` or
`writeBitmap`, so the persisted structures are the in-memory ones when the loop ends. -/
structure DefragState where
  inodes : List Inode
  bitmap : List Nat
  data : Nat → Nat
  nextFreeBlock : Nat

/-- Lines 644-659: exchange of the raw contents of the blocks `currentBlockIndex` and
`nextFreeBlock` through `tempBlock` and `swapBlock`. -/
def swapData (sb : SuperBlock) (data : Nat → Nat) (currentBlockIndex nextFreeBlock : Nat) :
    Nat → Nat :=
  let oldBlockOffset := blockOffset sb currentBlockIndex
  let tempBlock := readAt data oldBlockOffset sb.blockSize
  let newBlockOffset := blockOffset sb nextFreeBlock
  let swapBlock := readAt data newBlockOffset sb.blockSize
  writeAt (writeAt data oldBlockOffset swapBlock) newBlockOffset tempBlock

/-- Lines 644-666: the body run when `inodes[k].blockIndex[kk] == nextFreeBlock`: the
two blocks are exchanged, then `inodes[k].blockIndex[kk] = currentBlockIndex` and
`inodes[i].blockIndex[b] = nextFreeBlock`. -/
def swapWith (sb : SuperBlock) (currentBlockIndex i b k kk : Nat) (st : DefragState) :
    DefragState :=
  { st with
    data := swapData sb st.data currentBlockIndex st.nextFreeBlock,
    inodes := setBlockAt (setBlockAt st.inodes k kk currentBlockIndex) i b st.nextFreeBlock }

/-- Lines 642-670: the loop over `kk` for one inode `k`; the `break` leaves this loop
only. -/
def swapSearchBlocks (sb : SuperBlock) (currentBlockIndex i b k : Nat) :
    Nat → Nat → DefragState → DefragState
  | 0, _, st => st
  | fuel + 1, kk, st =>
    if kk < (inodeAt st.inodes k).blocksAllocated then
      if blockAt st.inodes k kk = st.nextFreeBlock then
        swapWith sb currentBlockIndex i b k kk st
      else swapSearchBlocks sb currentBlockIndex i b k fuel (kk + 1) st
    else st

/-- Lines 640-671: the loop over `k`, which goes on after a swap. -/
def swapSearchFiles (sb : SuperBlock) (currentBlockIndex i b : Nat) :
    Nat → Nat → DefragState → DefragState
  | 0, _, st => st
  | fuel + 1, k, st =>
    if (inodeAt st.inodes k).isUsed = false then
      swapSearchFiles sb currentBlockIndex i b fuel (k + 1) st
    else
      swapSearchFiles sb currentBlockIndex i b fuel (k + 1)
        (swapSearchBlocks sb currentBlockIndex i b k (inodeAt st.inodes k).blocksAllocated 0 st)

/-- Lines 673-690: the destination is free: copy the block, update the entry, clear the
old bit and set the new one. -/
def moveBlock (sb : SuperBlock) (currentBlockIndex i b : Nat) (st : DefragState) :
    DefragState :=
  { st with
    data := writeAt st.data (blockOffset sb st.nextFreeBlock)
      (readAt st.data (blockOffset sb currentBlockIndex) sb.blockSize),
    inodes := setBlockAt st.inodes i b st.nextFreeBlock,
    bitmap := setBlockUsed (setBlockUsed st.bitmap currentBlockIndex false)
      st.nextFreeBlock true }

/-- Lines 637-693: the body of the loop over `b` for inode `i`. -/
def defragStep (sb : SuperBlock) (i b : Nat) (st : DefragState) : DefragState :=
  let currentBlockIndex := blockAt st.inodes i b
  let st1 :=
    if currentBlockIndex ≠ st.nextFreeBlock then
      if isBlockUsed st.bitmap st.nextFreeBlock then
        swapSearchFiles sb currentBlockIndex i b MAX_FILES 0 st
      else moveBlock sb currentBlockIndex i b st
    else st
  { st1 with nextFreeBlock := st1.nextFreeBlock + 1 }

/-- Lines 636-694: the loop over `b` for inode `i`, from position `b`. -/
def defragBlocks (sb : SuperBlock) (i : Nat) : Nat → Nat → DefragState → DefragState
  | 0, _, st => st
  | fuel + 1, b, st =>
    if b < (inodeAt st.inodes i).blocksAllocated then
      defragBlocks sb i fuel (b + 1) (defragStep sb i b st)
    else st

/-- Lines 634-695: the loop over the inodes, from slot `i`. -/
def defragFiles (sb : SuperBlock) : Nat → Nat → DefragState → DefragState
  | 0, _, st => st
  | fuel + 1, i, st =>
    if (inodeAt st.inodes i).isUsed = false then defragFiles sb fuel (i + 1) st
    else
      defragFiles sb fuel (i + 1)
        (defragBlocks sb i (inodeAt st.inodes i).blocksAllocated 0 st)

/-- The state of `defragmentDisk` when its loop ends. -/
def defragRun (d : Disk) : DefragState :=
  defragFiles d.sb MAX_FILES 0
    { inodes := d.inodes, bitmap := d.bitmap, data := d.data, nextFreeBlock := 0 }

/-- Function `defragmentDisk(diskName)`: the image it leaves, every block read being
served in full. Its inode table and bitmap are those of the function on a file of any
length (`defragmentDiskOnFile`); its `data` is that of the function where every block read
lies inside the file. -/
def defragmentDisk (d : Disk) : Disk :=
  { d with inodes := (defragRun d).inodes, bitmap := (defragRun d).bitmap,
           data := (defragRun d).data }

/-- The pair `(i, b)` is visited by the scan of `defragmentDisk`: slot `i` is used and
`b` is below its `blocksAllocated`. -/
def Pos (inodes : List Inode) (i b : Nat) : Prop :=
  i < MAX_FILES ∧ (inodeAt inodes i).isUsed = true ∧ b < (inodeAt inodes i).blocksAllocated

/-- Number of pairs the scan visits in the slots below `i`. -/
def rankBefore (inodes : List Inode) : Nat → Nat
  | 0 => 0
  | i + 1 => rankBefore inodes i +
      (if (inodeAt inodes i).isUsed then (inodeAt inodes i).blocksAllocated else 0)

/-- Block `x` appears in the block list of some used inode. -/
def Listed (inodes : List Inode) (x : Nat) : Prop :=
  ∃ i b, Pos inodes i b ∧ blockAt inodes i b = x

/-- The bitmap/inode consistency: bit `x` is set iff block `x` is listed by a used
inode. -/
def Consistent (d : Disk) : Prop :=
  ∀ x, isBlockUsed d.bitmap x = true ↔ Listed d.inodes x

/-- The data-model invariants: used inodes hold at most `INODE_BLOCK_NUM` blocks, every
listed block index is below `blocksCount`, no block index is listed twice, and the bitmap
is consistent with the lists. -/
structure DataModelInv (d : Disk) : Prop where
  alloc_le : ∀ i, i < MAX_FILES → (inodeAt d.inodes i).isUsed = true →
    (inodeAt d.inodes i).blocksAllocated ≤ INODE_BLOCK_NUM
  bounds : ∀ i b, Pos d.inodes i b → blockAt d.inodes i b < d.sb.blocksCount
  nodup : ∀ i b i' b', Pos d.inodes i b → Pos d.inodes i' b' →
    blockAt d.inodes i b = blockAt d.inodes i' b' → i = i' ∧ b = b'
  consistent : Consistent d

/-- The scenario before `defrag`: `add a 600`, `add b 300`, `rm a`, `add c 256` ("c" is
byte 99). -/
def scenarioBeforeDefrag : Disk := (addNewFile scenarioAfterRemove [99] 256 false).disk

/-- Two inode tables that differ at most in their block entries. -/
def SameShape (a b : List Inode) : Prop :=
  a.length = b.length ∧ ∀ j,
    (inodeAt a j).isUsed = (inodeAt b j).isUsed ∧
    (inodeAt a j).blocksAllocated = (inodeAt b j).blocksAllocated ∧
    (inodeAt a j).fileName = (inodeAt b j).fileName ∧
    (inodeAt a j).fileSize = (inodeAt b j).fileSize ∧
    (inodeAt a j).blockIndex.length = (inodeAt b j).blockIndex.length

/-- The exchange of the two block numbers `cur` and `next`. -/
def swapVal (cur next v : Nat) : Nat :=
  if v = cur then next else if v = next then cur else v

/-- The loop invariant of `defragmentDisk` when the scan is about to visit the pair
`(i, b)`, relative to the inode table `ins0` and image bytes `data0` at the start: the
table has kept its shape, the cursor is the rank of `(i, b)`, every pair already visited
holds its rank, and the data-model invariants and the contents of every listed block are
kept. -/
structure DefragInv (sb : SuperBlock) (ins0 : List Inode) (data0 : Nat → Nat) (bmLen : Nat)
    (st : DefragState) (i b : Nat) : Prop where
  shape : SameShape st.inodes ins0
  next_eq : st.nextFreeBlock = rankBefore ins0 i + b
  done : ∀ i' b', Pos ins0 i' b' → (i' < i ∨ (i' = i ∧ b' < b)) →
    blockAt st.inodes i' b' = rankBefore ins0 i' + b'
  bounds : ∀ i' b', Pos ins0 i' b' → blockAt st.inodes i' b' < sb.blocksCount
  nodup : ∀ i1 b1 i2 b2, Pos ins0 i1 b1 → Pos ins0 i2 b2 →
    blockAt st.inodes i1 b1 = blockAt st.inodes i2 b2 → i1 = i2 ∧ b1 = b2
  consistent : ∀ x, isBlockUsed st.bitmap x = true ↔
    ∃ i' b', Pos ins0 i' b' ∧ blockAt st.inodes i' b' = x
  content : ∀ i' b', Pos ins0 i' b' →
    readBlock sb st.data (blockAt st.inodes i' b') = readBlock sb data0 (blockAt ins0 i' b')
  bm_len : st.bitmap.length = bmLen
  bytes : BytesOk st.bitmap

/-- The block numbers met by the scan of `defragmentDisk` in the slots below `i`, in scan
order (ascending slot, then ascending position). -/
def scanUpTo (inodes : List Inode) : Nat → List Nat
  | 0 => []
  | i + 1 => scanUpTo inodes i ++
      (if (inodeAt inodes i).isUsed then
        (List.range (inodeAt inodes i).blocksAllocated).map fun b => blockAt inodes i b
      else [])

/-- The block numbers of all `(inode, position)` pairs in scan order. -/
def scanOrder (inodes : List Inode) : List Nat := scanUpTo inodes MAX_FILES

/-- The scenario of an overwrite: `add a 600` on the new image, then `add a 256` with the
overwrite accepted. -/
def scenarioOverwrite : Disk :=
  (addNewFile (addNewFile scenarioDisk [97] 600 false).disk [97] 256 true).disk

/-- Slot `k` is the lowest-indexed used slot named `name`. -/
def FirstNamed (inodes : List Inode) (name : List Nat) (k : Nat) : Prop :=
  k < MAX_FILES ∧ (inodeAt inodes k).isUsed = true ∧ (inodeAt inodes k).fileName = name ∧
    ∀ j, j < k → ¬ ((inodeAt inodes j).isUsed = true ∧ (inodeAt inodes j).fileName = name)

/-- Slot `k` is the lowest-indexed unused slot. -/
def FirstFree (inodes : List Inode) (k : Nat) : Prop :=
  k < MAX_FILES ∧ (inodeAt inodes k).isUsed = false ∧
    ∀ j, j < k → (inodeAt inodes j).isUsed = true

/-- No used slot is named `name`. -/
def NameFree (inodes : List Inode) (name : List Nat) : Prop :=
  ∀ i, i < MAX_FILES →
    ¬ ((inodeAt inodes i).isUsed = true ∧ (inodeAt inodes i).fileName = name)

/-- The call `addNewFile d name size ow` goes on with slot `k`: the slot loop chooses `k`,
the call ends with file-too-large, insufficient-space or added, and when it ends with
added slot `k` holds the file while every other slot is as before. -/
def StoredAt (d : Disk) (name : List Nat) (size : Nat) (ow : Bool) (k : Nat) : Prop :=
  slotLoop d.inodes name ow MAX_FILES 0 none = SlotChoice.chosen (some k) ∧
  ((addNewFile d name size ow).outcome = AddOutcome.fileTooLarge ∨
    (addNewFile d name size ow).outcome = AddOutcome.insufficientSpace ∨
    (addNewFile d name size ow).outcome = AddOutcome.added) ∧
  ((addNewFile d name size ow).outcome = AddOutcome.added →
    (inodeAt (addNewFile d name size ow).disk.inodes k).isUsed = true ∧
    (inodeAt (addNewFile d name size ow).disk.inodes k).fileName = name ∧
    (inodeAt (addNewFile d name size ow).disk.inodes k).fileSize = size ∧
    ∀ j, j ≠ k → inodeAt (addNewFile d name size ow).disk.inodes j = inodeAt d.inodes j)

/-- Number of set bits of the bitmap. -/
def setBitCount (bitmap : List Nat) : Nat :=
  ((List.range (8 * bitmap.length)).filter fun x => isBlockUsed bitmap x).length

/-! ## Copy-out with reads and writes that can come back short -/

/-- The calls `fseek(offset); fread(buf, 1, n)` on an image file of `fileLen` bytes: the
bytes the file holds from `offset`, at most `n` (fewer when the file ends before). -/
def freadAt (data : Nat → Nat) (fileLen offset n : Nat) : List Nat :=
  readAt data offset (min n (fileLen - offset))

/-- How `copyFileFromVirtualDisk` ends. -/
inductive CopyOutOutcome where
  | notFound
  | nameTooLong
  | cancelled
  | readError
  | writeError
  | copied
deriving DecidableEq, Repr

/-- The copy loop of `copyFileFromVirtualDisk` (lines 508-528) with its two checks. The
image file has `fileLen` bytes; the output file takes `sinkCap` bytes in all, so
`fwrite` writes what still fits. The result is the way the loop ends and the bytes in the
output file. -/
def copyOutLoopChecked (sb : SuperBlock) (data : Nat → Nat) (fileLen sinkCap : Nat)
    (inode : Inode) : Nat → Nat → Nat → List Nat → CopyOutOutcome × List Nat
  | 0, _, _, out => (CopyOutOutcome.copied, out)
  | fuel + 1, i, remainingBytes, out =>
    if i < inode.blocksAllocated then
      let bytesToRead := if remainingBytes < sb.blockSize then remainingBytes else sb.blockSize
      let buffer := freadAt data fileLen (blockOffset sb (inode.blockIndex.getD i 0)) bytesToRead
      let bytesRead := buffer.length
      if bytesRead ≠ bytesToRead then (CopyOutOutcome.readError, out)
      else
        let written := min bytesRead (sinkCap - out.length)
        if written ≠ bytesRead then (CopyOutOutcome.writeError, out ++ buffer.take written)
        else
          copyOutLoopChecked sb data fileLen sinkCap inode fuel (i + 1)
            (remainingBytes - bytesToRead) (out ++ buffer)
    else (CopyOutOutcome.copied, out)

/-- Function `copyFileFromVirtualDisk(diskName, filename)` on the image `d` whose file has
`fileLen` bytes: `newFilename` is the name typed at the prompt, `outputExists` the result
of `access(newFilename, F_OK) == 0`, `overwrite` the answer to the overwrite prompt and
`sinkCap` the number of bytes the output file can take. The result is the outcome and the
bytes written to the output file. -/
def copyFileFromVirtualDisk (d : Disk) (fileLen : Nat) (filename newFilename : List Nat)
    (outputExists overwrite : Bool) (sinkCap : Nat) : CopyOutOutcome × List Nat :=
  match findFile d.inodes filename MAX_FILES 0 with
  | none => (CopyOutOutcome.notFound, [])
  | some inodeIndex =>
    if newFilename.length ≥ MAX_FILENAME_LENGTH then (CopyOutOutcome.nameTooLong, [])
    else if outputExists = true ∧ overwrite = false then (CopyOutOutcome.cancelled, [])
    else
      copyOutLoopChecked d.sb d.data fileLen sinkCap (inodeAt d.inodes inodeIndex)
        (inodeAt d.inodes inodeIndex).blocksAllocated 0
        (inodeAt d.inodes inodeIndex).fileSize []

/-- The output of copy-out in the words of the specification: for each block of the
list, in order, the first `min(remaining, blockSize)` bytes of the block, `remaining`
going down by the bytes emitted. -/
def copyOutSpec (sb : SuperBlock) (data : Nat → Nat) : List Nat → Nat → List Nat
  | [], _ => []
  | b :: rest, remaining =>
    (readBlock sb data b).take (min remaining sb.blockSize) ++
      copyOutSpec sb data rest (remaining - min remaining sb.blockSize)

/-- No read of copy-out is short: for each block of the list, in order, the
`min(remaining, blockSize)` bytes asked for lie inside the file of `fileLen` bytes. -/
def AllReadable (sb : SuperBlock) (fileLen : Nat) : List Nat → Nat → Prop
  | [], _ => True
  | b :: rest, remaining =>
    min remaining sb.blockSize ≤ fileLen - blockOffset sb b ∧
      AllReadable sb fileLen rest (remaining - min remaining sb.blockSize)

/-! ## The superblock with the C widths of its fields -/

/-- Conversion of an integer value to `int` (32 bits, two's complement): the value is
reduced modulo `2^32` into the range from `-2^31` to `2^31 - 1`. -/
def toInt32 (n : Int) : Int := (n + 2 ^ 31) % 2 ^ 32 - 2 ^ 31

/-- Type `SuperBlock` with the widths of its fields: `diskName` is the array of 32 bytes,
`diskSize` and `blockSize` are `size_t`, the six other fields are `int`. -/
structure SuperBlockC where
  diskName : List Nat
  diskSize : Nat
  blockSize : Nat
  blocksCount : Int
  inodeAreaSize : Int
  inodeAreaOffset : Int
  bitmapSize : Int
  bitmapOffset : Int
  dataAreaOffset : Int
deriving DecidableEq, Repr

/-- The call `strcpy(dst, src)` on an array `dst`: the bytes of `src`, the terminator, and
the bytes of `dst` behind them as they were. -/
def strcpy (dst src : List Nat) : List Nat :=
  src ++ [0] ++ dst.drop (src.length + 1)

/-- Lines 130-140 of `createVirtualDisk`: the record `sb` in the widths of C. `stack` is
what the array `sb.diskName` holds before `strcpy`. The quotient and the product by
`sizeof(Inode)` are computed in `size_t` and converted to `int`; the sums are `int`
sums, taken modulo `2^32` where they leave the range of `int` (C leaves that case
undefined), and the division by 8 is the truncating `int` division. A block size of 0 has
no quotient (`none`). -/
def createSuperBlock (sizeofSuperBlock sizeofInode : Nat) (stack diskName : List Nat)
    (diskSize blockSize : Nat) : Option SuperBlockC :=
  if blockSize = 0 then none
  else
    let blocksCount := toInt32 ((diskSize / blockSize : Nat) : Int)
    let inodeAreaSize := toInt32 ((MAX_FILES * sizeofInode % SIZE_MOD : Nat) : Int)
    let bitmapSize := Int.tdiv (toInt32 (blocksCount + 7)) 8
    let inodeAreaOffset := toInt32 ((sizeofSuperBlock : Nat) : Int)
    let bitmapOffset := toInt32 (inodeAreaOffset + inodeAreaSize)
    let dataAreaOffset := toInt32 (bitmapOffset + bitmapSize)
    some { diskName := strcpy stack diskName, diskSize := diskSize, blockSize := blockSize,
           blocksCount := blocksCount, inodeAreaSize := inodeAreaSize,
           inodeAreaOffset := inodeAreaOffset, bitmapSize := bitmapSize,
           bitmapOffset := bitmapOffset, dataAreaOffset := dataAreaOffset }

/-- The geometry in the words of the specification, for `sizeof(SuperBlock)` and
`sizeof(Inode)` given: block count, bitmap size and the three offsets as numbers. -/
structure GeometrySpec (sizeofSuperBlock sizeofInode diskSize blockSize : Nat)
    (sb : SuperBlockC) : Prop where
  blocksCount : sb.blocksCount = ((diskSize / blockSize : Nat) : Int)
  bitmapSize : sb.bitmapSize = ((ceilDiv (diskSize / blockSize) 8 : Nat) : Int)
  inodeAreaSize : sb.inodeAreaSize = ((64 * sizeofInode : Nat) : Int)
  inodeAreaOffset : sb.inodeAreaOffset = ((sizeofSuperBlock : Nat) : Int)
  bitmapOffset : sb.bitmapOffset = sb.inodeAreaOffset + sb.inodeAreaSize
  dataAreaOffset : sb.dataAreaOffset = sb.bitmapOffset + sb.bitmapSize

/-! ## The image file of `createVirtualDisk`, byte by byte -/

/-- The value `sizeof(SuperBlock)` on LP64: 32 + 8 + 8 + 6 * 4, without padding. -/
def SIZEOF_SUPERBLOCK : Nat := 72

/-- The value `sizeof(Inode)` on LP64: 32 + 8 + 1 (+ 3 of padding) + 16 * 4 + 4. -/
def SIZEOF_INODE : Nat := 112

/-- The `w` bytes of the unsigned integer `v` in memory, least significant byte first. -/
def leBytes (w v : Nat) : List Nat :=
  (List.range w).map fun i => v / 256 ^ i % 256

/-- The unsigned integer that a sequence of bytes holds, least significant byte first. -/
def leValue : List Nat → Nat
  | [] => 0
  | b :: rest => b + 256 * leValue rest

/-- The 4 bytes of an `int` in memory (two's complement). -/
def int32Bytes (v : Int) : List Nat := leBytes 4 (v % 2 ^ 32).toNat

/-- The `int` that 4 bytes hold. -/
def int32Value (bytes : List Nat) : Int := toInt32 ((leValue bytes : Nat) : Int)

/-- The C string that an array of `char` holds: the bytes before the first zero byte. -/
def cString (bytes : List Nat) : List Nat := bytes.takeWhile fun c => c != 0

/-- The 72 bytes of a `SuperBlock` record in memory, field after field in the order of
the declaration. -/
def superBlockBytes (sb : SuperBlockC) : List Nat :=
  sb.diskName.take 32 ++ leBytes 8 sb.diskSize ++ leBytes 8 sb.blockSize ++
    int32Bytes sb.blocksCount ++ int32Bytes sb.inodeAreaSize ++
    int32Bytes sb.inodeAreaOffset ++ int32Bytes sb.bitmapSize ++
    int32Bytes sb.bitmapOffset ++ int32Bytes sb.dataAreaOffset

/-- The `SuperBlock` record that 72 bytes of memory hold. -/
def superBlockOfBytes (bytes : List Nat) : SuperBlockC :=
  { diskName := bytes.take 32,
    diskSize := leValue ((bytes.drop 32).take 8),
    blockSize := leValue ((bytes.drop 40).take 8),
    blocksCount := int32Value ((bytes.drop 48).take 4),
    inodeAreaSize := int32Value ((bytes.drop 52).take 4),
    inodeAreaOffset := int32Value ((bytes.drop 56).take 4),
    bitmapSize := int32Value ((bytes.drop 60).take 4),
    bitmapOffset := int32Value ((bytes.drop 64).take 4),
    dataAreaOffset := int32Value ((bytes.drop 68).take 4) }

/-- Function `createVirtualDisk` on the bytes of the image file (lines 142-161): the record
`sb` at offset 0, `MAX_FILES` zeroed inode records at `sb.inodeAreaOffset`, the zeroed
bitmap at `sb.bitmapOffset`, and at last one zero byte at offset `diskSize - 1`. The
subtraction is a `size_t` one; `fseek` refuses an offset that is negative as a `long` and
then the byte goes where the bitmap ended. A byte of the file that was never written reads
as 0. A negative `sb.bitmapSize` leaves `calloc` without memory (`none`). -/
def createImage (stack diskName : List Nat) (diskSize blockSize : Nat) :
    Option (Nat → Nat) :=
  match createSuperBlock SIZEOF_SUPERBLOCK SIZEOF_INODE stack diskName diskSize blockSize with
  | none => none
  | some sb =>
    if sb.bitmapSize < 0 then none
    else
      let f1 := writeAt (fun _ => 0) 0 (superBlockBytes sb)
      let f2 := writeAt f1 sb.inodeAreaOffset.toNat (List.replicate (MAX_FILES * SIZEOF_INODE) 0)
      let f3 := writeAt f2 sb.bitmapOffset.toNat (List.replicate sb.bitmapSize.toNat 0)
      let last := (diskSize + SIZE_MOD - 1) % SIZE_MOD
      let pos := if last < 2 ^ 63 then last else sb.bitmapOffset.toNat + sb.bitmapSize.toNat
      some (writeAt f3 pos [0])

/-- Function `readSuperBlock`: the record in the first `sizeof(SuperBlock)` bytes of the
image file. -/
def readSuperBlock (file : Nat → Nat) : SuperBlockC :=
  superBlockOfBytes (readAt file 0 SIZEOF_SUPERBLOCK)

/-! ## Reachable images and what every operation keeps -/

/-- The invariants that every operation keeps, an overwrite included: used inodes hold at
most `INODE_BLOCK_NUM` blocks, every listed block index is below `blocksCount`, no block
index is listed twice, and every listed block has its bit set (a set bit need not be
listed). -/
structure AllocInv (d : Disk) : Prop where
  alloc_le : ∀ i, i < MAX_FILES → (inodeAt d.inodes i).isUsed = true →
    (inodeAt d.inodes i).blocksAllocated ≤ INODE_BLOCK_NUM
  bounds : ∀ i b, Pos d.inodes i b → blockAt d.inodes i b < d.sb.blocksCount
  nodup : ∀ i b i' b', Pos d.inodes i b → Pos d.inodes i' b' →
    blockAt d.inodes i b = blockAt d.inodes i' b' → i = i' ∧ b = b'
  listed_set : ∀ i b, Pos d.inodes i b → isBlockUsed d.bitmap (blockAt d.inodes i b) = true

/-- The table `t` has the shape of `t0` and holds, at every pair of the scan, the image
under `f` of the block number that `t0` holds there. -/
def TableRel (f : Nat → Nat) (t0 t : List Inode) : Prop :=
  SameShape t t0 ∧ ∀ i b, Pos t0 i b → blockAt t i b = f (blockAt t0 i b)

/-- The part of the loop invariant of `defragmentDisk` that holds on every reachable
image, when the scan is about to visit the pair `(i, b)`: the table has kept its shape,
the cursor is the rank of `(i, b)`, the listed block indices are below `blocksCount`,
pairwise different, and their bits are set. -/
structure DefragWeak (sb : SuperBlock) (ins0 : List Inode) (bmLen : Nat)
    (st : DefragState) (i b : Nat) : Prop where
  shape : SameShape st.inodes ins0
  next_eq : st.nextFreeBlock = rankBefore ins0 i + b
  bounds : ∀ i' b', Pos ins0 i' b' → blockAt st.inodes i' b' < sb.blocksCount
  nodup : ∀ i1 b1 i2 b2, Pos ins0 i1 b1 → Pos ins0 i2 b2 →
    blockAt st.inodes i1 b1 = blockAt st.inodes i2 b2 → i1 = i2 ∧ b1 = b2
  listed_set : ∀ i' b', Pos ins0 i' b' →
    isBlockUsed st.bitmap (blockAt st.inodes i' b') = true
  bm_len : st.bitmap.length = bmLen
  bytes : BytesOk st.bitmap

/-- The images reachable from a newly created one by `addNewFile` (with either answer to
the overwrite prompt), `removeFile` and `defragmentDisk`. The image is created on LP64
(`sizeof(SuperBlock) = 72`, `sizeof(Inode) = 112`) with a name that fits `diskName`, a
block size above 0, a disk size that is a file offset and lies above
`sizeof(SuperBlock)`, so that the zero byte written at offset `diskSize - 1` falls behind
the superblock and the record, inode table and bitmap in the file are those of
`createVirtualDisk` here, and a block count that the `int` fields hold. The relation is
about the superblock, the inode table and the bitmap; the `data` component of these images
is the one of the embedding where every read is served in full. -/
inductive Reachable : Disk → Prop where
  | create (diskName : List Nat) (diskSize blockSize : Nat)
      (hname : diskName.length < MAX_FILENAME_LENGTH)
      (hpos : 0 < blockSize) (hlt : blockSize < SIZE_MOD)
      (hsize : diskSize < 2 ^ 63) (hsent : SIZEOF_SUPERBLOCK < diskSize)
      (hfit : diskSize / blockSize + 7 < 2 ^ 31) :
      Reachable (createVirtualDisk SIZEOF_SUPERBLOCK SIZEOF_INODE diskName diskSize blockSize)
  | add (d : Disk) (filename : List Nat) (fileSize : Nat) (overwrite : Bool) :
      Reachable d → Reachable (addNewFile d filename fileSize overwrite).disk
  | remove (d : Disk) (filename : List Nat) :
      Reachable d → Reachable (removeFile d filename).2
  | defrag (d : Disk) : Reachable d → Reachable (defragmentDisk d)

/-- The bytes a buffer returned by the `k`-th `malloc` of a call holds before anything is
stored in it. C leaves them unspecified: `heap k j` is byte `j` of that buffer. -/
def freshBuffer (heap : Nat → Nat → Nat) (k n : Nat) : List Nat :=
  (List.range n).map (heap k)

/-- The calls `fseek(offset); fread(buf, 1, n)` into a buffer that holds `buf`, on a file
of `fileLen` bytes: the bytes read replace the start of the buffer, the rest of the buffer
is as before. -/
def freadInto (data : Nat → Nat) (fileLen offset n : Nat) (buf : List Nat) : List Nat :=
  freadAt data fileLen offset n ++ buf.drop (freadAt data fileLen offset n).length

/-- The state of `defragmentDisk` on a file: the in-memory table and bitmap (persisted as
in `DefragState`), the bytes and the length of the image file, the cursor, the content of
`tempBlock` and the number of buffers allocated so far. -/
structure DefragFileState where
  inodes : List Inode
  bitmap : List Nat
  data : Nat → Nat
  fileLen : Nat
  nextFreeBlock : Nat
  tempBlock : List Nat
  mallocs : Nat

/-- The table, bitmap, bytes and cursor of a state on a file. -/
def DefragFileState.toState (fs : DefragFileState) : DefragState :=
  { inodes := fs.inodes, bitmap := fs.bitmap, data := fs.data,
    nextFreeBlock := fs.nextFreeBlock }

/-- Lines 644-666 on a file: `tempBlock` is read from the block `currentBlockIndex`, a new
buffer `swapBlock` from the block `nextFreeBlock`, each as far as the file goes; then
`block_size` bytes of `swapBlock` are written to the first block and `block_size` bytes of
`tempBlock` to the second, and the two table entries are set. -/
def swapWithOnFile (sb : SuperBlock) (heap : Nat → Nat → Nat) (currentBlockIndex i b k kk : Nat)
    (fs : DefragFileState) : DefragFileState :=
  let oldBlockOffset := blockOffset sb currentBlockIndex
  let tempBlock := freadInto fs.data fs.fileLen oldBlockOffset sb.blockSize fs.tempBlock
  let newBlockOffset := blockOffset sb fs.nextFreeBlock
  let swapBlock := freadInto fs.data fs.fileLen newBlockOffset sb.blockSize
    (freshBuffer heap fs.mallocs sb.blockSize)
  let w1 := fwriteAt fs.data fs.fileLen oldBlockOffset swapBlock
  let w2 := fwriteAt w1.1 w1.2 newBlockOffset tempBlock
  { fs with
    data := w2.1, fileLen := w2.2, tempBlock := tempBlock, mallocs := fs.mallocs + 1,
    inodes := setBlockAt (setBlockAt fs.inodes k kk currentBlockIndex) i b fs.nextFreeBlock }

/-- Lines 642-670 on a file: the loop over `kk` for one inode `k`. -/
def swapSearchBlocksOnFile (sb : SuperBlock) (heap : Nat → Nat → Nat)
    (currentBlockIndex i b k : Nat) : Nat → Nat → DefragFileState → DefragFileState
  | 0, _, fs => fs
  | fuel + 1, kk, fs =>
    if kk < (inodeAt fs.inodes k).blocksAllocated then
      if blockAt fs.inodes k kk = fs.nextFreeBlock then
        swapWithOnFile sb heap currentBlockIndex i b k kk fs
      else swapSearchBlocksOnFile sb heap currentBlockIndex i b k fuel (kk + 1) fs
    else fs

/-- Lines 640-671 on a file: the loop over `k`, which goes on after a swap. -/
def swapSearchFilesOnFile (sb : SuperBlock) (heap : Nat → Nat → Nat)
    (currentBlockIndex i b : Nat) : Nat → Nat → DefragFileState → DefragFileState
  | 0, _, fs => fs
  | fuel + 1, k, fs =>
    if (inodeAt fs.inodes k).isUsed = false then
      swapSearchFilesOnFile sb heap currentBlockIndex i b fuel (k + 1) fs
    else
      swapSearchFilesOnFile sb heap currentBlockIndex i b fuel (k + 1)
        (swapSearchBlocksOnFile sb heap currentBlockIndex i b k
          (inodeAt fs.inodes k).blocksAllocated 0 fs)

/-- Lines 673-690 on a file: `tempBlock` is read from the block `currentBlockIndex` as far
as the file goes and `block_size` bytes of it are written to the block `nextFreeBlock`;
then the entry and the two bits are set. -/
def moveBlockOnFile (sb : SuperBlock) (currentBlockIndex i b : Nat) (fs : DefragFileState) :
    DefragFileState :=
  let tempBlock := freadInto fs.data fs.fileLen (blockOffset sb currentBlockIndex)
    sb.blockSize fs.tempBlock
  let w := fwriteAt fs.data fs.fileLen (blockOffset sb fs.nextFreeBlock) tempBlock
  { fs with
    data := w.1, fileLen := w.2, tempBlock := tempBlock,
    inodes := setBlockAt fs.inodes i b fs.nextFreeBlock,
    bitmap := setBlockUsed (setBlockUsed fs.bitmap currentBlockIndex false)
      fs.nextFreeBlock true }

/-- Lines 637-693 on a file: the body of the loop over `b` for inode `i`. -/
def defragStepOnFile (sb : SuperBlock) (heap : Nat → Nat → Nat) (i b : Nat)
    (fs : DefragFileState) : DefragFileState :=
  let currentBlockIndex := blockAt fs.inodes i b
  let fs1 :=
    if currentBlockIndex ≠ fs.nextFreeBlock then
      if isBlockUsed fs.bitmap fs.nextFreeBlock then
        swapSearchFilesOnFile sb heap currentBlockIndex i b MAX_FILES 0 fs
      else moveBlockOnFile sb currentBlockIndex i b fs
    else fs
  { fs1 with nextFreeBlock := fs1.nextFreeBlock + 1 }

/-- Lines 636-694 on a file: the loop over `b` for inode `i`, from position `b`. -/
def defragBlocksOnFile (sb : SuperBlock) (heap : Nat → Nat → Nat) (i : Nat) :
    Nat → Nat → DefragFileState → DefragFileState
  | 0, _, fs => fs
  | fuel + 1, b, fs =>
    if b < (inodeAt fs.inodes i).blocksAllocated then
      defragBlocksOnFile sb heap i fuel (b + 1) (defragStepOnFile sb heap i b fs)
    else fs

/-- Lines 634-695 on a file: the loop over the inodes, from slot `i`. -/
def defragFilesOnFile (sb : SuperBlock) (heap : Nat → Nat → Nat) :
    Nat → Nat → DefragFileState → DefragFileState
  | 0, _, fs => fs
  | fuel + 1, i, fs =>
    if (inodeAt fs.inodes i).isUsed = false then defragFilesOnFile sb heap fuel (i + 1) fs
    else
      defragFilesOnFile sb heap fuel (i + 1)
        (defragBlocksOnFile sb heap i (inodeAt fs.inodes i).blocksAllocated 0 fs)

/-- The state of `defragmentDisk` when its loop ends, on the image `d` whose file has
`fileLen` bytes; `tempBlock` is the first buffer allocated. -/
def defragRunOnFile (d : Disk) (fileLen : Nat) (heap : Nat → Nat → Nat) : DefragFileState :=
  defragFilesOnFile d.sb heap MAX_FILES 0
    { inodes := d.inodes, bitmap := d.bitmap, data := d.data, fileLen := fileLen,
      nextFreeBlock := 0, tempBlock := freshBuffer heap 0 d.sb.blockSize, mallocs := 1 }

/-- Function `defragmentDisk(diskName)` on the image `d` whose file has `fileLen` bytes:
the image it leaves and the length of its file. -/
def defragmentDiskOnFile (d : Disk) (fileLen : Nat) (heap : Nat → Nat → Nat) : Disk × Nat :=
  ({ d with inodes := (defragRunOnFile d fileLen heap).inodes,
            bitmap := (defragRunOnFile d fileLen heap).bitmap,
            data := (defragRunOnFile d fileLen heap).data },
    (defragRunOnFile d fileLen heap).fileLen)

/-! ## The scenarios of copy-in and of a defragmentation after an overwrite -/

/-- The image of 16 blocks of 16 bytes (`create d 256 16`) after `add a 16`: slot 0 (`a`)
lists block 0. -/
def copyInBefore : Disk := (addNewFile copyInDisk [97] 16 false).disk

/-- A new image of 16 blocks of 8 bytes (`create d 128 8`). -/
def contentDisk : Disk := createVirtualDisk 72 112 [100] 128 8

/-- The image after `add a 8`, `add a 8` with the overwrite accepted and `add b 8`: slot 0
(`a`) lists block 1, slot 1 (`b`) lists block 2, and bit 0 is still set for the block that
`a` held before the overwrite. -/
def contentAdds : Disk :=
  (addNewFile (addNewFile (addNewFile contentDisk [97] 8 false).disk [97] 8 true).disk
    [98] 8 false).disk

/-- The image and the length of its file after, on `contentAdds`, `cpin` of the host file
`1, ..., 8` stored as `a` and `cpin` of the host file `21, ..., 28` stored as `b`, the
overwrite accepted both times. -/
def contentBefore : Disk × Nat :=
  (copyFileToVirtualDisk
    (copyFileToVirtualDisk contentAdds (createFileLen 72 112 128 8)
      [1, 2, 3, 4, 5, 6, 7, 8] [97] true).2.1
    (copyFileToVirtualDisk contentAdds (createFileLen 72 112 128 8)
      [1, 2, 3, 4, 5, 6, 7, 8] [97] true).2.2
    [21, 22, 23, 24, 25, 26, 27, 28] [98] true).2

/-- Two states of `defragmentDisk` on a file agree in everything but the bytes: the table,
the bitmap, the length of the file, the cursor and the size of `tempBlock`. -/
def SameLayout (fs fs' : DefragFileState) : Prop :=
  fs.inodes = fs'.inodes ∧ fs.bitmap = fs'.bitmap ∧ fs.fileLen = fs'.fileLen ∧
    fs.nextFreeBlock = fs'.nextFreeBlock ∧ fs.tempBlock.length = fs'.tempBlock.length

/-- Every block listed by a used inode lies inside the image file of `fileLen` bytes. -/
def InFile (sb : SuperBlock) (inodes : List Inode) (fileLen : Nat) : Prop :=
  ∀ x ∈ scanOrder inodes, blockOffset sb x + sb.blockSize ≤ fileLen

/-- The embedding holds 0 at every offset behind the end of the image file. -/
def ZeroBeyond (data : Nat → Nat) (fileLen : Nat) : Prop :=
  ∀ p, fileLen ≤ p → data p = 0

/-- What a state of `defragmentDisk` on a file needs for every read of a listed block to
be served in full: the listed blocks lie inside the file, the embedding holds 0 behind the
end of the file, and `tempBlock` has `block_size` bytes. -/
structure FileOk (sb : SuperBlock) (fs : DefragFileState) : Prop where
  inFile : InFile sb fs.inodes fs.fileLen
  zero : ZeroBeyond fs.data fs.fileLen
  temp : fs.tempBlock.length = sb.blockSize

/-- A state of `defragmentDisk` on a file and a state of the embedding agree in the table,
the bitmap and the cursor. -/
def SameTable (fs : DefragFileState) (st : DefragState) : Prop :=
  fs.inodes = st.inodes ∧ fs.bitmap = st.bitmap ∧ fs.nextFreeBlock = st.nextFreeBlock

/-! # Properties -/

set_option maxRecDepth 100000

/-! ### Laws of the accessors -/

theorem and_one_shl_ne_zero (x o : Nat) : ((x &&& (1 <<< o)) != 0) = x.testBit o := by
  rw [Nat.one_shiftLeft]
  by_cases h : x.testBit o = true
  · rw [h]
    have : (x &&& 2 ^ o).testBit o = true := by
      rw [Nat.testBit_and, h, Nat.testBit_two_pow_self]; rfl
    have hne : x &&& 2 ^ o ≠ 0 := by
      intro h0; rw [h0] at this; simp at this
    simpa using hne
  · have hf : x.testBit o = false := by simpa using h
    rw [hf]
    have : x &&& 2 ^ o = 0 := by
      apply Nat.eq_of_testBit_eq
      intro i
      rw [Nat.testBit_and, Nat.testBit_two_pow, Nat.zero_testBit]
      by_cases hi : o = i
      · subst hi; simp [hf]
      · simp [hi]
    simp [this]

theorem isBlockUsed_eq_testBit (bm : List Nat) (i : Nat) :
    isBlockUsed bm i = (bm.getD (i / 8) 0).testBit (i % 8) := by
  simp only [isBlockUsed, and_one_shl_ne_zero]

theorem setBlockUsed_length (bm : List Nat) (i : Nat) (v : Bool) :
    (setBlockUsed bm i v).length = bm.length := by
  unfold setBlockUsed; split <;> simp

theorem setBlockUsed_bytesOk (bm : List Nat) (i : Nat) (v : Bool) (h : BytesOk bm) :
    BytesOk (setBlockUsed bm i v) := by
  intro x hx
  unfold setBlockUsed at hx
  split at hx
  all_goals
    rcases List.mem_or_eq_of_mem_set hx with hx | hx
    · exact h x hx
    · rw [hx]; exact Nat.mod_lt _ (by decide)

theorem testBit_mask (o j : Nat) (hj : j < 8) :
    (255 ^^^ (1 <<< o)).testBit j = !decide (o = j) := by
  rw [Nat.testBit_xor, Nat.one_shiftLeft, Nat.testBit_two_pow]
  have : (255 : Nat) = 2 ^ 8 - 1 := by decide
  rw [this, Nat.testBit_two_pow_sub_one]
  simp [hj]

theorem getD_set_same (l : List Nat) (n x : Nat) (h : n < l.length) :
    (l.set n x).getD n 0 = x := by
  simp [List.getD_eq_getElem?_getD, List.getElem?_set, h]

theorem getD_set_other (l : List Nat) (n m x : Nat) (h : n ≠ m) :
    (l.set n x).getD m 0 = l.getD m 0 := by
  simp [List.getD_eq_getElem?_getD, List.getElem?_set, h]

/-- Reading back the bit that was just written. -/
theorem isBlockUsed_set_same (bm : List Nat) (i : Nat) (v : Bool) (h : i / 8 < bm.length) :
    isBlockUsed (setBlockUsed bm i v) i = v := by
  have h8 : i % 8 < 8 := Nat.mod_lt _ (by decide)
  rw [isBlockUsed_eq_testBit]
  unfold setBlockUsed
  cases v
  · simp only [Bool.false_eq_true, if_false]
    rw [getD_set_same _ _ _ h, Nat.testBit_mod_two_pow _ 8, Nat.testBit_and,
      testBit_mask _ _ h8]
    simp
  · simp only [if_true]
    rw [getD_set_same _ _ _ h, Nat.testBit_mod_two_pow _ 8, Nat.testBit_or,
      Nat.one_shiftLeft, Nat.testBit_two_pow_self]
    simp [h8]

/-- Writing one bit leaves every other bit as it was. -/
theorem isBlockUsed_set_other (bm : List Nat) (i j : Nat) (v : Bool)
    (h : i ≠ j) : isBlockUsed (setBlockUsed bm i v) j = isBlockUsed bm j := by
  have h8 : j % 8 < 8 := Nat.mod_lt _ (by decide)
  rw [isBlockUsed_eq_testBit, isBlockUsed_eq_testBit]
  by_cases hq : i / 8 = j / 8
  · have hr : i % 8 ≠ j % 8 := by
      intro hr; apply h
      rw [← Nat.div_add_mod i 8, ← Nat.div_add_mod j 8, hq, hr]
    by_cases hlen : i / 8 < bm.length
    · unfold setBlockUsed
      cases v
      · simp only [Bool.false_eq_true, if_false]
        rw [← hq, getD_set_same _ _ _ hlen, Nat.testBit_mod_two_pow _ 8, Nat.testBit_and,
          testBit_mask _ _ h8]
        simp [hr, h8]
      · simp only [if_true]
        rw [← hq, getD_set_same _ _ _ hlen, Nat.testBit_mod_two_pow _ 8, Nat.testBit_or,
          Nat.one_shiftLeft, Nat.testBit_two_pow]
        simp [hr, h8]
    · have : ∀ x, bm.set (i / 8) x = bm := by
        intro x; exact List.set_eq_of_length_le (by omega)
      unfold setBlockUsed
      split <;> rw [this]
  · unfold setBlockUsed
    split <;> rw [getD_set_other _ _ _ _ hq]

/-- A bitmap is determined by its length and its bits. -/
theorem bitmap_ext (a b : List Nat) (ha : BytesOk a) (hb : BytesOk b)
    (hlen : a.length = b.length)
    (h : ∀ i, i < 8 * a.length → isBlockUsed a i = isBlockUsed b i) : a = b := by
  apply List.ext_getElem hlen
  intro n h1 h2
  apply Nat.eq_of_testBit_eq
  intro o
  by_cases ho : o < 8
  · have := h (8 * n + o) (by omega)
    rw [isBlockUsed_eq_testBit, isBlockUsed_eq_testBit] at this
    have hd : (8 * n + o) / 8 = n := by omega
    have hm : (8 * n + o) % 8 = o := by omega
    rw [hd, hm] at this
    simpa [List.getD_eq_getElem?_getD, List.getElem?_eq_getElem, h1, h2] using this
  · have h256 : ∀ x, x < 256 → x.testBit o = false := by
      intro x hx
      apply Nat.testBit_lt_two_pow
      calc x < 2 ^ 8 := hx
        _ ≤ 2 ^ o := Nat.pow_le_pow_right (by decide) (by omega)
    rw [h256 _ (ha _ (List.getElem_mem h1)), h256 _ (hb _ (List.getElem_mem h2))]

/-- Bits outside the bitmap read as clear in the embedding. -/
theorem isBlockUsed_of_length_le (bm : List Nat) (i : Nat) (h : bm.length ≤ i / 8) :
    isBlockUsed bm i = false := by
  rw [isBlockUsed_eq_testBit]
  simp [List.getD_eq_getElem?_getD, List.getElem?_eq_none h]

theorem setBlocks_length (bm l : List Nat) (v : Bool) :
    (setBlocks bm l v).length = bm.length := by
  induction l generalizing bm with
  | nil => rfl
  | cons x xs ih => simp only [setBlocks, List.foldl_cons] at ih ⊢; rw [ih, setBlockUsed_length]

theorem setBlocks_bytesOk (bm l : List Nat) (v : Bool) (h : BytesOk bm) :
    BytesOk (setBlocks bm l v) := by
  induction l generalizing bm with
  | nil => exact h
  | cons x xs ih =>
    simp only [setBlocks, List.foldl_cons] at ih ⊢
    exact ih _ (setBlockUsed_bytesOk bm x v h)

/-- Bits of the bitmap after writing `v` at every index of `l`. -/
theorem isBlockUsed_setBlocks (bm l : List Nat) (v : Bool) (j : Nat)
    (hl : ∀ x ∈ l, x / 8 < bm.length) :
    isBlockUsed (setBlocks bm l v) j = if j ∈ l then v else isBlockUsed bm j := by
  induction l generalizing bm with
  | nil => simp [setBlocks]
  | cons x xs ih =>
    have hx : x / 8 < bm.length := hl x (List.mem_cons_self _ _)
    have hxs : ∀ y ∈ xs, y / 8 < (setBlockUsed bm x v).length := by
      intro y hy; rw [setBlockUsed_length]; exact hl y (List.mem_cons_of_mem _ hy)
    have := ih (setBlockUsed bm x v) hxs
    simp only [setBlocks, List.foldl_cons] at this ⊢
    rw [this]
    by_cases hj : j ∈ xs
    · simp [hj]
    · by_cases hjx : j = x
      · subst hjx; simp [hj, isBlockUsed_set_same _ _ _ hx]
      · have : x ≠ j := fun e => hjx e.symm
        simp [hj, hjx, isBlockUsed_set_other _ _ _ _ this]

/-! ## Lemmas on the catalogue loops -/

theorem inodeAt_set_same (l : List Inode) (i : Nat) (x : Inode) (h : i < l.length) :
    inodeAt (l.set i x) i = x := by
  simp [inodeAt, List.getD_eq_getElem?_getD, List.getElem?_set, h]

theorem inodeAt_set_other (l : List Inode) (i j : Nat) (x : Inode) (h : i ≠ j) :
    inodeAt (l.set i x) j = inodeAt l j := by
  simp [inodeAt, List.getD_eq_getElem?_getD, List.getElem?_set, h]

theorem inodeAt_mem (l : List Inode) (i : Nat) (h : i < l.length) : inodeAt l i ∈ l := by
  simp only [inodeAt, List.getD_eq_getElem?_getD, List.getElem?_eq_getElem h, Option.getD_some]
  exact List.getElem_mem h

theorem findFile_eq_some_iff (inodes : List Inode) (name : List Nat) (fuel i k : Nat) :
    findFile inodes name fuel i = some k ↔
      (i ≤ k ∧ k < i + fuel ∧ (inodeAt inodes k).isUsed = true ∧
        (inodeAt inodes k).fileName = name ∧
        ∀ j, i ≤ j → j < k →
          ¬ ((inodeAt inodes j).isUsed = true ∧ (inodeAt inodes j).fileName = name)) := by
  induction fuel generalizing i with
  | zero => simp only [findFile]; constructor
            · intro h; cases h
            · rintro ⟨h1, h2, _⟩; omega
  | succ f ih =>
    simp only [findFile]
    split
    · rename_i hm
      constructor
      · intro h
        have : i = k := by simpa using h
        subst this
        exact ⟨Nat.le_refl _, by omega, hm.1, hm.2, fun j h1 h2 => by omega⟩
      · rintro ⟨h1, _, _, _, h5⟩
        by_cases hik : i = k
        · rw [hik]
        · exact absurd hm (h5 i (Nat.le_refl _) (by omega))
    · rename_i hm
      rw [ih]
      constructor
      · rintro ⟨h1, h2, h3, h4, h5⟩
        refine ⟨by omega, by omega, h3, h4, ?_⟩
        intro j hj1 hj2
        by_cases hji : j = i
        · rw [hji]; exact hm
        · exact h5 j (by omega) hj2
      · rintro ⟨h1, h2, h3, h4, h5⟩
        have hik : i ≠ k := by
          intro e; rw [e] at hm; exact hm ⟨h3, h4⟩
        exact ⟨by omega, by omega, h3, h4, fun j hj1 hj2 => h5 j (by omega) hj2⟩

theorem findFile_eq_none_iff (inodes : List Inode) (name : List Nat) (fuel i : Nat) :
    findFile inodes name fuel i = none ↔
      ∀ j, i ≤ j → j < i + fuel →
        ¬ ((inodeAt inodes j).isUsed = true ∧ (inodeAt inodes j).fileName = name) := by
  induction fuel generalizing i with
  | zero => simp only [findFile]; constructor
            · intro _ j h1 h2; omega
            · intro _; trivial
  | succ f ih =>
    simp only [findFile]
    split
    · rename_i hm
      constructor
      · intro h; cases h
      · intro h; exact absurd hm (h i (Nat.le_refl _) (by omega))
    · rename_i hm
      rw [ih]
      constructor
      · intro h j h1 h2
        by_cases hji : j = i
        · rw [hji]; exact hm
        · exact h j (by omega) (by omega)
      · intro h j h1 h2
        exact h j (by omega) (by omega)

theorem firstUnused_eq_some_iff (inodes : List Inode) (fuel i k : Nat) :
    firstUnused inodes fuel i = some k ↔
      (i ≤ k ∧ k < i + fuel ∧ (inodeAt inodes k).isUsed = false ∧
        ∀ j, i ≤ j → j < k → (inodeAt inodes j).isUsed = true) := by
  induction fuel generalizing i with
  | zero => simp only [firstUnused]; constructor
            · intro h; cases h
            · rintro ⟨h1, h2, _⟩; omega
  | succ f ih =>
    simp only [firstUnused]
    split
    · rename_i hm
      constructor
      · intro h
        have : i = k := by simpa using h
        subst this
        exact ⟨Nat.le_refl _, by omega, hm, fun j h1 h2 => by omega⟩
      · rintro ⟨h1, _, _, h5⟩
        by_cases hik : i = k
        · rw [hik]
        · have := h5 i (Nat.le_refl _) (by omega)
          rw [hm] at this; cases this
    · rename_i hm
      have hu : (inodeAt inodes i).isUsed = true := by simpa using hm
      rw [ih]
      constructor
      · rintro ⟨h1, h2, h3, h5⟩
        refine ⟨by omega, by omega, h3, ?_⟩
        intro j hj1 hj2
        by_cases hji : j = i
        · rw [hji]; exact hu
        · exact h5 j (by omega) hj2
      · rintro ⟨h1, h2, h3, h5⟩
        have hik : i ≠ k := by
          intro e; rw [e, h3] at hu; cases hu
        exact ⟨by omega, by omega, h3, fun j hj1 hj2 => h5 j (by omega) hj2⟩

theorem firstUnused_eq_none_iff (inodes : List Inode) (fuel i : Nat) :
    firstUnused inodes fuel i = none ↔
      ∀ j, i ≤ j → j < i + fuel → (inodeAt inodes j).isUsed = true := by
  induction fuel generalizing i with
  | zero => simp only [firstUnused]; constructor
            · intro _ j h1 h2; omega
            · intro _; trivial
  | succ f ih =>
    simp only [firstUnused]
    split
    · rename_i hm
      constructor
      · intro h; cases h
      · intro h
        have := h i (Nat.le_refl _) (by omega)
        rw [hm] at this; cases this
    · rename_i hm
      have hu : (inodeAt inodes i).isUsed = true := by simpa using hm
      rw [ih]
      constructor
      · intro h j h1 h2
        by_cases hji : j = i
        · rw [hji]; exact hu
        · exact h j (by omega) (by omega)
      · intro h j h1 h2
        exact h j (by omega) (by omega)

/-- The slot loop when a used slot from `i` on carries the name: the first such slot
decides, whatever free slot was seen before. -/
theorem slotLoop_of_found (inodes : List Inode) (name : List Nat) (ow : Bool)
    (fuel i k : Nat) (idx : Option Nat) (h : findFile inodes name fuel i = some k) :
    slotLoop inodes name ow fuel i idx =
      if ow then SlotChoice.chosen (some k) else SlotChoice.cancelled := by
  induction fuel generalizing i idx with
  | zero => simp [findFile] at h
  | succ f ih =>
    simp only [findFile] at h
    simp only [slotLoop]
    split
    · rename_i hm
      rw [if_pos hm] at h
      have : i = k := by simpa using h
      rw [this]
    · rename_i hm
      rw [if_neg hm] at h
      exact ih _ _ h

/-- The slot loop when no used slot from `i` on carries the name: the first free slot
seen. -/
theorem slotLoop_of_not_found (inodes : List Inode) (name : List Nat) (ow : Bool)
    (fuel i : Nat) (idx : Option Nat) (h : findFile inodes name fuel i = none) :
    slotLoop inodes name ow fuel i idx =
      SlotChoice.chosen (match idx with
        | some x => some x
        | none => firstUnused inodes fuel i) := by
  induction fuel generalizing i idx with
  | zero => cases idx <;> simp [slotLoop, firstUnused]
  | succ f ih =>
    simp only [findFile] at h
    simp only [slotLoop]
    split
    · rename_i hm
      rw [if_pos hm] at h; cases h
    · rename_i hm
      rw [if_neg hm] at h
      rw [ih _ _ h]
      cases idx with
      | some x => simp
      | none =>
        simp only [firstUnused, and_true]
        by_cases hu : (inodeAt inodes i).isUsed = false
        · simp [hu]
        · simp [hu]

theorem take_succ_set (l : List Nat) (a x : Nat) (h : a < l.length) :
    (l.set a x).take (a + 1) = l.take a ++ [x] := by
  rw [List.take_succ]
  congr 1
  · apply List.ext_getElem
    · simp
    · intro n h1 h2
      have hn : n < a := by simp at h2; omega
      simp only [List.getElem_take, List.getElem_set]
      rw [if_neg (by omega)]
  · simp [List.getElem?_set, h]

theorem filter_free_congr (bm : List Nat) (i fuel : Nat) :
    (List.range' (i + 1) fuel).filter (fun x => !isBlockUsed (setBlockUsed bm i true) x) =
      (List.range' (i + 1) fuel).filter (fun x => !isBlockUsed bm x) := by
  apply List.filter_congr
  intro x hx
  have : i ≠ x := by
    have := (List.mem_range'_1.mp hx).1
    omega
  rw [isBlockUsed_set_other _ _ _ _ this]

/-- The allocation loop takes the first `required - allocated` free blocks from `i` on, in
ascending order: it sets their bits and stores them from position `allocated`. -/
theorem allocLoop_spec (req : Nat) (fuel i : Nat) (bm bl : List Nat) (a : Nat)
    (ha : a ≤ req) (hreq : req ≤ bl.length) :
    (allocLoop req fuel i bm bl a).1 =
        setBlocks bm (((List.range' i fuel).filter fun x => !isBlockUsed bm x).take (req - a)) true ∧
      (allocLoop req fuel i bm bl a).2.2 =
        a + (((List.range' i fuel).filter fun x => !isBlockUsed bm x).take (req - a)).length ∧
      (allocLoop req fuel i bm bl a).2.1.length = bl.length ∧
      (allocLoop req fuel i bm bl a).2.1.take
          (a + (((List.range' i fuel).filter fun x => !isBlockUsed bm x).take (req - a)).length) =
        bl.take a ++ ((List.range' i fuel).filter fun x => !isBlockUsed bm x).take (req - a) := by
  induction fuel generalizing i bm bl a with
  | zero => simp [allocLoop, setBlocks]
  | succ f ih =>
    simp only [allocLoop]
    by_cases hlt : a < req
    · rw [if_pos hlt]
      by_cases hfree : isBlockUsed bm i = false
      · rw [if_pos hfree]
        have hl : req ≤ (bl.set a i).length := by simpa using hreq
        obtain ⟨h1, h2, h3, h4⟩ := ih (i + 1) (setBlockUsed bm i true) (bl.set a i) (a + 1)
          (by omega) hl
        rw [filter_free_congr] at h1 h2 h4
        have hra : req - a = (req - (a + 1)) + 1 := by omega
        have hfl : (List.range' i (f + 1)).filter (fun x => !isBlockUsed bm x) =
            i :: (List.range' (i + 1) f).filter (fun x => !isBlockUsed bm x) := by
          rw [List.range'_succ, List.filter_cons_of_pos (by simp [hfree])]
        rw [hfl, hra, List.take_succ_cons]
        refine ⟨?_, ?_, ?_, ?_⟩
        · rw [h1]; rfl
        · rw [h2, List.length_cons]; omega
        · rw [h3]; simp
        · have e : a + (i :: List.take (req - (a + 1))
              (List.filter (fun x => !isBlockUsed bm x) (List.range' (i + 1) f))).length =
              a + 1 + (List.take (req - (a + 1))
              (List.filter (fun x => !isBlockUsed bm x) (List.range' (i + 1) f))).length := by
            rw [List.length_cons]; omega
          rw [e, h4, take_succ_set _ _ _ (by omega)]
          simp
      · rw [if_neg hfree]
        have hfl : (List.range' i (f + 1)).filter (fun x => !isBlockUsed bm x) =
            (List.range' (i + 1) f).filter (fun x => !isBlockUsed bm x) := by
          rw [List.range'_succ, List.filter_cons_of_neg (by simpa using hfree)]
        rw [hfl]
        exact ih (i + 1) bm bl a ha hreq
    · rw [if_neg hlt]
      have : req - a = 0 := by omega
      simp [this, setBlocks]

theorem mem_freeBlocks (sb : SuperBlock) (bm : List Nat) (x : Nat) :
    x ∈ freeBlocks sb bm ↔ x < sb.blocksCount ∧ isBlockUsed bm x = false := by
  simp [freeBlocks]

theorem freeBlocks_sorted (sb : SuperBlock) (bm : List Nat) :
    (freeBlocks sb bm).Pairwise (· < ·) :=
  List.Pairwise.filter _ (List.pairwise_lt_range _)

theorem freeBlocks_take_sorted (sb : SuperBlock) (bm : List Nat) (n : Nat) :
    ((freeBlocks sb bm).take n).Pairwise (· < ·) :=
  List.Pairwise.sublist (List.take_sublist _ _) (freeBlocks_sorted sb bm)

theorem freeBlocks_take_nodup (sb : SuperBlock) (bm : List Nat) (n : Nat) :
    ((freeBlocks sb bm).take n).Nodup :=
  (freeBlocks_take_sorted sb bm n).imp (fun h => Nat.ne_of_lt h)

theorem mem_freeBlocks_take (sb : SuperBlock) (bm : List Nat) (n x : Nat)
    (h : x ∈ (freeBlocks sb bm).take n) : x < sb.blocksCount ∧ isBlockUsed bm x = false :=
  (mem_freeBlocks sb bm x).mp (List.mem_of_mem_take h)

theorem WF.byte_lt (d : Disk) (h : WF d) (x : Nat) (hx : x < d.sb.blocksCount) :
    x / 8 < d.bitmap.length := by
  rw [h.bitmap_len, h.bitmapSize_eq]; omega

/-- Clearing again the bits that were set on free blocks gives back the bitmap. -/
theorem setBlocks_undo (bm l : List Nat) (hb : BytesOk bm)
    (hl : ∀ x ∈ l, x / 8 < bm.length ∧ isBlockUsed bm x = false) :
    setBlocks (setBlocks bm l true) l false = bm := by
  apply bitmap_ext
  · exact setBlocks_bytesOk _ _ _ (setBlocks_bytesOk _ _ _ hb)
  · exact hb
  · rw [setBlocks_length, setBlocks_length]
  · intro j _
    rw [isBlockUsed_setBlocks _ _ _ _ (by
      intro x hx; rw [setBlocks_length]; exact (hl x hx).1)]
    rw [isBlockUsed_setBlocks _ _ _ _ (fun x hx => (hl x hx).1)]
    by_cases hj : j ∈ l
    · simp [hj, (hl j hj).2]
    · simp [hj]

/-- What `addNewFile` does once the name is short enough, a slot is chosen and the
block count is within the per-file limit. -/
theorem addNewFile_of_slot (d : Disk) (name : List Nat) (size : Nat) (ow : Bool) (idx : Nat)
    (hwf : WF d) (hname : name.length < MAX_FILENAME_LENGTH)
    (hslot : slotLoop d.inodes name ow MAX_FILES 0 none = SlotChoice.chosen (some idx))
    (hidx : idx < MAX_FILES)
    (hreq : requiredBlocks d.sb size ≤ INODE_BLOCK_NUM) :
    ((freeBlocks d.sb d.bitmap).length < requiredBlocks d.sb size →
      (addNewFile d name size ow).outcome = AddOutcome.insufficientSpace ∧
      (addNewFile d name size ow).disk = d ∧
      (addNewFile d name size ow).bitmapMem = d.bitmap) ∧
    (requiredBlocks d.sb size ≤ (freeBlocks d.sb d.bitmap).length →
      (addNewFile d name size ow).outcome = AddOutcome.added ∧
      (addNewFile d name size ow).disk.sb = d.sb ∧
      (addNewFile d name size ow).disk.data = d.data ∧
      (addNewFile d name size ow).disk.bitmap =
        setBlocks d.bitmap ((freeBlocks d.sb d.bitmap).take (requiredBlocks d.sb size)) true ∧
      ∃ bl, bl.length = INODE_BLOCK_NUM ∧
        bl.take (requiredBlocks d.sb size) =
          (freeBlocks d.sb d.bitmap).take (requiredBlocks d.sb size) ∧
        (addNewFile d name size ow).disk.inodes = d.inodes.set idx
          { fileName := name, fileSize := size, isUsed := true, blockIndex := bl,
            blocksAllocated := requiredBlocks d.sb size }) := by
  have hbl : (inodeAt d.inodes idx).blockIndex.length = INODE_BLOCK_NUM :=
    hwf.blockIndex_len _ (inodeAt_mem _ _ (by rw [hwf.inodes_len]; exact hidx))
  obtain ⟨h1, h2, h3, h4⟩ := allocLoop_spec (requiredBlocks d.sb size) d.sb.blocksCount 0
    d.bitmap (inodeAt d.inodes idx).blockIndex 0 (Nat.zero_le _) (by rw [hbl]; exact hreq)
  rw [← List.range_eq_range'] at h1 h2 h4
  simp only [Nat.sub_zero, Nat.zero_add, List.take_zero, List.nil_append] at h1 h2 h4
  change (allocLoop _ _ _ _ _ _).1 = setBlocks d.bitmap ((freeBlocks d.sb d.bitmap).take _) true
    at h1
  change _ = ((freeBlocks d.sb d.bitmap).take _).length at h2
  change List.take ((freeBlocks d.sb d.bitmap).take _).length _ =
    (freeBlocks d.sb d.bitmap).take _ at h4
  have hn : ¬ name.length ≥ MAX_FILENAME_LENGTH := by omega
  have hr : ¬ requiredBlocks d.sb size > INODE_BLOCK_NUM := by omega
  constructor
  · intro hlt
    have hlen : ((freeBlocks d.sb d.bitmap).take (requiredBlocks d.sb size)).length =
        (freeBlocks d.sb d.bitmap).length := by
      rw [List.length_take]; omega
    have ha : (allocLoop (requiredBlocks d.sb size) d.sb.blocksCount 0 d.bitmap
        (inodeAt d.inodes idx).blockIndex 0).2.2 < requiredBlocks d.sb size := by
      rw [h2, hlen]; exact hlt
    simp only [addNewFile, if_neg hn, hslot, if_neg hr, if_pos ha, true_and]
    rw [h1]
    rw [h2] 
    rw [h4]
    apply setBlocks_undo _ _ hwf.bytes
    intro x hx
    have := mem_freeBlocks_take _ _ _ _ hx
    exact ⟨hwf.byte_lt d x this.1, this.2⟩
  · intro hle
    have hlen : ((freeBlocks d.sb d.bitmap).take (requiredBlocks d.sb size)).length =
        requiredBlocks d.sb size := by
      rw [List.length_take]; omega
    have ha : ¬ (allocLoop (requiredBlocks d.sb size) d.sb.blocksCount 0 d.bitmap
        (inodeAt d.inodes idx).blockIndex 0).2.2 < requiredBlocks d.sb size := by
      rw [h2, hlen]; omega
    simp only [addNewFile, if_neg hn, hslot, if_neg hr, if_neg ha, true_and]
    refine ⟨h1, (allocLoop (requiredBlocks d.sb size) d.sb.blocksCount 0 d.bitmap
        (inodeAt d.inodes idx).blockIndex 0).2.1, ?_, ?_, ?_⟩
    · rw [h3, hbl]
    · rw [hlen] at h4; exact h4
    · rw [h2, hlen]

theorem le_ceilDiv_mul (a b : Nat) (hb : 0 < b) : a ≤ ceilDiv a b * b := by
  unfold ceilDiv
  have h1 := Nat.div_add_mod (a + b - 1) b
  have h2 := Nat.mod_lt (a + b - 1) hb
  rw [Nat.mul_comm] at h1
  omega

theorem freeBlocks_length_le (sb : SuperBlock) (bm : List Nat) :
    (freeBlocks sb bm).length ≤ sb.blocksCount := by
  unfold freeBlocks
  calc _ ≤ (List.range sb.blocksCount).length := List.length_filter_le _ _
    _ = sb.blocksCount := List.length_range _

/-- On a well-formed image the `size_t` computation of `requiredBlocks` does not wrap for a
file that fits the free blocks. -/
theorem requiredBlocks_eq_ceilDiv (d : Disk) (size : Nat) (hwf : WF d)
    (hfree : ceilDiv size d.sb.blockSize ≤ d.sb.blocksCount) :
    requiredBlocks d.sb size = ceilDiv size d.sb.blockSize := by
  have hpos := hwf.blockSize_pos
  have h1 := le_ceilDiv_mul size d.sb.blockSize hpos
  have h2 : ceilDiv size d.sb.blockSize * d.sb.blockSize ≤ d.sb.blocksCount * d.sb.blockSize :=
    Nat.mul_le_mul_right _ hfree
  have h3 := hwf.extent_lt
  have h4 := hwf.blockSize_lt
  have hlt : size + d.sb.blockSize - 1 < SIZE_MOD := by
    by_cases hc : d.sb.blocksCount = 0
    · rw [hc] at h2; simp only [Nat.zero_mul] at h2
      unfold SIZE_MOD at *; omega
    · have : d.sb.blockSize ≤ d.sb.blocksCount * d.sb.blockSize :=
        Nat.le_mul_of_pos_left _ (Nat.pos_of_ne_zero hc)
      unfold SIZE_MOD; omega
  unfold requiredBlocks ceilDiv
  rw [Nat.mod_eq_of_lt hlt]

theorem createVirtualDisk_WF (ssb sin : Nat) (nm : List Nat) (ds bs : Nat) (hpos : 0 < bs)
    (hlt : bs < SIZE_MOD) (hext : ds / bs * bs < 2 ^ 63) :
    WF (createVirtualDisk ssb sin nm ds bs) := by
  constructor
  · exact hpos
  · exact hlt
  · exact hext
  · simp [createVirtualDisk]
  · intro n hn
    simp only [createVirtualDisk] at hn
    rw [List.eq_of_mem_replicate hn]
    simp [Inode.zero]
  · simp [createVirtualDisk]
  · simp [createVirtualDisk]
  · intro x hx
    simp only [createVirtualDisk] at hx
    rw [List.eq_of_mem_replicate hx]
    decide

theorem scenarioDisk_WF : WF scenarioDisk :=
  createVirtualDisk_WF 72 112 [100] 4096 256 (by decide) (by decide) (by decide)

theorem mem_listFiles (d : Disk) (i : Nat) (hi : i < MAX_FILES)
    (hu : (inodeAt d.inodes i).isUsed = true) :
    ((inodeAt d.inodes i).fileName, (inodeAt d.inodes i).fileSize) ∈ listFiles d := by
  unfold listFiles
  rw [List.mem_filterMap]
  exact ⟨i, List.mem_range.mpr hi, by simp [hu]⟩

/-- C1. On a well-formed image, adding a file whose name is shorter than 32 bytes and not
yet used, when a slot is unused and `ceil(size / blockSize)` is at most 16 and at most the
number of free blocks: `addNewFile` succeeds, `listFiles` then shows `(name, size)`, the
slot that received the file was unused and now records `ceil(size / blockSize)` blocks,
and the bits of exactly those blocks, all clear before, are now set while every other bit
is unchanged. -/
theorem addNewFile_adds_file (d : Disk) (name : List Nat) (size : Nat) (ow : Bool)
    (hwf : WF d)
    (hname : name.length < MAX_FILENAME_LENGTH)
    (hnew : ∀ i, i < MAX_FILES → (inodeAt d.inodes i).isUsed = true →
      (inodeAt d.inodes i).fileName ≠ name)
    (hslot : ∃ i, i < MAX_FILES ∧ (inodeAt d.inodes i).isUsed = false)
    (hcap : ceilDiv size d.sb.blockSize ≤ INODE_BLOCK_NUM)
    (hfree : ceilDiv size d.sb.blockSize ≤ (freeBlocks d.sb d.bitmap).length) :
    (addNewFile d name size ow).outcome = AddOutcome.added ∧
    (name, size) ∈ listFiles (addNewFile d name size ow).disk ∧
    ∃ j, j < MAX_FILES ∧ (inodeAt d.inodes j).isUsed = false ∧
      (inodeAt (addNewFile d name size ow).disk.inodes j).isUsed = true ∧
      (inodeAt (addNewFile d name size ow).disk.inodes j).fileName = name ∧
      (inodeAt (addNewFile d name size ow).disk.inodes j).fileSize = size ∧
      (inodeAt (addNewFile d name size ow).disk.inodes j).blocksAllocated =
        ceilDiv size d.sb.blockSize ∧
      ∃ blks, blks = (inodeAt (addNewFile d name size ow).disk.inodes j).blockIndex.take
            (ceilDiv size d.sb.blockSize) ∧
        blks.length = ceilDiv size d.sb.blockSize ∧ blks.Nodup ∧
        (∀ x, x ∈ blks → x < d.sb.blocksCount ∧ isBlockUsed d.bitmap x = false) ∧
        (∀ x, x ∈ blks → isBlockUsed (addNewFile d name size ow).disk.bitmap x = true) ∧
        (∀ x, x ∉ blks → isBlockUsed (addNewFile d name size ow).disk.bitmap x =
          isBlockUsed d.bitmap x) ∧
        (addNewFile d name size ow).disk.bitmap.length = d.bitmap.length := by
  have hreq : requiredBlocks d.sb size = ceilDiv size d.sb.blockSize :=
    requiredBlocks_eq_ceilDiv d size hwf (Nat.le_trans hfree (freeBlocks_length_le _ _))
  have hnf : findFile d.inodes name MAX_FILES 0 = none := by
    rw [findFile_eq_none_iff]
    intro j _ hj
    rintro ⟨h1, h2⟩
    exact hnew j (by omega) h1 h2
  obtain ⟨i0, hi0, hu0⟩ := hslot
  have hfu : ∃ j, firstUnused d.inodes MAX_FILES 0 = some j := by
    cases hf : firstUnused d.inodes MAX_FILES 0 with
    | some j => exact ⟨j, rfl⟩
    | none =>
      rw [firstUnused_eq_none_iff] at hf
      have := hf i0 (Nat.zero_le _) (by omega)
      rw [hu0] at this; cases this
  obtain ⟨j, hj⟩ := hfu
  have hsl : slotLoop d.inodes name ow MAX_FILES 0 none = SlotChoice.chosen (some j) := by
    rw [slotLoop_of_not_found _ _ _ _ _ _ hnf, hj]
  obtain ⟨_, hjlt, hju, _⟩ := (firstUnused_eq_some_iff _ _ _ _).mp hj
  have hjlt' : j < MAX_FILES := by omega
  obtain ⟨ho, _, _, hbm, bl, hbl, htake, hin⟩ :=
    (addNewFile_of_slot d name size ow j hwf hname hsl hjlt' (by rw [hreq]; exact hcap)).2
      (by rw [hreq]; exact hfree)
  have hat : inodeAt (addNewFile d name size ow).disk.inodes j =
      { fileName := name, fileSize := size, isUsed := true, blockIndex := bl,
        blocksAllocated := requiredBlocks d.sb size } := by
    rw [hin, inodeAt_set_same _ _ _ (by rw [hwf.inodes_len]; exact hjlt')]
  have hinb : ∀ x ∈ (freeBlocks d.sb d.bitmap).take (requiredBlocks d.sb size),
      x / 8 < d.bitmap.length := fun x hx =>
    hwf.byte_lt d x (mem_freeBlocks_take _ _ _ _ hx).1
  refine ⟨ho, ?_, j, hjlt', hju, by rw [hat], by rw [hat], by rw [hat], by rw [hat, hreq], ?_⟩
  · have := mem_listFiles (addNewFile d name size ow).disk j hjlt' (by rw [hat])
    rw [hat] at this
    exact this
  · refine ⟨_, rfl, ?_, ?_, ?_, ?_, ?_, by rw [hbm, setBlocks_length]⟩
    all_goals rw [hat]; simp only; rw [← hreq, htake]
    · rw [List.length_take]
      have := hfree; rw [← hreq] at this; omega
    · exact freeBlocks_take_nodup _ _ _
    · intro x hx; exact mem_freeBlocks_take _ _ _ _ hx
    · intro x hx
      rw [hbm, isBlockUsed_setBlocks _ _ _ _ hinb, if_pos hx]
    · intro x hx
      rw [hbm, isBlockUsed_setBlocks _ _ _ _ hinb, if_neg hx]

/-- C1 at the scenario: adding `a` of 600 bytes to the new 4096/256 image. -/
theorem addNewFile_adds_file_witness :
    WF scenarioDisk ∧ (addNewFile scenarioDisk [97] 600 false).outcome = AddOutcome.added ∧
      ([97], 600) ∈ listFiles (addNewFile scenarioDisk [97] 600 false).disk :=
  have h := addNewFile_adds_file scenarioDisk [97] 600 false scenarioDisk_WF (by decide)
    (by decide) ⟨0, by decide, by decide⟩ (by decide) (by decide)
  ⟨scenarioDisk_WF, h.1, h.2.1⟩

/-- Every way `addNewFile` can end without the `added` outcome leaves the image as it
was; the `added` outcome needs a short name, a chosen slot and a block count within the
per-file limit. -/
theorem addNewFile_cases (d : Disk) (name : List Nat) (size : Nat) (ow : Bool) :
    ((addNewFile d name size ow).outcome ≠ AddOutcome.added ∧
        (addNewFile d name size ow).disk = d) ∨
    ((addNewFile d name size ow).outcome = AddOutcome.added ∧
        name.length < MAX_FILENAME_LENGTH ∧
        requiredBlocks d.sb size ≤ INODE_BLOCK_NUM ∧
        ∃ idx, slotLoop d.inodes name ow MAX_FILES 0 none = SlotChoice.chosen (some idx)) := by
  by_cases hn : name.length ≥ MAX_FILENAME_LENGTH
  · left; simp [addNewFile, hn]
  · cases hs : slotLoop d.inodes name ow MAX_FILES 0 none with
    | cancelled => left; simp [addNewFile, hn, hs]
    | chosen o =>
      cases o with
      | none => left; simp [addNewFile, hn, hs]
      | some idx =>
        by_cases hr : requiredBlocks d.sb size > INODE_BLOCK_NUM
        · left; simp [addNewFile, hn, hs, hr]
        · by_cases ha : (allocLoop (requiredBlocks d.sb size) d.sb.blocksCount 0 d.bitmap
              (inodeAt d.inodes idx).blockIndex 0).2.2 < requiredBlocks d.sb size
          · left; simp [addNewFile, hn, hs, hr, ha]
          · right
            refine ⟨?_, by omega, by omega, idx, rfl⟩
            simp [addNewFile, hn, hs, hr, ha]

/-- A slot chosen by the slot loop is a slot of the table: the first used slot with the
name when there is one (and the overwrite is accepted), else the first unused slot. -/
theorem slotLoop_chosen (inodes : List Inode) (name : List Nat) (ow : Bool) (idx : Nat)
    (h : slotLoop inodes name ow MAX_FILES 0 none = SlotChoice.chosen (some idx)) :
    idx < MAX_FILES ∧
    ((findFile inodes name MAX_FILES 0 = some idx ∧ ow = true) ∨
      (findFile inodes name MAX_FILES 0 = none ∧
        firstUnused inodes MAX_FILES 0 = some idx)) := by
  cases hf : findFile inodes name MAX_FILES 0 with
  | some k =>
    rw [slotLoop_of_found _ _ _ _ _ _ _ hf] at h
    cases ow with
    | false => simp at h
    | true =>
      have e : k = idx := by simpa using h
      subst e
      have := (findFile_eq_some_iff _ _ _ _ _).mp hf
      exact ⟨by omega, Or.inl ⟨rfl, rfl⟩⟩
  | none =>
    rw [slotLoop_of_not_found _ _ _ _ _ _ hf] at h
    have e : firstUnused inodes MAX_FILES 0 = some idx := by simpa using h
    have := (firstUnused_eq_some_iff _ _ _ _).mp e
    exact ⟨by omega, Or.inr ⟨rfl, e⟩⟩

/-- Inversion of a successful `addNewFile` on a well-formed image. -/
theorem addNewFile_added_inv (d : Disk) (name : List Nat) (size : Nat) (ow : Bool)
    (hwf : WF d) (hok : (addNewFile d name size ow).outcome = AddOutcome.added) :
    name.length < MAX_FILENAME_LENGTH ∧
    requiredBlocks d.sb size ≤ INODE_BLOCK_NUM ∧
    requiredBlocks d.sb size ≤ (freeBlocks d.sb d.bitmap).length ∧
    ∃ idx, idx < MAX_FILES ∧
      slotLoop d.inodes name ow MAX_FILES 0 none = SlotChoice.chosen (some idx) := by
  rcases addNewFile_cases d name size ow with ⟨h, _⟩ | ⟨_, hn, hr, idx, hs⟩
  · exact absurd hok h
  · have hidx := (slotLoop_chosen _ _ _ _ hs).1
    refine ⟨hn, hr, ?_, idx, hidx, hs⟩
    by_cases hlt : (freeBlocks d.sb d.bitmap).length < requiredBlocks d.sb size
    · have := ((addNewFile_of_slot d name size ow idx hwf hn hs hidx hr).1 hlt).1
      rw [this] at hok; cases hok
    · omega

/-- Well-formedness is kept by `addNewFile`, whatever the outcome. -/
theorem addNewFile_WF (d : Disk) (name : List Nat) (size : Nat) (ow : Bool) (hwf : WF d) :
    WF (addNewFile d name size ow).disk := by
  rcases addNewFile_cases d name size ow with ⟨_, h⟩ | ⟨hok, _⟩
  · rw [h]; exact hwf
  · obtain ⟨hn, hr, hfr, idx, hidx, hs⟩ := addNewFile_added_inv d name size ow hwf hok
    obtain ⟨_, hsb, _, hbm, bl, hbl, _, hin⟩ :=
      (addNewFile_of_slot d name size ow idx hwf hn hs hidx hr).2 hfr
    constructor
    · rw [hsb]; exact hwf.blockSize_pos
    · rw [hsb]; exact hwf.blockSize_lt
    · rw [hsb]; exact hwf.extent_lt
    · rw [hin, List.length_set]; exact hwf.inodes_len
    · intro n hn'
      rw [hin] at hn'
      rcases List.mem_or_eq_of_mem_set hn' with h | h
      · exact hwf.blockIndex_len n h
      · rw [h]; exact hbl
    · rw [hbm, setBlocks_length, hsb]; exact hwf.bitmap_len
    · rw [hsb]; exact hwf.bitmapSize_eq
    · rw [hbm]; exact setBlocks_bytesOk _ _ _ hwf.bytes

theorem removeFile_WF (d : Disk) (name : List Nat) (hwf : WF d) :
    WF (removeFile d name).2 := by
  unfold removeFile
  cases findFile d.inodes name MAX_FILES 0 with
  | none => exact hwf
  | some idx =>
    constructor
    · exact hwf.blockSize_pos
    · exact hwf.blockSize_lt
    · exact hwf.extent_lt
    · simp only [List.length_set]; exact hwf.inodes_len
    · intro n hn'
      rcases List.mem_or_eq_of_mem_set hn' with h | h
      · exact hwf.blockIndex_len n h
      · rw [h]; simp [deleteInode]
    · simp only [setBlocks_length]; exact hwf.bitmap_len
    · exact hwf.bitmapSize_eq
    · exact setBlocks_bytesOk _ _ _ hwf.bytes

/-- C2. First fit: when `addNewFile` succeeds on a well-formed image, the slot that holds
the file lists, in its first `blocksAllocated = requiredBlocks` entries, exactly the
`requiredBlocks` lowest-indexed blocks that were free before the call, in strictly
ascending order. -/
theorem addNewFile_first_fit (d : Disk) (name : List Nat) (size : Nat) (ow : Bool)
    (hwf : WF d) (hok : (addNewFile d name size ow).outcome = AddOutcome.added) :
    ∃ idx, idx < MAX_FILES ∧
      (inodeAt (addNewFile d name size ow).disk.inodes idx).isUsed = true ∧
      (inodeAt (addNewFile d name size ow).disk.inodes idx).fileName = name ∧
      (inodeAt (addNewFile d name size ow).disk.inodes idx).blocksAllocated =
        requiredBlocks d.sb size ∧
      (inodeAt (addNewFile d name size ow).disk.inodes idx).blockIndex.take
          (inodeAt (addNewFile d name size ow).disk.inodes idx).blocksAllocated =
        (freeBlocks d.sb d.bitmap).take (requiredBlocks d.sb size) ∧
      ((freeBlocks d.sb d.bitmap).take (requiredBlocks d.sb size)).length =
        requiredBlocks d.sb size ∧
      ((inodeAt (addNewFile d name size ow).disk.inodes idx).blockIndex.take
          (inodeAt (addNewFile d name size ow).disk.inodes idx).blocksAllocated).Pairwise
        (· < ·) := by
  obtain ⟨hn, hr, hfr, idx, hidx, hs⟩ := addNewFile_added_inv d name size ow hwf hok
  obtain ⟨_, _, _, _, bl, _, htake, hin⟩ :=
    (addNewFile_of_slot d name size ow idx hwf hn hs hidx hr).2 hfr
  have hat : inodeAt (addNewFile d name size ow).disk.inodes idx =
      { fileName := name, fileSize := size, isUsed := true, blockIndex := bl,
        blocksAllocated := requiredBlocks d.sb size } := by
    rw [hin, inodeAt_set_same _ _ _ (by rw [hwf.inodes_len]; exact hidx)]
  refine ⟨idx, hidx, by rw [hat], by rw [hat], by rw [hat], ?_, ?_, ?_⟩
  · rw [hat]; exact htake
  · rw [List.length_take]; omega
  · rw [hat]; simp only; rw [htake]; exact freeBlocks_take_sorted _ _ _

/-- The scenario after `add a 600`, `add b 300`, `rm a`. -/
theorem scenarioAfterRemove_WF : WF scenarioAfterRemove :=
  removeFile_WF _ _ (addNewFile_WF _ _ _ _ (addNewFile_WF _ _ _ _ scenarioDisk_WF))

/-- C2 at the scenario: after `add a 600`, `add b 300`, `rm a`, the file `c` of 256 bytes
is added and its slot lists the lowest free block. -/
theorem addNewFile_first_fit_witness :
    WF scenarioAfterRemove ∧
    (addNewFile scenarioAfterRemove [99] 256 false).outcome = AddOutcome.added ∧
    ∃ idx, idx < MAX_FILES ∧
      (inodeAt (addNewFile scenarioAfterRemove [99] 256 false).disk.inodes idx).isUsed = true ∧
      (inodeAt (addNewFile scenarioAfterRemove [99] 256 false).disk.inodes idx).fileName = [99] ∧
      (inodeAt (addNewFile scenarioAfterRemove [99] 256 false).disk.inodes idx).blocksAllocated =
        requiredBlocks scenarioAfterRemove.sb 256 ∧
      (inodeAt (addNewFile scenarioAfterRemove [99] 256 false).disk.inodes idx).blockIndex.take
          (inodeAt (addNewFile scenarioAfterRemove [99] 256 false).disk.inodes
            idx).blocksAllocated =
        (freeBlocks scenarioAfterRemove.sb scenarioAfterRemove.bitmap).take
          (requiredBlocks scenarioAfterRemove.sb 256) ∧
      ((freeBlocks scenarioAfterRemove.sb scenarioAfterRemove.bitmap).take
          (requiredBlocks scenarioAfterRemove.sb 256)).length =
        requiredBlocks scenarioAfterRemove.sb 256 ∧
      ((inodeAt (addNewFile scenarioAfterRemove [99] 256 false).disk.inodes idx).blockIndex.take
          (inodeAt (addNewFile scenarioAfterRemove [99] 256 false).disk.inodes
            idx).blocksAllocated).Pairwise (· < ·) :=
  ⟨scenarioAfterRemove_WF, by decide,
    addNewFile_first_fit scenarioAfterRemove [99] 256 false scenarioAfterRemove_WF (by decide)⟩

/-- The block of `c` in the scenario: the slot of `c` is slot 0 and its one block is
block 0. -/
theorem scenario_c_block :
    (inodeAt (addNewFile scenarioAfterRemove [99] 256 false).disk.inodes 0).fileName = [99] ∧
    (inodeAt (addNewFile scenarioAfterRemove [99] 256 false).disk.inodes 0).blocksAllocated = 1 ∧
    (inodeAt (addNewFile scenarioAfterRemove [99] 256 false).disk.inodes 0).blockIndex.take 1 =
      [0] := by
  decide

/-- After a successful `addNewFile`, the lookup of `removeFile` finds the slot that was
written. -/
theorem findFile_after_add (d : Disk) (name : List Nat) (ow : Bool) (idx : Nat) (x : Inode)
    (hlen : d.inodes.length = MAX_FILES)
    (hs : slotLoop d.inodes name ow MAX_FILES 0 none = SlotChoice.chosen (some idx))
    (hu : x.isUsed = true) (hx : x.fileName = name) :
    findFile (d.inodes.set idx x) name MAX_FILES 0 = some idx := by
  obtain ⟨hidx, hcase⟩ := slotLoop_chosen _ _ _ _ hs
  rw [findFile_eq_some_iff]
  have hat : inodeAt (d.inodes.set idx x) idx = x :=
    inodeAt_set_same _ _ _ (by rw [hlen]; exact hidx)
  refine ⟨Nat.zero_le _, by omega, by rw [hat]; exact hu, by rw [hat]; exact hx, ?_⟩
  intro j hj0 hj
  rw [inodeAt_set_other _ _ _ _ (by omega : idx ≠ j)]
  rcases hcase with ⟨hf, _⟩ | ⟨hf, _⟩
  · exact ((findFile_eq_some_iff _ _ _ _ _).mp hf).2.2.2.2 j hj0 hj
  · exact (findFile_eq_none_iff _ _ _ _).mp hf j hj0 (by omega)

/-- C3. On a well-formed image, after a successful `addNewFile` of `name` an immediately
following `removeFile` of `name` succeeds, gives back the bitmap that was there before
the add (the same bytes), and leaves the slot that held the file unused, with size 0, no
block allocated, an empty name and a zeroed block list. -/
theorem removeFile_after_addNewFile (d : Disk) (name : List Nat) (size : Nat) (ow : Bool)
    (hwf : WF d) (hok : (addNewFile d name size ow).outcome = AddOutcome.added) :
    (removeFile (addNewFile d name size ow).disk name).1 = RemoveOutcome.removed ∧
    (removeFile (addNewFile d name size ow).disk name).2.bitmap = d.bitmap ∧
    ∃ idx, idx < MAX_FILES ∧
      (inodeAt (addNewFile d name size ow).disk.inodes idx).isUsed = true ∧
      (inodeAt (addNewFile d name size ow).disk.inodes idx).fileName = name ∧
      inodeAt (removeFile (addNewFile d name size ow).disk name).2.inodes idx =
        { fileName := [], fileSize := 0, isUsed := false,
          blockIndex := List.replicate INODE_BLOCK_NUM 0, blocksAllocated := 0 } := by
  obtain ⟨hn, hr, hfr, idx, hidx, hs⟩ := addNewFile_added_inv d name size ow hwf hok
  obtain ⟨_, _, _, hbm, bl, _, htake, hin⟩ :=
    (addNewFile_of_slot d name size ow idx hwf hn hs hidx hr).2 hfr
  have hlen : idx < d.inodes.length := by rw [hwf.inodes_len]; exact hidx
  have hat : inodeAt (addNewFile d name size ow).disk.inodes idx =
      { fileName := name, fileSize := size, isUsed := true, blockIndex := bl,
        blocksAllocated := requiredBlocks d.sb size } := by
    rw [hin, inodeAt_set_same _ _ _ hlen]
  have hff : findFile (addNewFile d name size ow).disk.inodes name MAX_FILES 0 = some idx := by
    rw [hin]; exact findFile_after_add d name ow idx _ hwf.inodes_len hs rfl rfl
  have hundo : setBlocks (addNewFile d name size ow).disk.bitmap
      (bl.take (requiredBlocks d.sb size)) false = d.bitmap := by
    rw [hbm, htake]
    apply setBlocks_undo _ _ hwf.bytes
    intro x hx
    have := mem_freeBlocks_take _ _ _ _ hx
    exact ⟨hwf.byte_lt d x this.1, this.2⟩
  refine ⟨?_, ?_, idx, hidx, by rw [hat], by rw [hat], ?_⟩
  · simp only [removeFile, hff]
  · simp only [removeFile, hff, hat]
    exact hundo
  · simp only [removeFile, hff]
    rw [inodeAt_set_same _ _ _ (by rw [hin, List.length_set]; exact hlen)]
    rfl

/-- C3 at the scenario: `add a 600` on the new image, then `rm a`. -/
theorem removeFile_after_addNewFile_witness :
    WF scenarioDisk ∧ (addNewFile scenarioDisk [97] 600 false).outcome = AddOutcome.added ∧
    (removeFile (addNewFile scenarioDisk [97] 600 false).disk [97]).1 = RemoveOutcome.removed ∧
    (removeFile (addNewFile scenarioDisk [97] 600 false).disk [97]).2.bitmap =
      scenarioDisk.bitmap :=
  have h := removeFile_after_addNewFile scenarioDisk [97] 600 false scenarioDisk_WF (by decide)
  ⟨scenarioDisk_WF, by decide, h.1, h.2.1⟩

/-! ## Copy-in, size limit, insufficient space -/

/-- C7 (what the code does). On the 4096/256 image, `addNewFile` with the `size_t` value
`2^64 - 1`, far above `16 * blockSize`, is not rejected: `fileSize + blockSize - 1` wraps,
`requiredBlocks` is 0, and the file is added with no block. -/
theorem addNewFile_wraps_on_huge_size :
    2 ^ 64 - 1 < SIZE_MOD ∧ 2 ^ 64 - 1 > INODE_BLOCK_NUM * scenarioDisk.sb.blockSize ∧
    requiredBlocks scenarioDisk.sb (2 ^ 64 - 1) = 0 ∧
    (addNewFile scenarioDisk [97] (2 ^ 64 - 1) false).outcome = AddOutcome.added ∧
    (inodeAt (addNewFile scenarioDisk [97] (2 ^ 64 - 1) false).disk.inodes 0).fileSize =
      2 ^ 64 - 1 ∧
    (inodeAt (addNewFile scenarioDisk [97] (2 ^ 64 - 1) false).disk.inodes 0).blocksAllocated =
      0 := by
  decide

/-- Where the sum does not wrap, a size above `16 * blockSize` is rejected and nothing is
written. -/
theorem addNewFile_too_large (d : Disk) (name : List Nat) (size : Nat) (ow : Bool) (idx : Nat)
    (hwf : WF d) (hname : name.length < MAX_FILENAME_LENGTH)
    (hslot : slotLoop d.inodes name ow MAX_FILES 0 none = SlotChoice.chosen (some idx))
    (hbig : size > INODE_BLOCK_NUM * d.sb.blockSize)
    (hnowrap : size + d.sb.blockSize - 1 < SIZE_MOD) :
    (addNewFile d name size ow).outcome = AddOutcome.fileTooLarge ∧
    (addNewFile d name size ow).disk = d := by
  have hpos := hwf.blockSize_pos
  have hr : requiredBlocks d.sb size > INODE_BLOCK_NUM := by
    unfold requiredBlocks
    rw [Nat.mod_eq_of_lt hnowrap]
    have : (INODE_BLOCK_NUM + 1) * d.sb.blockSize ≤ size + d.sb.blockSize - 1 := by
      rw [Nat.add_mul, Nat.one_mul]; omega
    exact (Nat.le_div_iff_mul_le hpos).mpr this
  have hn : ¬ name.length ≥ MAX_FILENAME_LENGTH := by omega
  simp [addNewFile, hn, hslot, hr]

/-- The slot loop chooses a slot when the name is in use and the overwrite is accepted, or
when the name is not in use and some slot is unused. -/
theorem slotLoop_chooses (inodes : List Inode) (name : List Nat) (ow : Bool)
    (h : ((∃ i, i < MAX_FILES ∧ (inodeAt inodes i).isUsed = true ∧
            (inodeAt inodes i).fileName = name) ∧ ow = true) ∨
         ((∀ i, i < MAX_FILES → (inodeAt inodes i).isUsed = true →
            (inodeAt inodes i).fileName ≠ name) ∧
          ∃ i, i < MAX_FILES ∧ (inodeAt inodes i).isUsed = false)) :
    ∃ idx, idx < MAX_FILES ∧
      slotLoop inodes name ow MAX_FILES 0 none = SlotChoice.chosen (some idx) := by
  rcases h with ⟨⟨i, hi, hu, hnm⟩, how⟩ | ⟨hnew, i, hi, hu⟩
  · cases hf : findFile inodes name MAX_FILES 0 with
    | none =>
      exact absurd ⟨hu, hnm⟩ ((findFile_eq_none_iff _ _ _ _).mp hf i (Nat.zero_le _) (by omega))
    | some k =>
      have := (findFile_eq_some_iff _ _ _ _ _).mp hf
      exact ⟨k, by omega, by rw [slotLoop_of_found _ _ _ _ _ _ _ hf, how]; rfl⟩
  · have hnf : findFile inodes name MAX_FILES 0 = none := by
      rw [findFile_eq_none_iff]
      rintro j _ hj ⟨h1, h2⟩
      exact hnew j (by omega) h1 h2
    cases hf : firstUnused inodes MAX_FILES 0 with
    | none =>
      have := (firstUnused_eq_none_iff _ _ _).mp hf i (Nat.zero_le _) (by omega)
      rw [hu] at this; cases this
    | some j =>
      have := (firstUnused_eq_some_iff _ _ _ _).mp hf
      exact ⟨j, by omega, by rw [slotLoop_of_not_found _ _ _ _ _ _ hnf, hf]⟩

/-- C8. On a well-formed image, when the name is short enough, a slot is available (the
name is in use and the overwrite accepted, or the name is new and a slot unused), and the
required block count is at most 16 but above the number of free blocks: `addNewFile` ends
with the insufficient-space outcome, the persisted image is unchanged, and the in-memory
bitmap after the rollback loop is the bitmap that was loaded. -/
theorem addNewFile_insufficient_space (d : Disk) (name : List Nat) (size : Nat) (ow : Bool)
    (hwf : WF d) (hname : name.length < MAX_FILENAME_LENGTH)
    (hslot : ((∃ i, i < MAX_FILES ∧ (inodeAt d.inodes i).isUsed = true ∧
            (inodeAt d.inodes i).fileName = name) ∧ ow = true) ∨
         ((∀ i, i < MAX_FILES → (inodeAt d.inodes i).isUsed = true →
            (inodeAt d.inodes i).fileName ≠ name) ∧
          ∃ i, i < MAX_FILES ∧ (inodeAt d.inodes i).isUsed = false))
    (hreq : requiredBlocks d.sb size ≤ INODE_BLOCK_NUM)
    (hfree : (freeBlocks d.sb d.bitmap).length < requiredBlocks d.sb size) :
    (addNewFile d name size ow).outcome = AddOutcome.insufficientSpace ∧
    (addNewFile d name size ow).disk = d ∧
    (addNewFile d name size ow).bitmapMem = d.bitmap := by
  obtain ⟨idx, hidx, hs⟩ := slotLoop_chooses d.inodes name ow hslot
  exact (addNewFile_of_slot d name size ow idx hwf hname hs hidx hreq).1 hfree

theorem smallDisk_WF : WF smallDisk :=
  createVirtualDisk_WF 72 112 [100] 512 256 (by decide) (by decide) (by decide)

/-- C8 on a two-block image: a file of 600 bytes needs three blocks. -/
theorem addNewFile_insufficient_space_witness :
    WF smallDisk ∧ requiredBlocks smallDisk.sb 600 = 3 ∧
    (freeBlocks smallDisk.sb smallDisk.bitmap).length = 2 ∧
    (addNewFile smallDisk [97] 600 false).outcome = AddOutcome.insufficientSpace ∧
    (addNewFile smallDisk [97] 600 false).disk = smallDisk ∧
    (addNewFile smallDisk [97] 600 false).bitmapMem = smallDisk.bitmap :=
  ⟨smallDisk_WF, by decide, by decide,
    addNewFile_insufficient_space smallDisk [97] 600 false smallDisk_WF (by decide)
      (Or.inr ⟨by decide, 0, by decide, by decide⟩) (by decide) (by decide)⟩

/-! ## Lemmas for defragmentation -/

theorem setBlockAt_length (ins : List Inode) (i b v : Nat) :
    (setBlockAt ins i b v).length = ins.length := by
  simp [setBlockAt]

theorem inodeAt_setBlockAt_other (ins : List Inode) (i b v j : Nat) (h : i ≠ j) :
    inodeAt (setBlockAt ins i b v) j = inodeAt ins j :=
  inodeAt_set_other _ _ _ _ h

theorem inodeAt_setBlockAt_same (ins : List Inode) (i b v : Nat) (h : i < ins.length) :
    inodeAt (setBlockAt ins i b v) i =
      { inodeAt ins i with blockIndex := (inodeAt ins i).blockIndex.set b v } :=
  inodeAt_set_same _ _ _ h

theorem SameShape.refl (a : List Inode) : SameShape a a :=
  ⟨rfl, fun _ => ⟨rfl, rfl, rfl, rfl, rfl⟩⟩

theorem SameShape.trans {a b c : List Inode} (h1 : SameShape a b) (h2 : SameShape b c) :
    SameShape a c := by
  refine ⟨h1.1.trans h2.1, fun j => ?_⟩
  obtain ⟨a1, a2, a3, a4, a5⟩ := h1.2 j
  obtain ⟨b1, b2, b3, b4, b5⟩ := h2.2 j
  exact ⟨a1.trans b1, a2.trans b2, a3.trans b3, a4.trans b4, a5.trans b5⟩

theorem setBlockAt_sameShape (ins : List Inode) (i b v : Nat) :
    SameShape (setBlockAt ins i b v) ins := by
  refine ⟨setBlockAt_length _ _ _ _, fun j => ?_⟩
  by_cases hj : i = j
  · subst hj
    by_cases hi : i < ins.length
    · rw [inodeAt_setBlockAt_same _ _ _ _ hi]
      simp
    · have : setBlockAt ins i b v = ins := by
        unfold setBlockAt; exact List.set_eq_of_length_le (by omega)
      rw [this]; exact ⟨rfl, rfl, rfl, rfl, rfl⟩
  · rw [inodeAt_setBlockAt_other _ _ _ _ _ hj]; exact ⟨rfl, rfl, rfl, rfl, rfl⟩

theorem SameShape.pos {a b : List Inode} (h : SameShape a b) (i j : Nat) :
    Pos a i j ↔ Pos b i j := by
  unfold Pos
  rw [(h.2 i).1, (h.2 i).2.1]

theorem blockAt_setBlockAt (ins : List Inode) (i b v i' b' : Nat) (hi : i < ins.length)
    (hb : b < (inodeAt ins i).blockIndex.length) :
    blockAt (setBlockAt ins i b v) i' b' =
      if i' = i ∧ b' = b then v else blockAt ins i' b' := by
  unfold blockAt
  by_cases h : i' = i
  · subst h
    rw [inodeAt_setBlockAt_same _ _ _ _ hi]
    by_cases h2 : b' = b
    · subst h2; rw [if_pos ⟨rfl, rfl⟩]; exact getD_set_same _ _ _ hb
    · have : b ≠ b' := fun e => h2 e.symm
      rw [if_neg (fun e => h2 e.2)]; exact getD_set_other _ _ _ _ this
  · have : i ≠ i' := fun e => h e.symm
    rw [inodeAt_setBlockAt_other _ _ _ _ _ this]
    simp [h]

theorem readAt_length (d : Nat → Nat) (off n : Nat) : (readAt d off n).length = n := by
  simp [readAt]

theorem readAt_writeAt_same (d : Nat → Nat) (off : Nat) (bytes : List Nat) :
    readAt (writeAt d off bytes) off bytes.length = bytes := by
  apply List.ext_getElem
  · simp [readAt]
  · intro n h1 h2
    simp only [readAt, List.getElem_map, List.getElem_range, writeAt]
    rw [if_pos ⟨by omega, by omega⟩]
    simp [List.getD_eq_getElem?_getD, List.getElem?_eq_getElem h2]

theorem readAt_writeAt_disjoint (d : Nat → Nat) (off off' n : Nat) (bytes : List Nat)
    (h : off' + n ≤ off ∨ off + bytes.length ≤ off') :
    readAt (writeAt d off bytes) off' n = readAt d off' n := by
  unfold readAt
  apply List.map_congr_left
  intro k hk
  have hk' := List.mem_range.mp hk
  unfold writeAt
  rw [if_neg (by omega)]

theorem blockOffset_disjoint (sb : SuperBlock) (x y : Nat) (h : x ≠ y) :
    blockOffset sb y + sb.blockSize ≤ blockOffset sb x ∨
      blockOffset sb x + sb.blockSize ≤ blockOffset sb y := by
  unfold blockOffset
  rcases Nat.lt_or_gt_of_ne h with h | h
  · right
    have : (x + 1) * sb.blockSize ≤ y * sb.blockSize := Nat.mul_le_mul_right _ h
    rw [Nat.add_mul, Nat.one_mul] at this
    omega
  · left
    have : (y + 1) * sb.blockSize ≤ x * sb.blockSize := Nat.mul_le_mul_right _ h
    rw [Nat.add_mul, Nat.one_mul] at this
    omega

theorem readBlock_length (sb : SuperBlock) (d : Nat → Nat) (x : Nat) :
    (readBlock sb d x).length = sb.blockSize := readAt_length _ _ _

theorem readBlock_write_same (sb : SuperBlock) (d : Nat → Nat) (x : Nat) (bytes : List Nat)
    (h : bytes.length = sb.blockSize) :
    readBlock sb (writeAt d (blockOffset sb x) bytes) x = bytes := by
  unfold readBlock
  rw [← h]
  exact readAt_writeAt_same _ _ _

theorem readBlock_write_other (sb : SuperBlock) (d : Nat → Nat) (x y : Nat) (bytes : List Nat)
    (h : bytes.length = sb.blockSize) (hxy : x ≠ y) :
    readBlock sb (writeAt d (blockOffset sb x) bytes) y = readBlock sb d y := by
  unfold readBlock
  apply readAt_writeAt_disjoint
  rw [h]
  exact blockOffset_disjoint sb x y hxy

theorem readBlock_swapData_next (sb : SuperBlock) (d : Nat → Nat) (cur next : Nat) :
    readBlock sb (swapData sb d cur next) next = readBlock sb d cur := by
  unfold swapData
  exact readBlock_write_same _ _ _ _ (readAt_length _ _ _)

theorem readBlock_swapData_cur (sb : SuperBlock) (d : Nat → Nat) (cur next : Nat)
    (h : cur ≠ next) :
    readBlock sb (swapData sb d cur next) cur = readBlock sb d next := by
  unfold swapData
  simp only
  rw [readBlock_write_other _ _ _ _ _ (readAt_length _ _ _) (fun e => h e.symm)]
  exact readBlock_write_same _ _ _ _ (readAt_length _ _ _)

theorem readBlock_swapData_other (sb : SuperBlock) (d : Nat → Nat) (cur next y : Nat)
    (h1 : cur ≠ y) (h2 : next ≠ y) :
    readBlock sb (swapData sb d cur next) y = readBlock sb d y := by
  unfold swapData
  simp only
  rw [readBlock_write_other _ _ _ _ _ (readAt_length _ _ _) h2,
    readBlock_write_other _ _ _ _ _ (readAt_length _ _ _) h1]

/-! ### Ranks in scan order -/

theorem rankBefore_mono (ins : List Inode) (i j : Nat) (h : i < j)
    (hu : (inodeAt ins i).isUsed = true) :
    rankBefore ins i + (inodeAt ins i).blocksAllocated ≤ rankBefore ins j := by
  induction j with
  | zero => omega
  | succ j ih =>
    simp only [rankBefore]
    by_cases hij : i = j
    · subst hij; simp [hu]
    · have := ih (by omega)
      omega

/-- Every number below `rankBefore ins i` is the rank of a pair in a slot below `i`. -/
theorem rankBefore_surj (ins : List Inode) (i v : Nat) (h : v < rankBefore ins i) :
    ∃ i' b', i' < i ∧ (inodeAt ins i').isUsed = true ∧
      b' < (inodeAt ins i').blocksAllocated ∧ rankBefore ins i' + b' = v := by
  induction i with
  | zero => simp [rankBefore] at h
  | succ i ih =>
    simp only [rankBefore] at h
    by_cases hv : v < rankBefore ins i
    · obtain ⟨i', b', h1, h2, h3, h4⟩ := ih hv
      exact ⟨i', b', by omega, h2, h3, h4⟩
    · by_cases hu : (inodeAt ins i).isUsed = true
      · rw [if_pos hu] at h
        exact ⟨i, v - rankBefore ins i, by omega, hu, by omega, by omega⟩
      · rw [if_neg hu] at h; omega

theorem rankBefore_congr (a b : List Inode) (h : SameShape a b) (i : Nat) :
    rankBefore a i = rankBefore b i := by
  induction i with
  | zero => rfl
  | succ i ih => simp only [rankBefore, ih, (h.2 i).1, (h.2 i).2.1]

/-! ### The search for the owner of the destination block -/

theorem swapSearchBlocks_no_match (sb : SuperBlock) (cur i b k fuel kk0 : Nat)
    (st : DefragState)
    (h : ∀ kk, kk0 ≤ kk → kk < (inodeAt st.inodes k).blocksAllocated →
      blockAt st.inodes k kk ≠ st.nextFreeBlock) :
    swapSearchBlocks sb cur i b k fuel kk0 st = st := by
  induction fuel generalizing kk0 with
  | zero => rfl
  | succ f ih =>
    simp only [swapSearchBlocks]
    by_cases hlt : kk0 < (inodeAt st.inodes k).blocksAllocated
    · rw [if_pos hlt, if_neg (h kk0 (Nat.le_refl _) hlt)]
      exact ih (kk0 + 1) (fun kk h1 h2 => h kk (by omega) h2)
    · rw [if_neg hlt]

theorem swapSearchBlocks_match (sb : SuperBlock) (cur i b k fuel kk0 kk1 : Nat)
    (st : DefragState) (h0 : kk0 ≤ kk1) (hf : kk1 < kk0 + fuel)
    (hlt : kk1 < (inodeAt st.inodes k).blocksAllocated)
    (hm : blockAt st.inodes k kk1 = st.nextFreeBlock)
    (hno : ∀ kk, kk0 ≤ kk → kk < kk1 → blockAt st.inodes k kk ≠ st.nextFreeBlock) :
    swapSearchBlocks sb cur i b k fuel kk0 st = swapWith sb cur i b k kk1 st := by
  induction fuel generalizing kk0 with
  | zero => omega
  | succ f ih =>
    simp only [swapSearchBlocks]
    rw [if_pos (by omega)]
    by_cases he : kk0 = kk1
    · subst he; rw [if_pos hm]
    · rw [if_neg (hno kk0 (Nat.le_refl _) (by omega))]
      exact ih (kk0 + 1) (by omega) (by omega) (fun kk h1 h2 => hno kk (by omega) h2)

theorem swapSearchFiles_no_match (sb : SuperBlock) (cur i b fuel k0 : Nat) (st : DefragState)
    (h : ∀ k kk, k0 ≤ k → k < k0 + fuel → (inodeAt st.inodes k).isUsed = true →
      kk < (inodeAt st.inodes k).blocksAllocated →
      blockAt st.inodes k kk ≠ st.nextFreeBlock) :
    swapSearchFiles sb cur i b fuel k0 st = st := by
  induction fuel generalizing k0 with
  | zero => rfl
  | succ f ih =>
    simp only [swapSearchFiles]
    by_cases hu : (inodeAt st.inodes k0).isUsed = false
    · rw [if_pos hu]
      exact ih (k0 + 1) (fun k kk h1 h2 => h k kk (by omega) (by omega))
    · rw [if_neg hu]
      have hu' : (inodeAt st.inodes k0).isUsed = true := by simpa using hu
      rw [swapSearchBlocks_no_match _ _ _ _ _ _ _ _
        (fun kk _ h2 => h k0 kk (Nat.le_refl _) (by omega) hu' h2)]
      exact ih (k0 + 1) (fun k kk h1 h2 => h k kk (by omega) (by omega))

/-- The search swaps once, at the first pair that holds the destination block, when no
later slot holds it after the swap. -/
theorem swapSearchFiles_match (sb : SuperBlock) (cur i b fuel k0 k1 kk1 : Nat)
    (st : DefragState) (h0 : k0 ≤ k1) (hf : k1 < k0 + fuel)
    (hu : (inodeAt st.inodes k1).isUsed = true)
    (hlt : kk1 < (inodeAt st.inodes k1).blocksAllocated)
    (hm : blockAt st.inodes k1 kk1 = st.nextFreeBlock)
    (hno1 : ∀ kk, kk < kk1 → blockAt st.inodes k1 kk ≠ st.nextFreeBlock)
    (hno : ∀ k kk, k0 ≤ k → k < k1 → (inodeAt st.inodes k).isUsed = true →
      kk < (inodeAt st.inodes k).blocksAllocated →
      blockAt st.inodes k kk ≠ st.nextFreeBlock)
    (hafter : ∀ k kk, k1 < k → k < k0 + fuel →
      (inodeAt (swapWith sb cur i b k1 kk1 st).inodes k).isUsed = true →
      kk < (inodeAt (swapWith sb cur i b k1 kk1 st).inodes k).blocksAllocated →
      blockAt (swapWith sb cur i b k1 kk1 st).inodes k kk ≠ st.nextFreeBlock) :
    swapSearchFiles sb cur i b fuel k0 st = swapWith sb cur i b k1 kk1 st := by
  induction fuel generalizing k0 with
  | zero => omega
  | succ f ih =>
    simp only [swapSearchFiles]
    by_cases he : k0 = k1
    · subst he
      rw [if_neg (by simp [hu])]
      rw [swapSearchBlocks_match sb cur i b k0 _ 0 kk1 st (Nat.zero_le _) (by omega) hlt hm
        (fun kk _ h2 => hno1 kk h2)]
      exact swapSearchFiles_no_match _ _ _ _ _ _ _
        (fun k kk h1 h2 h3 h4 => hafter k kk (by omega) (by omega) h3 h4)
    · have hrec := ih (k0 + 1) (by omega) (by omega)
        (fun k kk h1 h2 => hno k kk (by omega) h2)
        (fun k kk h1 h2 => hafter k kk h1 (by omega))
      by_cases hu0 : (inodeAt st.inodes k0).isUsed = false
      · rw [if_pos hu0]; exact hrec
      · rw [if_neg hu0]
        have hu' : (inodeAt st.inodes k0).isUsed = true := by simpa using hu0
        rw [swapSearchBlocks_no_match _ _ _ _ _ _ _ _
          (fun kk _ h2 => hno k0 kk (Nat.le_refl _) (by omega) hu' h2)]
        exact hrec

/-! ### One step of the scan -/

theorem swapVal_involutive (cur next v : Nat) :
    swapVal cur next (swapVal cur next v) = v := by
  unfold swapVal
  by_cases h1 : v = cur
  · by_cases h2 : next = cur
    · simp [h1, h2]
    · simp [h1, h2]
  · by_cases h2 : v = next
    · simp [h1, h2]
    · simp [h1, h2]

theorem swapVal_injective (cur next v w : Nat)
    (h : swapVal cur next v = swapVal cur next w) : v = w := by
  rw [← swapVal_involutive cur next v, h, swapVal_involutive]

theorem swapVal_of_ne (cur next v : Nat) (h1 : v ≠ cur) (h2 : v ≠ next) :
    swapVal cur next v = v := by
  simp [swapVal, h1, h2]

theorem swapVal_cur (cur next : Nat) : swapVal cur next cur = next := by
  simp [swapVal]

theorem swapVal_next (cur next : Nat) : swapVal cur next next = cur := by
  unfold swapVal
  by_cases h : next = cur
  · simp [h]
  · simp [h]

/-- A pair before `(i, b)` in scan order has a smaller rank. -/
theorem rank_lt_of_before (ins : List Inode) (i b i' b' : Nat) (hp : Pos ins i' b')
    (hb : i' < i ∨ (i' = i ∧ b' < b)) :
    rankBefore ins i' + b' < rankBefore ins i + b := by
  rcases hb with h | ⟨h1, h2⟩
  · have := rankBefore_mono ins i' i h hp.2.1
    have := hp.2.2
    omega
  · subst h1; omega

/-- The state after one visit keeps the invariant when its inode table, bitmap and data
are those of before up to the exchange of `cur = inodes[i].blockIndex[b]` with the
cursor. -/
theorem DefragInv.step_core {sb : SuperBlock} {ins0 : List Inode} {data0 : Nat → Nat}
    {bmLen : Nat} {st : DefragState} (st' : DefragState) {i b : Nat}
    (hinv : DefragInv sb ins0 data0 bmLen st i b) (hpos : Pos ins0 i b)
    (h1 : st'.nextFreeBlock = st.nextFreeBlock + 1)
    (h2 : SameShape st'.inodes st.inodes)
    (h3 : ∀ i' b', Pos ins0 i' b' → blockAt st'.inodes i' b' =
      swapVal (blockAt st.inodes i b) st.nextFreeBlock (blockAt st.inodes i' b'))
    (h4 : ∀ x, isBlockUsed st'.bitmap x =
      isBlockUsed st.bitmap (swapVal (blockAt st.inodes i b) st.nextFreeBlock x))
    (h5 : ∀ i' b', Pos ins0 i' b' →
      readBlock sb st'.data
          (swapVal (blockAt st.inodes i b) st.nextFreeBlock (blockAt st.inodes i' b')) =
        readBlock sb st.data (blockAt st.inodes i' b'))
    (h6 : st.nextFreeBlock < sb.blocksCount)
    (h7 : st'.bitmap.length = bmLen) (h8 : BytesOk st'.bitmap) :
    DefragInv sb ins0 data0 bmLen st' i (b + 1) := by
  constructor
  · exact h2.trans hinv.shape
  · rw [h1, hinv.next_eq]; omega
  · intro i' b' hp hb
    rw [h3 i' b' hp]
    by_cases he : i' = i ∧ b' = b
    · rw [he.1, he.2, swapVal_cur, hinv.next_eq]
    · have hb' : i' < i ∨ (i' = i ∧ b' < b) := by
        rcases hb with h | ⟨h, h'⟩
        · exact Or.inl h
        · exact Or.inr ⟨h, by
            by_cases hbb : b' = b
            · exact absurd ⟨h, hbb⟩ he
            · omega⟩
      have hv := hinv.done i' b' hp hb'
      have hlt := rank_lt_of_before ins0 i b i' b' hp hb'
      rw [swapVal_of_ne]
      · exact hv
      · intro hc
        exact he (hinv.nodup i' b' i b hp hpos hc)
      · rw [hv, hinv.next_eq]; omega
  · intro i' b' hp
    rw [h3 i' b' hp]
    unfold swapVal
    have hc := hinv.bounds i b hpos
    have hv := hinv.bounds i' b' hp
    split
    · exact h6
    · split
      · exact hc
      · exact hv
  · intro i1 b1 i2 b2 hp1 hp2 he
    rw [h3 i1 b1 hp1, h3 i2 b2 hp2] at he
    exact hinv.nodup i1 b1 i2 b2 hp1 hp2 (swapVal_injective _ _ _ _ he)
  · intro x
    rw [h4 x, hinv.consistent]
    constructor
    · rintro ⟨i', b', hp, he⟩
      exact ⟨i', b', hp, by rw [h3 i' b' hp, he, swapVal_involutive]⟩
    · rintro ⟨i', b', hp, he⟩
      exact ⟨i', b', hp, by rw [← he, h3 i' b' hp, swapVal_involutive]⟩
  · intro i' b' hp
    rw [h3 i' b' hp, h5 i' b' hp]
    exact hinv.content i' b' hp
  · exact h7
  · exact h8

theorem swapVal_self (n v : Nat) : swapVal n n v = v := by
  unfold swapVal
  by_cases h : v = n
  · simp [h]
  · simp [h]

/-- One visit of the scan keeps the invariant. -/
theorem defragStep_inv {sb : SuperBlock} {ins0 : List Inode} {data0 : Nat → Nat}
    {bmLen : Nat} {st : DefragState} {i b : Nat}
    (hlen : ins0.length = MAX_FILES)
    (hblen : ∀ j, j < MAX_FILES → (inodeAt ins0 j).blockIndex.length = INODE_BLOCK_NUM)
    (halloc : ∀ j, j < MAX_FILES → (inodeAt ins0 j).isUsed = true →
      (inodeAt ins0 j).blocksAllocated ≤ INODE_BLOCK_NUM)
    (hbm : sb.blocksCount ≤ 8 * bmLen)
    (hinv : DefragInv sb ins0 data0 bmLen st i b) (hpos : Pos ins0 i b) :
    DefragInv sb ins0 data0 bmLen (defragStep sb i b st) i (b + 1) := by
  have hiL : i < st.inodes.length := by rw [hinv.shape.1, hlen]; exact hpos.1
  have hbL : b < (inodeAt st.inodes i).blockIndex.length := by
    rw [(hinv.shape.2 i).2.2.2.2, hblen i hpos.1]
    have := halloc i hpos.1 hpos.2.1
    have := hpos.2.2
    omega
  have hcurListed : isBlockUsed st.bitmap (blockAt st.inodes i b) = true :=
    (hinv.consistent _).mpr ⟨i, b, hpos, rfl⟩
  by_cases hcn : blockAt st.inodes i b = st.nextFreeBlock
  · -- the block is already in place
    have hstep : defragStep sb i b st = { st with nextFreeBlock := st.nextFreeBlock + 1 } := by
      unfold defragStep; simp [hcn]
    rw [hstep]
    refine DefragInv.step_core { st with nextFreeBlock := st.nextFreeBlock + 1 } hinv hpos rfl
      (SameShape.refl _) ?_ ?_ ?_ ?_ ?_ ?_
    · intro i' b' _; rw [hcn, swapVal_self]
    · intro x; rw [hcn, swapVal_self]
    · intro i' b' _; rw [hcn, swapVal_self]
    · rw [← hcn]; exact hinv.bounds i b hpos
    · exact hinv.bm_len
    · exact hinv.bytes
  · by_cases hbit : isBlockUsed st.bitmap st.nextFreeBlock = true
    · -- the destination holds a live block: swap with its owner
      obtain ⟨k, kk, hpk, hk⟩ := (hinv.consistent _).mp hbit
      have hne : ¬ (k = i ∧ kk = b) := by
        rintro ⟨e1, e2⟩; rw [e1, e2] at hk; exact hcn hk
      have hki : i ≤ k := by
        by_contra hlt
        have h1 := hinv.done k kk hpk (Or.inl (by omega))
        have h2 := rank_lt_of_before ins0 i b k kk hpk (Or.inl (by omega))
        rw [hk, hinv.next_eq] at h1
        omega
      have hkL : k < st.inodes.length := by rw [hinv.shape.1, hlen]; exact hpk.1
      have hkkL : kk < (inodeAt st.inodes k).blockIndex.length := by
        rw [(hinv.shape.2 k).2.2.2.2, hblen k hpk.1]
        have := halloc k hpk.1 hpk.2.1
        have := hpk.2.2
        omega
      have hsh1 : SameShape (setBlockAt st.inodes k kk (blockAt st.inodes i b)) st.inodes :=
        setBlockAt_sameShape _ _ _ _
      have hsh : SameShape (swapWith sb (blockAt st.inodes i b) i b k kk st).inodes st.inodes :=
        (setBlockAt_sameShape _ _ _ _).trans hsh1
      have hF : ∀ i' b', blockAt (swapWith sb (blockAt st.inodes i b) i b k kk st).inodes i' b' =
          if i' = i ∧ b' = b then st.nextFreeBlock
          else if i' = k ∧ b' = kk then blockAt st.inodes i b else blockAt st.inodes i' b' := by
        intro i' b'
        simp only [swapWith]
        rw [blockAt_setBlockAt _ _ _ _ _ _ (by rw [hsh1.1]; exact hiL)
          (by rw [(hsh1.2 i).2.2.2.2]; exact hbL)]
        rw [blockAt_setBlockAt _ _ _ _ _ _ hkL hkkL]
      have huniq : ∀ i' b', Pos ins0 i' b' → blockAt st.inodes i' b' = st.nextFreeBlock →
          i' = k ∧ b' = kk := by
        intro i' b' hp he
        exact hinv.nodup i' b' k kk hp hpk (he.trans hk.symm)
      have h3 : ∀ i' b', Pos ins0 i' b' →
          blockAt (swapWith sb (blockAt st.inodes i b) i b k kk st).inodes i' b' =
            swapVal (blockAt st.inodes i b) st.nextFreeBlock (blockAt st.inodes i' b') := by
        intro i' b' hp
        rw [hF]
        by_cases e1 : i' = i ∧ b' = b
        · rw [if_pos e1, e1.1, e1.2, swapVal_cur]
        · rw [if_neg e1]
          by_cases e2 : i' = k ∧ b' = kk
          · rw [if_pos e2, e2.1, e2.2, hk, swapVal_next]
          · rw [if_neg e2, swapVal_of_ne]
            · intro hc; exact e1 (hinv.nodup i' b' i b hp hpos hc)
            · intro hc; exact e2 (huniq i' b' hp hc)
      have hsearch : swapSearchFiles sb (blockAt st.inodes i b) i b MAX_FILES 0 st =
          swapWith sb (blockAt st.inodes i b) i b k kk st := by
        apply swapSearchFiles_match _ _ _ _ _ 0 k kk st (Nat.zero_le _) (by have := hpk.1; omega)
        · rw [(hinv.shape.2 k).1]; exact hpk.2.1
        · rw [(hinv.shape.2 k).2.1]; exact hpk.2.2
        · exact hk
        · intro kk' hlt hc
          have hp' : Pos ins0 k kk' := ⟨hpk.1, hpk.2.1, by have := hpk.2.2; omega⟩
          have := (huniq k kk' hp' hc).2
          omega
        · intro k' kk' _ hlt hu' hb' hc
          have hp' : Pos ins0 k' kk' :=
            ⟨by have := hpk.1; omega, by rw [← (hinv.shape.2 k').1]; exact hu',
              by rw [← (hinv.shape.2 k').2.1]; exact hb'⟩
          have := (huniq k' kk' hp' hc).1
          omega
        · intro k' kk' hgt hlt hu' hb' hc
          have hp' : Pos ins0 k' kk' :=
            ⟨by omega, by rw [← (hinv.shape.2 k').1, ← (hsh.2 k').1]; exact hu',
              by rw [← (hinv.shape.2 k').2.1, ← (hsh.2 k').2.1]; exact hb'⟩
          rw [hF, if_neg (by omega), if_neg (by omega)] at hc
          have := (huniq k' kk' hp' hc).1
          omega
      have hstep : defragStep sb i b st =
          { swapWith sb (blockAt st.inodes i b) i b k kk st with
            nextFreeBlock := st.nextFreeBlock + 1 } := by
        unfold defragStep
        simp only [ne_eq, hcn, not_false_eq_true, if_true, hbit, hsearch]
        rfl
      rw [hstep]
      refine DefragInv.step_core
        { swapWith sb (blockAt st.inodes i b) i b k kk st with
          nextFreeBlock := st.nextFreeBlock + 1 } hinv hpos rfl hsh h3 ?_ ?_ ?_ ?_ ?_
      · intro x
        show isBlockUsed st.bitmap x = _
        by_cases e1 : x = blockAt st.inodes i b
        · rw [e1, swapVal_cur, hbit, hcurListed]
        · by_cases e2 : x = st.nextFreeBlock
          · rw [e2, swapVal_next, hbit, hcurListed]
          · rw [swapVal_of_ne _ _ _ e1 e2]
      · intro i' b' _
        show readBlock sb (swapData sb st.data (blockAt st.inodes i b) st.nextFreeBlock) _ = _
        by_cases e1 : blockAt st.inodes i' b' = blockAt st.inodes i b
        · rw [e1, swapVal_cur, readBlock_swapData_next]
        · by_cases e2 : blockAt st.inodes i' b' = st.nextFreeBlock
          · rw [e2, swapVal_next, readBlock_swapData_cur _ _ _ _ hcn]
          · rw [swapVal_of_ne _ _ _ e1 e2,
              readBlock_swapData_other _ _ _ _ _ (fun e => e1 e.symm) (fun e => e2 e.symm)]
      · rw [← hk]; exact hinv.bounds k kk hpk
      · exact hinv.bm_len
      · exact hinv.bytes
    · -- the destination is free: move the block
      have hfree : isBlockUsed st.bitmap st.nextFreeBlock = false := by simpa using hbit
      have hnone : ∀ i' b', Pos ins0 i' b' → blockAt st.inodes i' b' ≠ st.nextFreeBlock := by
        intro i' b' hp hc
        exact hbit ((hinv.consistent _).mpr ⟨i', b', hp, hc⟩)
      have hstep : defragStep sb i b st =
          { moveBlock sb (blockAt st.inodes i b) i b st with
            nextFreeBlock := st.nextFreeBlock + 1 } := by
        unfold defragStep
        simp only [ne_eq, hcn, not_false_eq_true, if_true, hfree]
        rfl
      have hge : st.nextFreeBlock < blockAt st.inodes i b := by
        by_contra hlt
        have hlt' : blockAt st.inodes i b < rankBefore ins0 i + b := by
          rw [← hinv.next_eq]; omega
        by_cases hr : blockAt st.inodes i b < rankBefore ins0 i
        · obtain ⟨i', b', h1, h2, h3, h4⟩ := rankBefore_surj ins0 i _ hr
          have hp' : Pos ins0 i' b' := ⟨by have := hpos.1; omega, h2, h3⟩
          have hd := hinv.done i' b' hp' (Or.inl h1)
          rw [h4] at hd
          have := (hinv.nodup i' b' i b hp' hpos hd).1
          omega
        · have hp' : Pos ins0 i (blockAt st.inodes i b - rankBefore ins0 i) :=
            ⟨hpos.1, hpos.2.1, by have := hpos.2.2; omega⟩
          have hd := hinv.done i _ hp' (Or.inr ⟨rfl, by omega⟩)
          have e : rankBefore ins0 i + (blockAt st.inodes i b - rankBefore ins0 i) =
              blockAt st.inodes i b := by omega
          rw [e] at hd
          have := (hinv.nodup _ _ i b hp' hpos hd).2
          omega
      have hcurB := hinv.bounds i b hpos
      have hnB : st.nextFreeBlock < sb.blocksCount := by omega
      rw [hstep]
      refine DefragInv.step_core
        { moveBlock sb (blockAt st.inodes i b) i b st with
          nextFreeBlock := st.nextFreeBlock + 1 } hinv hpos rfl
        (setBlockAt_sameShape _ _ _ _) ?_ ?_ ?_ ?_ ?_ ?_
      · intro i' b' hp
        show blockAt (setBlockAt st.inodes i b st.nextFreeBlock) i' b' = _
        rw [blockAt_setBlockAt _ _ _ _ _ _ hiL hbL]
        by_cases e1 : i' = i ∧ b' = b
        · rw [if_pos e1, e1.1, e1.2, swapVal_cur]
        · rw [if_neg e1, swapVal_of_ne]
          · intro hc; exact e1 (hinv.nodup i' b' i b hp hpos hc)
          · exact hnone i' b' hp
      · intro x
        show isBlockUsed (setBlockUsed (setBlockUsed st.bitmap (blockAt st.inodes i b) false)
          st.nextFreeBlock true) x = _
        by_cases e2 : x = st.nextFreeBlock
        · rw [e2, swapVal_next, hcurListed]
          apply isBlockUsed_set_same
          rw [setBlockUsed_length, hinv.bm_len]; omega
        · rw [isBlockUsed_set_other _ _ _ _ (fun e => e2 e.symm)]
          by_cases e1 : x = blockAt st.inodes i b
          · rw [e1, swapVal_cur, hfree]
            apply isBlockUsed_set_same
            rw [hinv.bm_len]; omega
          · rw [isBlockUsed_set_other _ _ _ _ (fun e => e1 e.symm), swapVal_of_ne _ _ _ e1 e2]
      · intro i' b' hp
        show readBlock sb (writeAt st.data (blockOffset sb st.nextFreeBlock)
          (readAt st.data (blockOffset sb (blockAt st.inodes i b)) sb.blockSize)) _ = _
        by_cases e1 : blockAt st.inodes i' b' = blockAt st.inodes i b
        · rw [e1, swapVal_cur, readBlock_write_same _ _ _ _ (readAt_length _ _ _)]
          rfl
        · rw [swapVal_of_ne _ _ _ e1 (hnone i' b' hp),
            readBlock_write_other _ _ _ _ _ (readAt_length _ _ _)
              (fun e => hnone i' b' hp e.symm)]
      · exact hnB
      · show (setBlockUsed (setBlockUsed st.bitmap _ false) _ true).length = bmLen
        rw [setBlockUsed_length, setBlockUsed_length]; exact hinv.bm_len
      · show BytesOk (setBlockUsed (setBlockUsed st.bitmap _ false) _ true)
        exact setBlockUsed_bytesOk _ _ _ (setBlockUsed_bytesOk _ _ _ hinv.bytes)

/-! ### The loops of `defragmentDisk` -/

theorem defragBlocks_inv {sb : SuperBlock} {ins0 : List Inode} {data0 : Nat → Nat}
    {bmLen : Nat} {i : Nat}
    (hlen : ins0.length = MAX_FILES)
    (hblen : ∀ j, j < MAX_FILES → (inodeAt ins0 j).blockIndex.length = INODE_BLOCK_NUM)
    (halloc : ∀ j, j < MAX_FILES → (inodeAt ins0 j).isUsed = true →
      (inodeAt ins0 j).blocksAllocated ≤ INODE_BLOCK_NUM)
    (hbm : sb.blocksCount ≤ 8 * bmLen)
    (hi : i < MAX_FILES) (hu : (inodeAt ins0 i).isUsed = true)
    (fuel b : Nat) (st : DefragState) (hfuel : b + fuel = (inodeAt ins0 i).blocksAllocated)
    (hinv : DefragInv sb ins0 data0 bmLen st i b) :
    DefragInv sb ins0 data0 bmLen (defragBlocks sb i fuel b st) i
      (inodeAt ins0 i).blocksAllocated := by
  induction fuel generalizing b st with
  | zero =>
    have : b = (inodeAt ins0 i).blocksAllocated := by omega
    rw [← this]; exact hinv
  | succ f ih =>
    simp only [defragBlocks]
    rw [if_pos (by rw [(hinv.shape.2 i).2.1]; omega)]
    exact ih (b + 1) _ (by omega)
      (defragStep_inv hlen hblen halloc hbm hinv ⟨hi, hu, by omega⟩)

/-- Passing from the end of slot `i` to the start of slot `i + 1`. -/
theorem DefragInv.next_slot {sb : SuperBlock} {ins0 : List Inode} {data0 : Nat → Nat}
    {bmLen : Nat} {st : DefragState} {i b : Nat}
    (hinv : DefragInv sb ins0 data0 bmLen st i b)
    (hb : b = if (inodeAt ins0 i).isUsed then (inodeAt ins0 i).blocksAllocated else 0) :
    DefragInv sb ins0 data0 bmLen st (i + 1) 0 := by
  constructor
  · exact hinv.shape
  · rw [hinv.next_eq, hb]; simp only [rankBefore]; omega
  · intro i' b' hp hbef
    apply hinv.done i' b' hp
    rcases hbef with h | ⟨_, h⟩
    · by_cases he : i' = i
      · right
        refine ⟨he, ?_⟩
        rw [hb, ← he, if_pos hp.2.1]
        exact hp.2.2
      · left; omega
    · omega
  · exact hinv.bounds
  · exact hinv.nodup
  · exact hinv.consistent
  · exact hinv.content
  · exact hinv.bm_len
  · exact hinv.bytes

theorem defragFiles_inv {sb : SuperBlock} {ins0 : List Inode} {data0 : Nat → Nat}
    {bmLen : Nat}
    (hlen : ins0.length = MAX_FILES)
    (hblen : ∀ j, j < MAX_FILES → (inodeAt ins0 j).blockIndex.length = INODE_BLOCK_NUM)
    (halloc : ∀ j, j < MAX_FILES → (inodeAt ins0 j).isUsed = true →
      (inodeAt ins0 j).blocksAllocated ≤ INODE_BLOCK_NUM)
    (hbm : sb.blocksCount ≤ 8 * bmLen)
    (fuel i : Nat) (st : DefragState) (hfuel : i + fuel = MAX_FILES)
    (hinv : DefragInv sb ins0 data0 bmLen st i 0) :
    DefragInv sb ins0 data0 bmLen (defragFiles sb fuel i st) MAX_FILES 0 := by
  induction fuel generalizing i st with
  | zero =>
    have : i = MAX_FILES := by omega
    rw [← this]; exact hinv
  | succ f ih =>
    simp only [defragFiles]
    by_cases hu : (inodeAt st.inodes i).isUsed = false
    · rw [if_pos hu]
      refine ih (i + 1) st (by omega) (hinv.next_slot ?_)
      rw [← (hinv.shape.2 i).1, hu]; rfl
    · rw [if_neg hu]
      have hu' : (inodeAt ins0 i).isUsed = true := by
        rw [← (hinv.shape.2 i).1]; simpa using hu
      have hb := defragBlocks_inv hlen hblen halloc hbm (by omega) hu'
        (inodeAt ins0 i).blocksAllocated 0 st (by omega) hinv
      rw [(hinv.shape.2 i).2.1]
      exact ih (i + 1) _ (by omega) (hb.next_slot (by rw [hu']; rfl))

/-- The invariant holds at the end of `defragmentDisk` on a well-formed image that
satisfies the data-model invariants. -/
theorem defragRun_inv (d : Disk) (hwf : WF d) (hinv : DataModelInv d) :
    DefragInv d.sb d.inodes d.data d.bitmap.length (defragRun d) MAX_FILES 0 := by
  unfold defragRun
  apply defragFiles_inv hwf.inodes_len
  · intro j hj
    exact hwf.blockIndex_len _ (inodeAt_mem _ _ (by rw [hwf.inodes_len]; exact hj))
  · exact hinv.alloc_le
  · rw [hwf.bitmap_len, hwf.bitmapSize_eq]; omega
  · rfl
  · constructor
    · exact SameShape.refl _
    · rfl
    · intro i' b' _ h; omega
    · exact hinv.bounds
    · exact hinv.nodup
    · exact hinv.consistent
    · intro _ _ _; rfl
    · rfl
    · exact hwf.bytes

theorem scanUpTo_length (ins : List Inode) (i : Nat) :
    (scanUpTo ins i).length = rankBefore ins i := by
  induction i with
  | zero => rfl
  | succ i ih =>
    simp only [scanUpTo, rankBefore, List.length_append, ih]
    split <;> simp

/-- When every pair holds its rank, the scan order reads `0, 1, 2, ...`. -/
theorem scanUpTo_of_packed (ins : List Inode) (i : Nat) (hi : i ≤ MAX_FILES)
    (h : ∀ i' b', Pos ins i' b' → blockAt ins i' b' = rankBefore ins i' + b') :
    scanUpTo ins i = List.range (rankBefore ins i) := by
  induction i with
  | zero => rfl
  | succ i ih =>
    simp only [scanUpTo, rankBefore, ih (by omega)]
    by_cases hu : (inodeAt ins i).isUsed = true
    · rw [if_pos hu, if_pos hu, List.range_add]
      congr 1
      apply List.map_congr_left
      intro b hb
      exact h i b ⟨by omega, hu, List.mem_range.mp hb⟩
    · rw [if_neg hu, if_neg hu]; simp

/-! ### What `defragmentDisk` guarantees -/

theorem rank_lt_total (ins : List Inode) (i b : Nat) (hp : Pos ins i b) :
    rankBefore ins i + b < rankBefore ins MAX_FILES := by
  have := rankBefore_mono ins i MAX_FILES hp.1 hp.2.1
  have := hp.2.2
  omega

/-- After `defragmentDisk` the inode table has kept its shape and every pair holds its
rank in scan order. -/
theorem defragmentDisk_ranks (d : Disk) (hwf : WF d) (hinv : DataModelInv d) :
    SameShape (defragmentDisk d).inodes d.inodes ∧
    (∀ i b, Pos d.inodes i b →
      blockAt (defragmentDisk d).inodes i b = rankBefore d.inodes i + b) :=
  ⟨(defragRun_inv d hwf hinv).shape,
    fun i b hp => (defragRun_inv d hwf hinv).done i b hp (Or.inl hp.1)⟩

/-- C4. On a well-formed image that satisfies the data-model invariants, `defragmentDisk`
keeps which slots are used and how many blocks each holds, and afterwards the pair
`(i, b)` holds the block whose number is the rank of `(i, b)` in scan order (the pairs of
the slots below `i`, plus `b`): read in scan order the block numbers are
`0, 1, ..., total - 1`, the listed blocks are exactly those below `total`, and the blocks
of each file are consecutive and ascending. -/
theorem defragmentDisk_packs (d : Disk) (hwf : WF d) (hinv : DataModelInv d) :
    SameShape (defragmentDisk d).inodes d.inodes ∧
    (∀ i b, Pos d.inodes i b →
      blockAt (defragmentDisk d).inodes i b = rankBefore d.inodes i + b) ∧
    scanOrder (defragmentDisk d).inodes = List.range (scanOrder d.inodes).length ∧
    (∀ x, Listed (defragmentDisk d).inodes x ↔ x < (scanOrder d.inodes).length) := by
  obtain ⟨hsh, hdone⟩ := defragmentDisk_ranks d hwf hinv
  have hlen : (scanOrder d.inodes).length = rankBefore d.inodes MAX_FILES :=
    scanUpTo_length _ _
  refine ⟨hsh, hdone, ?_, ?_⟩
  · unfold scanOrder at *
    rw [scanUpTo_of_packed _ _ (Nat.le_refl _), rankBefore_congr _ _ hsh, hlen]
    intro i' b' hp
    rw [rankBefore_congr _ _ hsh]
    exact hdone i' b' ((hsh.pos i' b').mp hp)
  · intro x
    rw [hlen]
    constructor
    · rintro ⟨i, b, hp, he⟩
      have hp0 := (hsh.pos i b).mp hp
      rw [← he, hdone i b hp0]
      exact rank_lt_total _ _ _ hp0
    · intro hx
      obtain ⟨i, b, h1, h2, h3, h4⟩ := rankBefore_surj d.inodes MAX_FILES x hx
      have hp0 : Pos d.inodes i b := ⟨h1, h2, h3⟩
      exact ⟨i, b, (hsh.pos i b).mpr hp0, by rw [hdone i b hp0, h4]⟩

theorem readAt_take (d : Nat → Nat) (off m n : Nat) (h : m ≤ n) :
    (readAt d off n).take m = readAt d off m := by
  unfold readAt
  rw [← List.map_take, List.take_range, Nat.min_eq_left h]

/-- The output of copy-out depends only on the file size, the block count and the
contents of the blocks in list order. -/
theorem copyOutLoop_congr (sb : SuperBlock) (d1 d2 : Nat → Nat) (n1 n2 : Inode)
    (hba : n1.blocksAllocated = n2.blocksAllocated)
    (hblk : ∀ b, b < n1.blocksAllocated →
      readBlock sb d1 (n1.blockIndex.getD b 0) = readBlock sb d2 (n2.blockIndex.getD b 0))
    (fuel i rem : Nat) (out : List Nat) :
    copyOutLoop sb d1 n1 fuel i rem out = copyOutLoop sb d2 n2 fuel i rem out := by
  induction fuel generalizing i rem out with
  | zero => rfl
  | succ f ih =>
    simp only [copyOutLoop]
    by_cases hi : i < n1.blocksAllocated
    · rw [if_pos hi, if_pos (hba ▸ hi : i < n2.blocksAllocated)]
      have hle : (if rem < sb.blockSize then rem else sb.blockSize) ≤ sb.blockSize := by
        split <;> omega
      have e : readAt d1 (blockOffset sb (n1.blockIndex.getD i 0))
            (if rem < sb.blockSize then rem else sb.blockSize) =
          readAt d2 (blockOffset sb (n2.blockIndex.getD i 0))
            (if rem < sb.blockSize then rem else sb.blockSize) := by
        rw [← readAt_take _ _ _ _ hle, ← readAt_take _ _ _ _ hle]
        have := hblk i hi
        unfold readBlock at this
        rw [this]
      rw [e]
      exact ih _ _ _
    · rw [if_neg hi, if_neg (hba ▸ hi : ¬ i < n2.blocksAllocated)]

/-- In the embedding where every read is served in full: on a well-formed image that
satisfies the data-model invariants, for every used inode the bytes that `copyOut`
produces are the same before and after `defragmentDisk`; the slot is still used, with the
same name, size and block count, and each of its blocks, in list order, holds the bytes it
held before. The statement for the function on a file of a given length, with the checks
of `copyFileFromVirtualDisk`, is `defragmentDiskOnFile_preserves_copy_out`. -/
theorem defragmentDisk_preserves_contents (d : Disk) (hwf : WF d) (hinv : DataModelInv d)
    (i : Nat) (hi : i < MAX_FILES) (hu : (inodeAt d.inodes i).isUsed = true) :
    copyOut d.sb (defragmentDisk d).data (inodeAt (defragmentDisk d).inodes i) =
      copyOut d.sb d.data (inodeAt d.inodes i) ∧
    (inodeAt (defragmentDisk d).inodes i).isUsed = true ∧
    (inodeAt (defragmentDisk d).inodes i).fileName = (inodeAt d.inodes i).fileName ∧
    (inodeAt (defragmentDisk d).inodes i).fileSize = (inodeAt d.inodes i).fileSize ∧
    (inodeAt (defragmentDisk d).inodes i).blocksAllocated =
      (inodeAt d.inodes i).blocksAllocated ∧
    (∀ b, b < (inodeAt d.inodes i).blocksAllocated →
      readBlock d.sb (defragmentDisk d).data (blockAt (defragmentDisk d).inodes i b) =
        readBlock d.sb d.data (blockAt d.inodes i b)) := by
  have h := defragRun_inv d hwf hinv
  have hsh : SameShape (defragmentDisk d).inodes d.inodes := h.shape
  obtain ⟨s1, s2, s3, s4, _⟩ := hsh.2 i
  have hblk : ∀ b, b < (inodeAt d.inodes i).blocksAllocated →
      readBlock d.sb (defragmentDisk d).data (blockAt (defragmentDisk d).inodes i b) =
        readBlock d.sb d.data (blockAt d.inodes i b) :=
    fun b hb => h.content i b ⟨hi, hu, hb⟩
  refine ⟨?_, by rw [s1, hu], s3, s4, s2, hblk⟩
  unfold copyOut
  rw [s2, s4]
  exact copyOutLoop_congr _ _ _ _ _ s2 (fun b hb => hblk b (by rw [← s2]; exact hb)) _ _ _ _

theorem defragStep_of_in_place (sb : SuperBlock) (i b : Nat) (st : DefragState)
    (h : blockAt st.inodes i b = st.nextFreeBlock) :
    defragStep sb i b st = { st with nextFreeBlock := st.nextFreeBlock + 1 } := by
  unfold defragStep; simp [h]

theorem defragBlocks_of_packed (sb : SuperBlock) (i fuel b : Nat) (st : DefragState)
    (hfuel : b + fuel = (inodeAt st.inodes i).blocksAllocated)
    (h : ∀ b', b ≤ b' → b' < (inodeAt st.inodes i).blocksAllocated →
      blockAt st.inodes i b' = st.nextFreeBlock + (b' - b)) :
    defragBlocks sb i fuel b st = { st with nextFreeBlock := st.nextFreeBlock + fuel } := by
  induction fuel generalizing b st with
  | zero => rfl
  | succ f ih =>
    simp only [defragBlocks]
    rw [if_pos (by omega)]
    have h0 := h b (Nat.le_refl _) (by omega)
    rw [Nat.sub_self, Nat.add_zero] at h0
    rw [defragStep_of_in_place sb i b st h0]
    have hrec := ih (b + 1) { st with nextFreeBlock := st.nextFreeBlock + 1 }
      (by show b + 1 + f = (inodeAt st.inodes i).blocksAllocated; omega)
      (by
        intro b' h1 h2
        have h2' : b' < (inodeAt st.inodes i).blocksAllocated := h2
        show blockAt st.inodes i b' = st.nextFreeBlock + 1 + (b' - (b + 1))
        rw [h b' (by omega) h2']; omega)
    rw [hrec]
    show DefragState.mk st.inodes st.bitmap st.data (st.nextFreeBlock + 1 + f) =
      DefragState.mk st.inodes st.bitmap st.data (st.nextFreeBlock + (f + 1))
    congr 1
    omega

theorem defragFiles_of_packed (sb : SuperBlock) (fuel i : Nat) (st : DefragState)
    (hfuel : i + fuel = MAX_FILES) (hnext : st.nextFreeBlock = rankBefore st.inodes i)
    (h : ∀ i' b', Pos st.inodes i' b' → blockAt st.inodes i' b' = rankBefore st.inodes i' + b') :
    defragFiles sb fuel i st =
      { st with nextFreeBlock := rankBefore st.inodes MAX_FILES } := by
  induction fuel generalizing i st with
  | zero =>
    have : i = MAX_FILES := by omega
    rw [← this, ← hnext]; rfl
  | succ f ih =>
    simp only [defragFiles]
    by_cases hu : (inodeAt st.inodes i).isUsed = false
    · rw [if_pos hu]
      exact ih (i + 1) st (by omega) (by rw [hnext]; simp [rankBefore, hu]) h
    · rw [if_neg hu]
      have hu' : (inodeAt st.inodes i).isUsed = true := by simpa using hu
      rw [defragBlocks_of_packed sb i _ 0 st (by omega)
        (fun b' _ hb => by rw [h i b' ⟨by omega, hu', hb⟩, hnext]; omega)]
      have hrec := ih (i + 1)
        { st with nextFreeBlock := st.nextFreeBlock + (inodeAt st.inodes i).blocksAllocated }
        (by omega)
        (by show _ = rankBefore st.inodes (i + 1); rw [hnext]; simp [rankBefore, hu'])
        h
      rw [hrec]

/-- C10. On a well-formed image that satisfies the data-model invariants, a second run of
`defragmentDisk` changes nothing: the image after two runs (inode table, bitmap and
bytes) is the image after one run. -/
theorem defragmentDisk_idempotent (d : Disk) (hwf : WF d) (hinv : DataModelInv d) :
    defragmentDisk (defragmentDisk d) = defragmentDisk d := by
  obtain ⟨hsh, hdone⟩ := defragmentDisk_ranks d hwf hinv
  have hpacked : ∀ i' b', Pos (defragmentDisk d).inodes i' b' →
      blockAt (defragmentDisk d).inodes i' b' =
        rankBefore (defragmentDisk d).inodes i' + b' := by
    intro i' b' hp
    rw [rankBefore_congr _ _ hsh]
    exact hdone i' b' ((hsh.pos i' b').mp hp)
  have hrun : defragRun (defragmentDisk d) =
      { inodes := (defragmentDisk d).inodes, bitmap := (defragmentDisk d).bitmap,
        data := (defragmentDisk d).data,
        nextFreeBlock := rankBefore (defragmentDisk d).inodes MAX_FILES } := by
    exact defragFiles_of_packed (defragmentDisk d).sb MAX_FILES 0
      { inodes := (defragmentDisk d).inodes, bitmap := (defragmentDisk d).bitmap,
        data := (defragmentDisk d).data, nextFreeBlock := 0 } (Nat.zero_add _) rfl hpacked
  show ({ defragmentDisk d with
    inodes := (defragRun (defragmentDisk d)).inodes,
    bitmap := (defragRun (defragmentDisk d)).bitmap,
    data := (defragRun (defragmentDisk d)).data } : Disk) = defragmentDisk d
  rw [hrun]

/-! ### The data-model invariants along `createVirtualDisk`, `addNewFile`, `removeFile` -/

theorem inodeAt_replicate_zero (n j : Nat) :
    inodeAt (List.replicate n Inode.zero) j = Inode.zero := by
  unfold inodeAt
  by_cases h : j < n
  · simp [List.getD_eq_getElem?_getD, List.getElem?_replicate, h]
  · simp [List.getD_eq_getElem?_getD, List.getElem?_replicate, h]
    rfl

theorem isBlockUsed_replicate_zero (n x : Nat) :
    isBlockUsed (List.replicate n 0) x = false := by
  rw [isBlockUsed_eq_testBit]
  by_cases h : x / 8 < n
  · simp [List.getD_eq_getElem?_getD, List.getElem?_replicate, h]
  · simp [List.getD_eq_getElem?_getD, List.getElem?_replicate, h]

/-- A new image satisfies the data-model invariants: no inode is used and no bit is
set. -/
theorem createVirtualDisk_inv (ssb sin : Nat) (nm : List Nat) (ds bs : Nat) :
    DataModelInv (createVirtualDisk ssb sin nm ds bs) := by
  have hno : ∀ i b, ¬ Pos (createVirtualDisk ssb sin nm ds bs).inodes i b := by
    intro i b hp
    have := hp.2.1
    simp only [createVirtualDisk, inodeAt_replicate_zero] at this
    simp [Inode.zero] at this
  constructor
  · intro i _ hu
    simp only [createVirtualDisk, inodeAt_replicate_zero] at hu
    simp [Inode.zero] at hu
  · intro i b hp; exact absurd hp (hno i b)
  · intro i b i' b' hp; exact absurd hp (hno i b)
  · intro x
    constructor
    · intro h
      simp only [createVirtualDisk, isBlockUsed_replicate_zero] at h
      cases h
    · rintro ⟨i, b, hp, _⟩; exact absurd hp (hno i b)

theorem mem_take_iff_getD (l : List Nat) (n x : Nat) (hn : n ≤ l.length) :
    x ∈ l.take n ↔ ∃ b, b < n ∧ l.getD b 0 = x := by
  rw [List.mem_iff_getElem]
  constructor
  · rintro ⟨b, hb, he⟩
    have hb' : b < n := by simp at hb; omega
    refine ⟨b, hb', ?_⟩
    rw [List.getElem_take] at he
    simp only [List.getD_eq_getElem?_getD,
      List.getElem?_eq_getElem (by omega : b < l.length), Option.getD_some]
    exact he
  · rintro ⟨b, hb, he⟩
    refine ⟨b, by simp; omega, ?_⟩
    rw [List.getElem_take]
    simp only [List.getD_eq_getElem?_getD,
      List.getElem?_eq_getElem (by omega : b < l.length), Option.getD_some] at he
    exact he

theorem getD_inj_of_nodup_take (l : List Nat) (n b b' : Nat) (hn : n ≤ l.length)
    (hnd : (l.take n).Nodup) (hb : b < n) (hb' : b' < n)
    (he : l.getD b 0 = l.getD b' 0) : b = b' := by
  have h1 : b < (l.take n).length := by simp; omega
  have h2 : b' < (l.take n).length := by simp; omega
  have e : (l.take n)[b] = (l.take n)[b'] := by
    rw [List.getElem_take, List.getElem_take]
    simp only [List.getD_eq_getElem?_getD,
      List.getElem?_eq_getElem (by omega : b < l.length),
      List.getElem?_eq_getElem (by omega : b' < l.length), Option.getD_some] at he
    exact he
  exact (List.Nodup.getElem_inj_iff hnd).mp e

/-- Adding a file under a name that is not in use keeps the data-model invariants. -/
theorem addNewFile_inv (d : Disk) (name : List Nat) (size : Nat) (ow : Bool)
    (hwf : WF d) (hinv : DataModelInv d)
    (hnew : findFile d.inodes name MAX_FILES 0 = none) :
    DataModelInv (addNewFile d name size ow).disk := by
  rcases addNewFile_cases d name size ow with ⟨_, h⟩ | ⟨hok, _⟩
  · rw [h]; exact hinv
  · obtain ⟨hn, hr, hfr, idx, hidx, hs⟩ := addNewFile_added_inv d name size ow hwf hok
    obtain ⟨_, hsb, _, hbm, bl, hbl, htake, hin⟩ :=
      (addNewFile_of_slot d name size ow idx hwf hn hs hidx hr).2 hfr
    have hunused : (inodeAt d.inodes idx).isUsed = false := by
      rcases (slotLoop_chosen _ _ _ _ hs).2 with ⟨hf, _⟩ | ⟨_, hf⟩
      · rw [hnew] at hf; cases hf
      · exact ((firstUnused_eq_some_iff _ _ _ _).mp hf).2.2.1
    have hat : inodeAt (addNewFile d name size ow).disk.inodes idx =
        { fileName := name, fileSize := size, isUsed := true, blockIndex := bl,
          blocksAllocated := requiredBlocks d.sb size } := by
      rw [hin, inodeAt_set_same _ _ _ (by rw [hwf.inodes_len]; exact hidx)]
    have hother : ∀ j, j ≠ idx →
        inodeAt (addNewFile d name size ow).disk.inodes j = inodeAt d.inodes j := by
      intro j hj
      rw [hin, inodeAt_set_other _ _ _ _ (fun e => hj e.symm)]
    have hble : requiredBlocks d.sb size ≤ bl.length := by rw [hbl]; exact hr
    have hinb : ∀ x ∈ (freeBlocks d.sb d.bitmap).take (requiredBlocks d.sb size),
        x / 8 < d.bitmap.length := fun x hx =>
      hwf.byte_lt d x (mem_freeBlocks_take _ _ _ _ hx).1
    -- the pairs of the new table
    have hposNew : ∀ b, Pos (addNewFile d name size ow).disk.inodes idx b →
        b < requiredBlocks d.sb size ∧
        blockAt (addNewFile d name size ow).disk.inodes idx b ∈
          (freeBlocks d.sb d.bitmap).take (requiredBlocks d.sb size) := by
      intro b hp
      have hb : b < requiredBlocks d.sb size := by have := hp.2.2; rw [hat] at this; exact this
      refine ⟨hb, ?_⟩
      rw [← htake, mem_take_iff_getD _ _ _ hble]
      exact ⟨b, hb, by unfold blockAt; rw [hat]⟩
    have hposOld : ∀ i b, i ≠ idx → Pos (addNewFile d name size ow).disk.inodes i b →
        Pos d.inodes i b ∧
        blockAt (addNewFile d name size ow).disk.inodes i b = blockAt d.inodes i b := by
      intro i b hi hp
      unfold Pos blockAt at *
      rw [hother i hi] at hp
      rw [hother i hi]
      exact ⟨hp, rfl⟩
    have hfreeNotListed : ∀ x, x ∈ (freeBlocks d.sb d.bitmap).take (requiredBlocks d.sb size) →
        ¬ Listed d.inodes x := by
      intro x hx hl
      have h1 := (mem_freeBlocks_take _ _ _ _ hx).2
      have h2 := (hinv.consistent x).mpr hl
      rw [h1] at h2; cases h2
    constructor
    · intro i hi hu
      by_cases he : i = idx
      · rw [he, hat]; exact hr
      · rw [hother i he] at hu ⊢; exact hinv.alloc_le i hi hu
    · intro i b hp
      rw [hsb]
      by_cases he : i = idx
      · rw [he] at hp ⊢
        exact (mem_freeBlocks_take _ _ _ _ (hposNew b hp).2).1
      · obtain ⟨hp', hb⟩ := hposOld i b he hp
        rw [hb]; exact hinv.bounds i b hp'
    · intro i b i' b' hp hp' heq
      by_cases he : i = idx
      · by_cases he' : i' = idx
        · rw [he] at hp heq; rw [he'] at hp' heq
          refine ⟨by rw [he, he'], ?_⟩
          apply getD_inj_of_nodup_take bl (requiredBlocks d.sb size) b b' hble
            (by rw [htake]; exact freeBlocks_take_nodup _ _ _) (hposNew b hp).1 (hposNew b' hp').1
          unfold blockAt at heq; rw [hat] at heq; exact heq
        · rw [he] at hp heq
          obtain ⟨hq, hb⟩ := hposOld i' b' he' hp'
          exfalso
          apply hfreeNotListed _ (hposNew b hp).2
          exact ⟨i', b', hq, by rw [← hb, heq]⟩
      · obtain ⟨hq, hb⟩ := hposOld i b he hp
        by_cases he' : i' = idx
        · rw [he'] at hp' heq
          exfalso
          apply hfreeNotListed _ (hposNew b' hp').2
          exact ⟨i, b, hq, by rw [← hb, heq]⟩
        · obtain ⟨hq', hb'⟩ := hposOld i' b' he' hp'
          rw [hb, hb'] at heq
          exact hinv.nodup i b i' b' hq hq' heq
    · intro x
      rw [hbm, isBlockUsed_setBlocks _ _ _ _ hinb]
      constructor
      · intro h
        by_cases hx : x ∈ (freeBlocks d.sb d.bitmap).take (requiredBlocks d.sb size)
        · rw [← htake, mem_take_iff_getD _ _ _ hble] at hx
          obtain ⟨b, hb, hbx⟩ := hx
          refine ⟨idx, b, ⟨hidx, by rw [hat], by rw [hat]; exact hb⟩, ?_⟩
          unfold blockAt; rw [hat]; exact hbx
        · rw [if_neg hx] at h
          obtain ⟨i, b, hp, hbx⟩ := (hinv.consistent x).mp h
          have hne : i ≠ idx := by
            intro e; rw [e] at hp; have := hp.2.1; rw [hunused] at this; cases this
          refine ⟨i, b, ?_, ?_⟩
          · unfold Pos; rw [hother i hne]; exact hp
          · unfold blockAt; rw [hother i hne]; exact hbx
      · rintro ⟨i, b, hp, hbx⟩
        by_cases he : i = idx
        · rw [he] at hp hbx
          rw [if_pos (by rw [← hbx]; exact (hposNew b hp).2)]
        · obtain ⟨hq, hb⟩ := hposOld i b he hp
          have : isBlockUsed d.bitmap x = true :=
            (hinv.consistent x).mpr ⟨i, b, hq, by rw [← hb, hbx]⟩
          split
          · rfl
          · exact this

/-- Removing a file keeps the data-model invariants. -/
theorem removeFile_inv (d : Disk) (name : List Nat) (hwf : WF d) (hinv : DataModelInv d) :
    DataModelInv (removeFile d name).2 := by
  unfold removeFile
  cases hf : findFile d.inodes name MAX_FILES 0 with
  | none => exact hinv
  | some idx =>
    obtain ⟨_, hidx, hu, _, _⟩ := (findFile_eq_some_iff _ _ _ _ _).mp hf
    have hidx' : idx < MAX_FILES := by omega
    have hlen : idx < d.inodes.length := by rw [hwf.inodes_len]; exact hidx'
    have hba := hinv.alloc_le idx hidx' hu
    have hbl : (inodeAt d.inodes idx).blocksAllocated ≤ (inodeAt d.inodes idx).blockIndex.length := by
      rw [hwf.blockIndex_len _ (inodeAt_mem _ _ hlen)]; exact hba
    have hat : inodeAt (d.inodes.set idx (deleteInode (inodeAt d.inodes idx))) idx =
        deleteInode (inodeAt d.inodes idx) := inodeAt_set_same _ _ _ hlen
    have hother : ∀ j, j ≠ idx →
        inodeAt (d.inodes.set idx (deleteInode (inodeAt d.inodes idx))) j = inodeAt d.inodes j :=
      fun j hj => inodeAt_set_other _ _ _ _ (fun e => hj e.symm)
    have hpos : ∀ i b, Pos (d.inodes.set idx (deleteInode (inodeAt d.inodes idx))) i b →
        i ≠ idx ∧ Pos d.inodes i b ∧
        blockAt (d.inodes.set idx (deleteInode (inodeAt d.inodes idx))) i b =
          blockAt d.inodes i b := by
      intro i b hp
      have hne : i ≠ idx := by
        intro e
        have := hp.2.1
        rw [e, hat] at this
        simp [deleteInode] at this
      unfold Pos blockAt at *
      rw [hother i hne] at hp
      rw [hother i hne]
      exact ⟨hne, hp, rfl⟩
    have hmem : ∀ x, x ∈ (inodeAt d.inodes idx).blockIndex.take
          (inodeAt d.inodes idx).blocksAllocated ↔
        ∃ b, Pos d.inodes idx b ∧ blockAt d.inodes idx b = x := by
      intro x
      rw [mem_take_iff_getD _ _ _ hbl]
      constructor
      · rintro ⟨b, hb, he⟩; exact ⟨b, ⟨hidx', hu, hb⟩, he⟩
      · rintro ⟨b, hp, he⟩; exact ⟨b, hp.2.2, he⟩
    have hinb : ∀ x ∈ (inodeAt d.inodes idx).blockIndex.take
        (inodeAt d.inodes idx).blocksAllocated, x / 8 < d.bitmap.length := by
      intro x hx
      obtain ⟨b, hp, he⟩ := (hmem x).mp hx
      rw [← he]
      exact hwf.byte_lt d _ (hinv.bounds idx b hp)
    constructor
    · intro i hi hu'
      by_cases he : i = idx
      · rw [he, hat] at hu'; simp [deleteInode] at hu'
      · show (inodeAt (d.inodes.set idx _) i).blocksAllocated ≤ _
        change (inodeAt (d.inodes.set idx _) i).isUsed = true at hu'
        rw [hother i he] at hu' ⊢
        exact hinv.alloc_le i hi hu'
    · intro i b hp
      obtain ⟨_, hq, hb⟩ := hpos i b hp
      show blockAt (d.inodes.set idx _) i b < d.sb.blocksCount
      rw [hb]; exact hinv.bounds i b hq
    · intro i b i' b' hp hp' heq
      obtain ⟨_, hq, hb⟩ := hpos i b hp
      obtain ⟨_, hq', hb'⟩ := hpos i' b' hp'
      change blockAt (d.inodes.set idx _) i b = blockAt (d.inodes.set idx _) i' b' at heq
      rw [hb, hb'] at heq
      exact hinv.nodup i b i' b' hq hq' heq
    · intro x
      show isBlockUsed (setBlocks d.bitmap _ false) x = true ↔
        Listed (d.inodes.set idx (deleteInode (inodeAt d.inodes idx))) x
      rw [isBlockUsed_setBlocks _ _ _ _ hinb]
      constructor
      · intro h
        by_cases hx : x ∈ (inodeAt d.inodes idx).blockIndex.take
            (inodeAt d.inodes idx).blocksAllocated
        · rw [if_pos hx] at h; cases h
        · rw [if_neg hx] at h
          obtain ⟨i, b, hp, hbx⟩ := (hinv.consistent x).mp h
          have hne : i ≠ idx := by
            intro e; rw [e] at hp hbx
            exact hx ((hmem x).mpr ⟨b, hp, hbx⟩)
          refine ⟨i, b, ?_, ?_⟩
          · unfold Pos; rw [hother i hne]; exact hp
          · unfold blockAt; rw [hother i hne]; exact hbx
      · rintro ⟨i, b, hp, hbx⟩
        obtain ⟨hne, hq, hb⟩ := hpos i b hp
        rw [hb] at hbx
        have hx : x ∉ (inodeAt d.inodes idx).blockIndex.take
            (inodeAt d.inodes idx).blocksAllocated := by
          intro hx
          obtain ⟨b', hp', he'⟩ := (hmem x).mp hx
          exact hne (hinv.nodup i b idx b' hq hp' (by rw [hbx, he'])).1
        rw [if_neg hx]
        exact (hinv.consistent x).mpr ⟨i, b, hq, hbx⟩

/-- Defragmentation keeps the data-model invariants. -/
theorem defragmentDisk_inv (d : Disk) (hwf : WF d) (hinv : DataModelInv d) :
    DataModelInv (defragmentDisk d) := by
  have h := defragRun_inv d hwf hinv
  have hsh : SameShape (defragmentDisk d).inodes d.inodes := h.shape
  constructor
  · intro i hi hu
    rw [(hsh.2 i).1] at hu
    rw [(hsh.2 i).2.1]
    exact hinv.alloc_le i hi hu
  · intro i b hp
    exact h.bounds i b ((hsh.pos i b).mp hp)
  · intro i b i' b' hp hp'
    exact h.nodup i b i' b' ((hsh.pos i b).mp hp) ((hsh.pos i' b').mp hp')
  · intro x
    show isBlockUsed (defragRun d).bitmap x = true ↔ _
    rw [h.consistent]
    constructor
    · rintro ⟨i, b, hp, he⟩; exact ⟨i, b, (hsh.pos i b).mpr hp, he⟩
    · rintro ⟨i, b, hp, he⟩; exact ⟨i, b, (hsh.pos i b).mp hp, he⟩

theorem defragmentDisk_WF (d : Disk) (hwf : WF d) (hinv : DataModelInv d) :
    WF (defragmentDisk d) := by
  have h := defragRun_inv d hwf hinv
  have hsh : SameShape (defragmentDisk d).inodes d.inodes := h.shape
  constructor
  · exact hwf.blockSize_pos
  · exact hwf.blockSize_lt
  · exact hwf.extent_lt
  · rw [hsh.1]; exact hwf.inodes_len
  · intro n hn
    obtain ⟨j, hj, he⟩ := List.mem_iff_getElem.mp hn
    have e : n = inodeAt (defragmentDisk d).inodes j := by
      simp only [inodeAt, List.getD_eq_getElem?_getD, List.getElem?_eq_getElem hj,
        Option.getD_some]
      exact he.symm
    have hj' : j < d.inodes.length := by rw [← hsh.1]; exact hj
    rw [e, (hsh.2 j).2.2.2.2]
    exact hwf.blockIndex_len _ (inodeAt_mem _ _ hj')
  · show (defragRun d).bitmap.length = _
    rw [h.bm_len]; exact hwf.bitmap_len
  · exact hwf.bitmapSize_eq
  · exact h.bytes

/-! ### The scenario of the specification -/

theorem scenarioBeforeDefrag_WF : WF scenarioBeforeDefrag :=
  addNewFile_WF _ _ _ _ scenarioAfterRemove_WF

theorem scenarioBeforeDefrag_inv : DataModelInv scenarioBeforeDefrag :=
  addNewFile_inv _ _ _ _ scenarioAfterRemove_WF
    (removeFile_inv _ _ (addNewFile_WF _ _ _ _ (addNewFile_WF _ _ _ _ scenarioDisk_WF))
      (addNewFile_inv _ _ _ _ (addNewFile_WF _ _ _ _ scenarioDisk_WF)
        (addNewFile_inv _ _ _ _ scenarioDisk_WF (createVirtualDisk_inv _ _ _ _ _) (by decide))
        (by decide)))
    (by decide)

/-- C4 at the scenario: after `defrag` the scan order of the image reads `0, 1, 2`. -/
theorem defragmentDisk_packs_witness :
    WF scenarioBeforeDefrag ∧ DataModelInv scenarioBeforeDefrag ∧
    scanOrder (defragmentDisk scenarioBeforeDefrag).inodes =
      List.range (scanOrder scenarioBeforeDefrag.inodes).length ∧
    (scanOrder scenarioBeforeDefrag.inodes).length = 3 :=
  ⟨scenarioBeforeDefrag_WF, scenarioBeforeDefrag_inv,
    (defragmentDisk_packs scenarioBeforeDefrag scenarioBeforeDefrag_WF
      scenarioBeforeDefrag_inv).2.2.1, by decide⟩

/-- The scenario after `defrag`: `c` (slot 0) holds block 0 and `b` (slot 1) holds blocks
1 and 2; before, `c` held block 0 and `b` blocks 3 and 4. -/
theorem scenario_after_defrag :
    scanOrder scenarioBeforeDefrag.inodes = [0, 3, 4] ∧
    (inodeAt (defragmentDisk scenarioBeforeDefrag).inodes 0).fileName = [99] ∧
    (inodeAt (defragmentDisk scenarioBeforeDefrag).inodes 0).blockIndex.take 1 = [0] ∧
    (inodeAt (defragmentDisk scenarioBeforeDefrag).inodes 1).fileName = [98] ∧
    (inodeAt (defragmentDisk scenarioBeforeDefrag).inodes 1).blockIndex.take 2 = [1, 2] ∧
    (defragmentDisk scenarioBeforeDefrag).bitmap = [7, 0] := by
  decide

/-- C10 at the scenario. -/
theorem defragmentDisk_idempotent_witness :
    WF scenarioBeforeDefrag ∧ DataModelInv scenarioBeforeDefrag ∧
    defragmentDisk (defragmentDisk scenarioBeforeDefrag) =
      defragmentDisk scenarioBeforeDefrag :=
  ⟨scenarioBeforeDefrag_WF, scenarioBeforeDefrag_inv,
    defragmentDisk_idempotent scenarioBeforeDefrag scenarioBeforeDefrag_WF
      scenarioBeforeDefrag_inv⟩

/-- C9 (what the code does). After `add a 600` the image is consistent; `add a 256` with the
overwrite accepted succeeds and takes block 3, and leaves bits 0 to 2 set although no
used inode lists blocks 0 to 2: the bitmap and the inode table are no longer
consistent. -/
theorem addNewFile_overwrite_breaks_consistency :
    Consistent (addNewFile scenarioDisk [97] 600 false).disk ∧
    (addNewFile (addNewFile scenarioDisk [97] 600 false).disk [97] 256 true).outcome =
      AddOutcome.added ∧
    isBlockUsed scenarioOverwrite.bitmap 0 = true ∧
    ¬ Listed scenarioOverwrite.inodes 0 ∧
    ¬ Consistent scenarioOverwrite := by
  have hc : Consistent (addNewFile scenarioDisk [97] 600 false).disk :=
    (addNewFile_inv _ _ _ _ scenarioDisk_WF (createVirtualDisk_inv _ _ _ _ _)
      (by decide)).consistent
  have hbit : isBlockUsed scenarioOverwrite.bitmap 0 = true := by decide
  have hnl : ¬ Listed scenarioOverwrite.inodes 0 := by
    rintro ⟨i, b, ⟨hi, hu, hb⟩, he⟩
    have h0 : ∀ j, j < MAX_FILES → (inodeAt scenarioOverwrite.inodes j).isUsed = true → j = 0 := by
      decide
    have hi0 := h0 i hi hu
    subst hi0
    have hb1 : (inodeAt scenarioOverwrite.inodes 0).blocksAllocated = 1 := by decide
    rw [hb1] at hb
    have hb0 : b = 0 := by omega
    subst hb0
    revert he
    decide
  exact ⟨hc, by decide, hbit, hnl, fun h => hnl ((h 0).mp hbit)⟩

theorem findFreeBlocksLoop_spec (bm : List Nat) (need fuel i : Nat) (found : List Nat)
    (h : found.length < need) :
    findFreeBlocksLoop bm need fuel i found =
      if need - found.length ≤ ((List.range' i fuel).filter fun x => !isBlockUsed bm x).length
      then (0, found ++
        ((List.range' i fuel).filter fun x => !isBlockUsed bm x).take (need - found.length))
      else (-1, found ++ (List.range' i fuel).filter fun x => !isBlockUsed bm x) := by
  induction fuel generalizing i found with
  | zero =>
    simp only [findFreeBlocksLoop, List.range'_zero, List.filter_nil, List.length_nil,
      List.append_nil]
    rw [if_neg (by omega)]
  | succ f ih =>
    simp only [findFreeBlocksLoop]
    by_cases hfree : isBlockUsed bm i = false
    · rw [if_pos hfree]
      have hfl : (List.range' i (f + 1)).filter (fun x => !isBlockUsed bm x) =
          i :: (List.range' (i + 1) f).filter (fun x => !isBlockUsed bm x) := by
        rw [List.range'_succ, List.filter_cons_of_pos (by simp [hfree])]
      rw [hfl]
      by_cases hn : (found ++ [i]).length = need
      · rw [if_pos hn]
        have h1 : need - found.length = 1 := by
          rw [List.length_append, List.length_singleton] at hn; omega
        rw [h1, if_pos (by simp)]
        simp
      · rw [if_neg hn]
        have hlen : (found ++ [i]).length = found.length + 1 := by simp
        rw [ih (i + 1) (found ++ [i]) (by omega), hlen]
        have h2 : need - found.length = (need - (found.length + 1)) + 1 := by omega
        rw [h2, List.take_succ_cons, List.length_cons]
        simp only [Nat.add_le_add_iff_right, List.append_assoc, List.singleton_append]
    · rw [if_neg hfree]
      have hfl : (List.range' i (f + 1)).filter (fun x => !isBlockUsed bm x) =
          (List.range' (i + 1) f).filter (fun x => !isBlockUsed bm x) := by
        rw [List.range'_succ, List.filter_cons_of_neg (by simpa using hfree)]
      rw [hfl]
      exact ih (i + 1) found h

/-- Calling `findFreeBlocks` with `1 ≤ countNeeded ≤` the number of free blocks returns 0 and the
`countNeeded` lowest free blocks in ascending order, the blocks the allocation loop of
`addNewFile` takes. -/
theorem findFreeBlocks_first_fit (sb : SuperBlock) (bm : List Nat) (need : Nat)
    (h1 : 0 < need) (h2 : need ≤ (freeBlocks sb bm).length) :
    findFreeBlocks bm sb.blocksCount need = (0, (freeBlocks sb bm).take need) := by
  unfold findFreeBlocks
  rw [findFreeBlocksLoop_spec bm need sb.blocksCount 0 [] h1, ← List.range_eq_range']
  simp only [List.length_nil, Nat.sub_zero, List.nil_append]
  exact if_pos h2

/-! ## Accessor laws, slot selection, ends that do not commit -/

/-- Writing back the value a bit already has leaves the bitmap as it is. -/
theorem setBlockUsed_same_value (bm : List Nat) (i : Nat) (v : Bool) (hb : BytesOk bm)
    (hi : i / 8 < bm.length) (h : isBlockUsed bm i = v) : setBlockUsed bm i v = bm := by
  apply bitmap_ext _ _ (setBlockUsed_bytesOk _ _ _ hb) hb (setBlockUsed_length _ _ _)
  intro x _
  by_cases hx : i = x
  · rw [← hx, isBlockUsed_set_same _ _ _ hi, h]
  · rw [isBlockUsed_set_other _ _ _ _ hx]

/-- C20. For a bitmap of bytes and block indices `i ≠ j` within it: the bit written at `i`
reads back as written, the bit at `j` is unchanged, and writing at `i` the value the bit
already has (clearing a clear bit, setting a set bit) returns the same bitmap. -/
theorem bitmap_accessor_laws (bm : List Nat) (i j : Nat) (v : Bool) (hb : BytesOk bm)
    (hi : i / 8 < bm.length) (_hj : j / 8 < bm.length) (hij : i ≠ j) :
    isBlockUsed (setBlockUsed bm i v) i = v ∧
    isBlockUsed (setBlockUsed bm i v) j = isBlockUsed bm j ∧
    (isBlockUsed bm i = v → setBlockUsed bm i v = bm) :=
  ⟨isBlockUsed_set_same bm i v hi, isBlockUsed_set_other bm i j v hij,
    setBlockUsed_same_value bm i v hb hi⟩

/-- C20 on the bitmap `[5, 0]` (bits 0 and 2 set): clearing bit 1 changes nothing. -/
theorem bitmap_accessor_laws_witness :
    BytesOk [5, 0] ∧ isBlockUsed (setBlockUsed [5, 0] 1 false) 1 = false ∧
    isBlockUsed (setBlockUsed [5, 0] 1 false) 10 = isBlockUsed [5, 0] 10 ∧
    setBlockUsed [5, 0] 1 false = [5, 0] :=
  have hb : BytesOk [5, 0] := by intro x hx; simp at hx; omega
  have h := bitmap_accessor_laws [5, 0] 1 10 false hb (by decide) (by decide) (by decide)
  ⟨hb, h.1, h.2.1, h.2.2 (by decide)⟩

/-- The outcome of `addNewFile` by the result of the name check and of the slot loop. -/
theorem addNewFile_outcome (d : Disk) (name : List Nat) (size : Nat) (ow : Bool) :
    (name.length ≥ MAX_FILENAME_LENGTH →
      (addNewFile d name size ow).outcome = AddOutcome.nameTooLong ∧
      (addNewFile d name size ow).disk = d) ∧
    (name.length < MAX_FILENAME_LENGTH →
      (slotLoop d.inodes name ow MAX_FILES 0 none = SlotChoice.cancelled →
        (addNewFile d name size ow).outcome = AddOutcome.cancelled ∧
        (addNewFile d name size ow).disk = d) ∧
      (slotLoop d.inodes name ow MAX_FILES 0 none = SlotChoice.chosen none →
        (addNewFile d name size ow).outcome = AddOutcome.noFreeInode ∧
        (addNewFile d name size ow).disk = d) ∧
      (∀ idx, slotLoop d.inodes name ow MAX_FILES 0 none = SlotChoice.chosen (some idx) →
        (addNewFile d name size ow).outcome = AddOutcome.fileTooLarge ∨
        (addNewFile d name size ow).outcome = AddOutcome.insufficientSpace ∨
        (addNewFile d name size ow).outcome = AddOutcome.added)) := by
  constructor
  · intro hn; simp [addNewFile, hn]
  · intro hlt
    have hn : ¬ name.length ≥ MAX_FILENAME_LENGTH := by omega
    refine ⟨?_, ?_, ?_⟩
    · intro hs; simp [addNewFile, hn, hs]
    · intro hs; simp [addNewFile, hn, hs]
    · intro idx hs
      by_cases hr : requiredBlocks d.sb size > INODE_BLOCK_NUM
      · left; simp [addNewFile, hn, hs, hr]
      · by_cases ha : (allocLoop (requiredBlocks d.sb size) d.sb.blocksCount 0 d.bitmap
            (inodeAt d.inodes idx).blockIndex 0).2.2 < requiredBlocks d.sb size
        · right; left; simp [addNewFile, hn, hs, hr, ha]
        · right; right; simp [addNewFile, hn, hs, hr, ha]

theorem findFile_none_iff_nameFree (inodes : List Inode) (name : List Nat) :
    findFile inodes name MAX_FILES 0 = none ↔ NameFree inodes name := by
  rw [findFile_eq_none_iff]
  constructor
  · intro h i hi; exact h i (Nat.zero_le _) (by omega)
  · intro h i _ hi; exact h i (by omega)

theorem findFile_some_iff_firstNamed (inodes : List Inode) (name : List Nat) (k : Nat) :
    findFile inodes name MAX_FILES 0 = some k ↔ FirstNamed inodes name k := by
  rw [findFile_eq_some_iff]
  constructor
  · rintro ⟨_, h2, h3, h4, h5⟩
    exact ⟨by omega, h3, h4, fun j hj => h5 j (Nat.zero_le _) hj⟩
  · rintro ⟨h2, h3, h4, h5⟩
    exact ⟨Nat.zero_le _, by omega, h3, h4, fun j _ hj => h5 j hj⟩

theorem firstUnused_some_iff_firstFree (inodes : List Inode) (k : Nat) :
    firstUnused inodes MAX_FILES 0 = some k ↔ FirstFree inodes k := by
  rw [firstUnused_eq_some_iff]
  constructor
  · rintro ⟨_, h2, h3, h5⟩
    exact ⟨by omega, h3, fun j hj => h5 j (Nat.zero_le _) hj⟩
  · rintro ⟨h2, h3, h5⟩
    exact ⟨Nat.zero_le _, by omega, h3, fun j _ hj => h5 j hj⟩

theorem firstUnused_none_iff_all_used (inodes : List Inode) :
    firstUnused inodes MAX_FILES 0 = none ↔
      ∀ i, i < MAX_FILES → (inodeAt inodes i).isUsed = true := by
  rw [firstUnused_eq_none_iff]
  constructor
  · intro h i hi; exact h i (Nat.zero_le _) (by omega)
  · intro h i _ hi; exact h i (by omega)

/-- Once the slot loop has chosen slot `k` for a short name on a well-formed image, the
call goes on with `k`. -/
theorem storedAt_of_slot (d : Disk) (name : List Nat) (size : Nat) (ow : Bool) (k : Nat)
    (hwf : WF d) (hname : name.length < MAX_FILENAME_LENGTH)
    (hs : slotLoop d.inodes name ow MAX_FILES 0 none = SlotChoice.chosen (some k)) :
    StoredAt d name size ow k := by
  refine ⟨hs, ((addNewFile_outcome d name size ow).2 hname).2.2 k hs, ?_⟩
  intro hok
  obtain ⟨hn, hr, hfr, idx, hidx, hs'⟩ := addNewFile_added_inv d name size ow hwf hok
  have hk : idx = k := by
    rw [hs] at hs'
    have := SlotChoice.chosen.inj hs'
    exact (Option.some.inj this).symm
  subst hk
  obtain ⟨_, _, _, _, bl, _, _, hin⟩ :=
    (addNewFile_of_slot d name size ow idx hwf hn hs hidx hr).2 hfr
  rw [hin, inodeAt_set_same _ _ _ (by rw [hwf.inodes_len]; exact hidx)]
  refine ⟨rfl, rfl, rfl, ?_⟩
  intro j hj
  exact inodeAt_set_other _ _ _ _ (fun e => hj e.symm)
/-- C13. Slot selection of `addNewFile` for a name shorter than 32 bytes on a well-formed
image: when a used slot has the name and the overwrite is accepted, the file goes to the
lowest-indexed used slot with that name; when no used slot has the name, it goes to the
lowest-indexed unused slot; and the call ends with the no-free-inode outcome exactly when
no used slot has the name and all 64 slots are used. -/
theorem addNewFile_slot_selection (d : Disk) (name : List Nat) (size : Nat) (ow : Bool)
    (hwf : WF d) (hname : name.length < MAX_FILENAME_LENGTH) :
    (∀ k, FirstNamed d.inodes name k → ow = true → StoredAt d name size ow k) ∧
    (NameFree d.inodes name → ∀ k, FirstFree d.inodes k → StoredAt d name size ow k) ∧
    ((addNewFile d name size ow).outcome = AddOutcome.noFreeInode ↔
      (NameFree d.inodes name ∧ ∀ i, i < MAX_FILES → (inodeAt d.inodes i).isUsed = true)) := by
  have hout := (addNewFile_outcome d name size ow).2 hname
  refine ⟨?_, ?_, ?_⟩
  · intro k hk how
    apply storedAt_of_slot d name size ow k hwf hname
    rw [slotLoop_of_found _ _ _ _ _ _ _ ((findFile_some_iff_firstNamed _ _ _).mpr hk), how]
    rfl
  · intro hfree k hk
    apply storedAt_of_slot d name size ow k hwf hname
    rw [slotLoop_of_not_found _ _ _ _ _ _ ((findFile_none_iff_nameFree _ _).mpr hfree),
      (firstUnused_some_iff_firstFree _ _).mpr hk]
  · constructor
    · intro ho
      cases hf : findFile d.inodes name MAX_FILES 0 with
      | some k =>
        exfalso
        have hs := slotLoop_of_found d.inodes name ow _ _ _ none hf
        cases ow with
        | false =>
          have := (hout.1 (by rw [hs]; rfl)).1
          rw [this] at ho; cases ho
        | true =>
          rcases hout.2.2 k (by rw [hs]; rfl) with h | h | h <;> rw [h] at ho <;> cases ho
      | none =>
        refine ⟨(findFile_none_iff_nameFree _ _).mp hf, ?_⟩
        have hs := slotLoop_of_not_found d.inodes name ow _ _ none hf
        cases hu : firstUnused d.inodes MAX_FILES 0 with
        | none => exact (firstUnused_none_iff_all_used _).mp hu
        | some k =>
          exfalso
          rw [hu] at hs
          rcases hout.2.2 k hs with h | h | h <;> rw [h] at ho <;> cases ho
    · rintro ⟨hfree, hall⟩
      have hs := slotLoop_of_not_found d.inodes name ow _ _ none
        ((findFile_none_iff_nameFree _ _).mpr hfree)
      rw [(firstUnused_none_iff_all_used _).mpr hall] at hs
      exact (hout.2.1 hs).1

/-- C13 at the scenario: after `add a 600`, `add b 300`, `rm a`, the new name `c` goes to
slot 0, the lowest unused slot. -/
theorem addNewFile_slot_selection_witness :
    WF scenarioAfterRemove ∧ FirstFree scenarioAfterRemove.inodes 0 ∧
    StoredAt scenarioAfterRemove [99] 256 false 0 :=
  have hfree : FirstFree scenarioAfterRemove.inodes 0 :=
    ⟨by decide, by decide, fun j hj => absurd hj (Nat.not_lt_zero j)⟩
  ⟨scenarioAfterRemove_WF, hfree,
    (addNewFile_slot_selection scenarioAfterRemove [99] 256 false scenarioAfterRemove_WF
      (by decide)).2.1 ((findFile_none_iff_nameFree _ _).mp (by decide)) 0 hfree⟩

/-- C16. Ends that do not commit leave the image as it was. `addNewFile` ends with
name-too-long exactly when the name has 32 bytes or more, and with cancelled exactly when
a short name is in use and the overwrite is declined; after name-too-long, cancelled or
no-free-inode the persisted image is the one before the call. `removeFile` ends with
not-found exactly when no used slot has the name, and then the persisted image is the one
before the call. -/
theorem noncommitting_ends_keep_image (d : Disk) (name : List Nat) (size : Nat) (ow : Bool) :
    ((addNewFile d name size ow).outcome = AddOutcome.nameTooLong ↔
      name.length ≥ MAX_FILENAME_LENGTH) ∧
    ((addNewFile d name size ow).outcome = AddOutcome.cancelled ↔
      (name.length < MAX_FILENAME_LENGTH ∧ ¬ NameFree d.inodes name ∧ ow = false)) ∧
    (((addNewFile d name size ow).outcome = AddOutcome.nameTooLong ∨
      (addNewFile d name size ow).outcome = AddOutcome.cancelled ∨
      (addNewFile d name size ow).outcome = AddOutcome.noFreeInode) →
      (addNewFile d name size ow).disk = d ∧
      (addNewFile d name size ow).disk.inodes = d.inodes ∧
      (addNewFile d name size ow).disk.bitmap = d.bitmap) ∧
    ((removeFile d name).1 = RemoveOutcome.notFound ↔ NameFree d.inodes name) ∧
    ((removeFile d name).1 = RemoveOutcome.notFound →
      (removeFile d name).2 = d ∧ (removeFile d name).2.inodes = d.inodes ∧
      (removeFile d name).2.bitmap = d.bitmap) := by
  have hout := addNewFile_outcome d name size ow
  have hkeep : ((addNewFile d name size ow).outcome = AddOutcome.nameTooLong ∨
      (addNewFile d name size ow).outcome = AddOutcome.cancelled ∨
      (addNewFile d name size ow).outcome = AddOutcome.noFreeInode) →
      (addNewFile d name size ow).disk = d := by
    intro h
    rcases addNewFile_cases d name size ow with ⟨_, hd⟩ | ⟨hok, _⟩
    · exact hd
    · rw [hok] at h
      rcases h with h | h | h <;> cases h
  refine ⟨?_, ?_, ?_, ?_, ?_⟩
  · constructor
    · intro ho
      by_contra hn
      have hlt : name.length < MAX_FILENAME_LENGTH := by omega
      cases hs : slotLoop d.inodes name ow MAX_FILES 0 none with
      | cancelled =>
        have := ((hout.2 hlt).1 hs).1
        rw [this] at ho; cases ho
      | chosen o =>
        cases o with
        | none =>
          have := ((hout.2 hlt).2.1 hs).1
          rw [this] at ho; cases ho
        | some k =>
          rcases (hout.2 hlt).2.2 k hs with h | h | h <;> rw [h] at ho <;> cases ho
    · intro hn; exact (hout.1 hn).1
  · constructor
    · intro ho
      have hlt : name.length < MAX_FILENAME_LENGTH := by
        by_contra hn
        have := (hout.1 (by omega)).1
        rw [this] at ho; cases ho
      refine ⟨hlt, ?_⟩
      cases hf : findFile d.inodes name MAX_FILES 0 with
      | none =>
        exfalso
        have hs := slotLoop_of_not_found d.inodes name ow _ _ none hf
        cases hu : firstUnused d.inodes MAX_FILES 0 with
        | none =>
          rw [hu] at hs
          have := ((hout.2 hlt).2.1 hs).1
          rw [this] at ho; cases ho
        | some k =>
          rw [hu] at hs
          rcases (hout.2 hlt).2.2 k hs with h | h | h <;> rw [h] at ho <;> cases ho
      | some k =>
        refine ⟨fun hfree => ?_, ?_⟩
        · rw [(findFile_none_iff_nameFree _ _).mpr hfree] at hf; cases hf
        · have hs := slotLoop_of_found d.inodes name ow _ _ _ none hf
          cases ow with
          | false => rfl
          | true =>
            exfalso
            rcases (hout.2 hlt).2.2 k (by rw [hs]; rfl) with h | h | h <;>
              rw [h] at ho <;> cases ho
    · rintro ⟨hlt, hnf, how⟩
      cases hf : findFile d.inodes name MAX_FILES 0 with
      | none => exact absurd ((findFile_none_iff_nameFree _ _).mp hf) hnf
      | some k =>
        have hs := slotLoop_of_found d.inodes name ow _ _ _ none hf
        exact ((hout.2 hlt).1 (by rw [hs, how]; rfl)).1
  · intro h
    have := hkeep h
    exact ⟨this, by rw [this], by rw [this]⟩
  · unfold removeFile
    cases hf : findFile d.inodes name MAX_FILES 0 with
    | none => simp [(findFile_none_iff_nameFree _ _).mp hf]
    | some k =>
      constructor
      · intro h; cases h
      · intro hfree
        rw [(findFile_none_iff_nameFree _ _).mpr hfree] at hf; cases hf
  · unfold removeFile
    cases hf : findFile d.inodes name MAX_FILES 0 with
    | none => intro _; exact ⟨rfl, rfl, rfl⟩
    | some k => intro h; cases h

/-! ## Overwrite -/

/-- C17. Overwrite does not release the old allocation. On a well-formed image where the
blocks listed by the slots named `name` have their bits set, when `addNewFile` succeeds on
a name that is in use (the overwrite was accepted): the file is in the lowest-indexed slot
`k` with that name; every bit set before is still set; the bitmap after is the bitmap
before plus exactly the bits of the new block list, which were all clear; and the new
block list has no block in common with the old block list of slot `k`. -/
theorem addNewFile_overwrite_keeps_old_bits (d : Disk) (name : List Nat) (size : Nat)
    (ow : Bool) (hwf : WF d) (hused : ¬ NameFree d.inodes name)
    (hold : ∀ i, i < MAX_FILES → (inodeAt d.inodes i).isUsed = true →
      (inodeAt d.inodes i).fileName = name →
      ∀ x, x ∈ (inodeAt d.inodes i).blockIndex.take (inodeAt d.inodes i).blocksAllocated →
        isBlockUsed d.bitmap x = true)
    (hok : (addNewFile d name size ow).outcome = AddOutcome.added) :
    ow = true ∧
    ∃ k, FirstNamed d.inodes name k ∧
      (inodeAt (addNewFile d name size ow).disk.inodes k).fileName = name ∧
      (∀ x, isBlockUsed d.bitmap x = true →
        isBlockUsed (addNewFile d name size ow).disk.bitmap x = true) ∧
      (∀ x, isBlockUsed (addNewFile d name size ow).disk.bitmap x = true ↔
        (isBlockUsed d.bitmap x = true ∨
          x ∈ (inodeAt (addNewFile d name size ow).disk.inodes k).blockIndex.take
            (inodeAt (addNewFile d name size ow).disk.inodes k).blocksAllocated)) ∧
      (∀ x, x ∈ (inodeAt (addNewFile d name size ow).disk.inodes k).blockIndex.take
            (inodeAt (addNewFile d name size ow).disk.inodes k).blocksAllocated →
        isBlockUsed d.bitmap x = false ∧
        x ∉ (inodeAt d.inodes k).blockIndex.take (inodeAt d.inodes k).blocksAllocated) ∧
      ((inodeAt (addNewFile d name size ow).disk.inodes k).blockIndex.take
        (inodeAt (addNewFile d name size ow).disk.inodes k).blocksAllocated).Nodup := by
  obtain ⟨hn, hr, hfr, idx, hidx, hs⟩ := addNewFile_added_inv d name size ow hwf hok
  have hcase := (slotLoop_chosen _ _ _ _ hs).2
  have hff : findFile d.inodes name MAX_FILES 0 = some idx ∧ ow = true := by
    rcases hcase with h | ⟨h, _⟩
    · exact h
    · exact absurd ((findFile_none_iff_nameFree _ _).mp h) hused
  have hk : FirstNamed d.inodes name idx := (findFile_some_iff_firstNamed _ _ _).mp hff.1
  obtain ⟨_, _, _, hbm, bl, _, htake, hin⟩ :=
    (addNewFile_of_slot d name size ow idx hwf hn hs hidx hr).2 hfr
  have hat : inodeAt (addNewFile d name size ow).disk.inodes idx =
      { fileName := name, fileSize := size, isUsed := true, blockIndex := bl,
        blocksAllocated := requiredBlocks d.sb size } := by
    rw [hin, inodeAt_set_same _ _ _ (by rw [hwf.inodes_len]; exact hidx)]
  have hinb : ∀ x ∈ (freeBlocks d.sb d.bitmap).take (requiredBlocks d.sb size),
      x / 8 < d.bitmap.length := fun x hx =>
    hwf.byte_lt d x (mem_freeBlocks_take _ _ _ _ hx).1
  have hbit : ∀ x, isBlockUsed (addNewFile d name size ow).disk.bitmap x =
      if x ∈ (freeBlocks d.sb d.bitmap).take (requiredBlocks d.sb size) then true
      else isBlockUsed d.bitmap x := by
    intro x; rw [hbm, isBlockUsed_setBlocks _ _ _ _ hinb]
  refine ⟨hff.2, idx, hk, by rw [hat], ?_, ?_, ?_, ?_⟩
  · intro x hx
    rw [hbit x]; split
    · rfl
    · exact hx
  · intro x
    rw [hbit x, hat]
    simp only
    rw [htake]
    by_cases hx : x ∈ (freeBlocks d.sb d.bitmap).take (requiredBlocks d.sb size)
    · simp [hx]
    · simp [hx]
  · intro x hx
    rw [hat] at hx
    simp only at hx
    rw [htake] at hx
    have hfree := (mem_freeBlocks_take _ _ _ _ hx).2
    refine ⟨hfree, fun hmem => ?_⟩
    have := hold idx hk.1 hk.2.1 hk.2.2.1 x hmem
    rw [hfree] at this; cases this
  · rw [hat]; simp only; rw [htake]; exact freeBlocks_take_nodup _ _ _

/-- C17 at the scenario: `add a 600` on the new image, then `add a 256` with the overwrite
accepted. -/
theorem addNewFile_overwrite_keeps_old_bits_witness :
    WF (addNewFile scenarioDisk [97] 600 false).disk ∧
    ¬ NameFree (addNewFile scenarioDisk [97] 600 false).disk.inodes [97] ∧
    (∀ x, isBlockUsed (addNewFile scenarioDisk [97] 600 false).disk.bitmap x = true →
      isBlockUsed scenarioOverwrite.bitmap x = true) :=
  have hwf : WF (addNewFile scenarioDisk [97] 600 false).disk :=
    addNewFile_WF _ _ _ _ scenarioDisk_WF
  have hused : ¬ NameFree (addNewFile scenarioDisk [97] 600 false).disk.inodes [97] :=
    fun h => h 0 (by decide) (by decide)
  have h := addNewFile_overwrite_keeps_old_bits (addNewFile scenarioDisk [97] 600 false).disk
    [97] 256 true hwf hused
    (by
      intro i hi hu _ x hx
      have h0 : ∀ j, j < MAX_FILES →
          (inodeAt (addNewFile scenarioDisk [97] 600 false).disk.inodes j).isUsed = true →
          j = 0 := by decide
      have := h0 i hi hu
      subst this
      have hl : (inodeAt (addNewFile scenarioDisk [97] 600 false).disk.inodes 0).blockIndex.take
          (inodeAt (addNewFile scenarioDisk [97] 600 false).disk.inodes 0).blocksAllocated =
          [0, 1, 2] := by decide
      rw [hl] at hx
      have h3 : ∀ y ∈ [0, 1, 2],
          isBlockUsed (addNewFile scenarioDisk [97] 600 false).disk.bitmap y = true := by
        decide
      exact h3 x hx)
    (by decide)
  ⟨hwf, hused, by
    obtain ⟨_, k, _, _, h1, _⟩ := h
    exact h1⟩

/-! ## The bitmap after defragmentation -/

theorem mem_scanUpTo (ins : List Inode) (i x : Nat) :
    x ∈ scanUpTo ins i ↔
      ∃ i' b, i' < i ∧ (inodeAt ins i').isUsed = true ∧
        b < (inodeAt ins i').blocksAllocated ∧ blockAt ins i' b = x := by
  induction i with
  | zero => simp [scanUpTo]
  | succ i ih =>
    simp only [scanUpTo, List.mem_append, ih]
    constructor
    · rintro (⟨i', b, h1, h2, h3, h4⟩ | h)
      · exact ⟨i', b, by omega, h2, h3, h4⟩
      · by_cases hu : (inodeAt ins i).isUsed = true
        · rw [if_pos hu, List.mem_map] at h
          obtain ⟨b, hb, he⟩ := h
          exact ⟨i, b, by omega, hu, List.mem_range.mp hb, he⟩
        · rw [if_neg hu] at h; cases h
    · rintro ⟨i', b, h1, h2, h3, h4⟩
      by_cases he : i' = i
      · right
        rw [← he, if_pos h2, List.mem_map]
        exact ⟨b, List.mem_range.mpr h3, h4⟩
      · left; exact ⟨i', b, by omega, h2, h3, h4⟩

theorem mem_scanOrder (ins : List Inode) (x : Nat) : x ∈ scanOrder ins ↔ Listed ins x := by
  unfold scanOrder Listed Pos
  rw [mem_scanUpTo]
  constructor
  · rintro ⟨i', b, h1, h2, h3, h4⟩; exact ⟨i', b, ⟨h1, h2, h3⟩, h4⟩
  · rintro ⟨i', b, ⟨h1, h2, h3⟩, h4⟩; exact ⟨i', b, h1, h2, h3, h4⟩

/-- When no block is listed twice, the scan order has no repetition. -/
theorem scanUpTo_nodup (ins : List Inode) (i : Nat) (hi : i ≤ MAX_FILES)
    (hnd : ∀ i1 b1 i2 b2, Pos ins i1 b1 → Pos ins i2 b2 →
      blockAt ins i1 b1 = blockAt ins i2 b2 → i1 = i2 ∧ b1 = b2) :
    (scanUpTo ins i).Nodup := by
  induction i with
  | zero => simp [scanUpTo]
  | succ i ih =>
    simp only [scanUpTo]
    rw [List.nodup_append]
    refine ⟨ih (by omega), ?_, ?_⟩
    · by_cases hu : (inodeAt ins i).isUsed = true
      · rw [if_pos hu]
        apply List.Nodup.map_on _ (List.nodup_range _)
        intro b hb b' hb' he
        exact (hnd i b i b' ⟨by omega, hu, List.mem_range.mp hb⟩
          ⟨by omega, hu, List.mem_range.mp hb'⟩ he).2
      · rw [if_neg hu]; exact List.nodup_nil
    · intro x hx hx'
      rw [mem_scanUpTo] at hx
      obtain ⟨i', b, h1, h2, h3, h4⟩ := hx
      by_cases hu : (inodeAt ins i).isUsed = true
      · rw [if_pos hu, List.mem_map] at hx'
        obtain ⟨b', hb', he'⟩ := hx'
        have := (hnd i' b i b' ⟨by omega, h2, h3⟩ ⟨by omega, hu, List.mem_range.mp hb'⟩
          (by rw [h4, he'])).1
        omega
      · rw [if_neg hu] at hx'; cases hx'

/-- Counting through a list without repetition that holds exactly the numbers below `n`
satisfying `p`. -/
theorem length_filter_range_eq (p : Nat → Bool) (n : Nat) (l : List Nat) (hnd : l.Nodup)
    (hmem : ∀ x, x ∈ l ↔ (x < n ∧ p x = true)) :
    ((List.range n).filter p).length = l.length := by
  apply List.Perm.length_eq
  rw [List.perm_ext_iff_of_nodup (List.Nodup.filter _ (List.nodup_range _)) hnd]
  intro x
  rw [List.mem_filter, List.mem_range, hmem]

/-- Under the data-model invariants the set bits of the bitmap are as many as the pairs
of the scan. -/
theorem setBitCount_eq_scan (d : Disk) (hwf : WF d) (hinv : DataModelInv d) :
    setBitCount d.bitmap = (scanOrder d.inodes).length := by
  unfold setBitCount
  apply length_filter_range_eq _ _ _
    (scanUpTo_nodup d.inodes MAX_FILES (Nat.le_refl _) hinv.nodup)
  intro x
  change x ∈ scanOrder d.inodes ↔ _
  rw [mem_scanOrder]
  constructor
  · intro hl
    refine ⟨?_, (hinv.consistent x).mpr hl⟩
    obtain ⟨i, b, hp, he⟩ := hl
    have := hwf.byte_lt d x (by rw [← he]; exact hinv.bounds i b hp)
    omega
  · rintro ⟨_, hb⟩
    exact (hinv.consistent x).mp hb

/-- After `defragmentDisk` the listed blocks are exactly those below the number of
pairs. -/
theorem defragmentDisk_listed_iff (d : Disk) (hwf : WF d) (hinv : DataModelInv d) (x : Nat) :
    Listed (defragmentDisk d).inodes x ↔ x < rankBefore d.inodes MAX_FILES := by
  obtain ⟨hsh, hdone⟩ := defragmentDisk_ranks d hwf hinv
  constructor
  · rintro ⟨i, b, hp, he⟩
    have hp0 := (hsh.pos i b).mp hp
    rw [← he, hdone i b hp0]
    exact rank_lt_total _ _ _ hp0
  · intro hx
    obtain ⟨i, b, h1, h2, h3, h4⟩ := rankBefore_surj d.inodes MAX_FILES x hx
    have hp0 : Pos d.inodes i b := ⟨h1, h2, h3⟩
    exact ⟨i, b, (hsh.pos i b).mpr hp0, by rw [hdone i b hp0, h4]⟩

/-- C11. On a well-formed image that satisfies the data-model invariants,
`defragmentDisk` leaves the number of set bits unchanged; its cursor `nextFreeBlock` ends
at the total number of blocks listed by used inodes; and in the resulting bitmap a bit is
set exactly when its index is below that cursor. -/
theorem defragmentDisk_bitmap_watermark (d : Disk) (hwf : WF d) (hinv : DataModelInv d) :
    setBitCount (defragmentDisk d).bitmap = setBitCount d.bitmap ∧
    (defragRun d).nextFreeBlock = (scanOrder d.inodes).length ∧
    (∀ x, x < (defragRun d).nextFreeBlock →
      isBlockUsed (defragmentDisk d).bitmap x = true) ∧
    (∀ x, (defragRun d).nextFreeBlock ≤ x →
      isBlockUsed (defragmentDisk d).bitmap x = false) := by
  have h := defragRun_inv d hwf hinv
  have hsh : SameShape (defragmentDisk d).inodes d.inodes := h.shape
  have hnext : (defragRun d).nextFreeBlock = rankBefore d.inodes MAX_FILES := by
    rw [h.next_eq]; rfl
  have hlen : (scanOrder d.inodes).length = rankBefore d.inodes MAX_FILES :=
    scanUpTo_length _ _
  have hbit : ∀ x, isBlockUsed (defragmentDisk d).bitmap x = true ↔
      x < rankBefore d.inodes MAX_FILES := by
    intro x
    rw [← defragmentDisk_listed_iff d hwf hinv x]
    exact (defragmentDisk_inv d hwf hinv).consistent x
  refine ⟨?_, by rw [hnext, hlen], ?_, ?_⟩
  · rw [setBitCount_eq_scan _ (defragmentDisk_WF d hwf hinv) (defragmentDisk_inv d hwf hinv),
      setBitCount_eq_scan d hwf hinv]
    unfold scanOrder
    rw [scanUpTo_length, scanUpTo_length, rankBefore_congr _ _ hsh]
  · intro x hx
    rw [hnext] at hx
    exact (hbit x).mpr hx
  · intro x hx
    rw [hnext] at hx
    cases hb : isBlockUsed (defragmentDisk d).bitmap x with
    | false => rfl
    | true => have := (hbit x).mp hb; omega

/-- C11 at the scenario: three bits are set before and after, and afterwards they are
bits 0, 1 and 2. -/
theorem defragmentDisk_bitmap_watermark_witness :
    WF scenarioBeforeDefrag ∧ DataModelInv scenarioBeforeDefrag ∧
    setBitCount (defragmentDisk scenarioBeforeDefrag).bitmap =
      setBitCount scenarioBeforeDefrag.bitmap ∧
    (defragRun scenarioBeforeDefrag).nextFreeBlock = 3 :=
  have h := defragmentDisk_bitmap_watermark scenarioBeforeDefrag scenarioBeforeDefrag_WF
    scenarioBeforeDefrag_inv
  ⟨scenarioBeforeDefrag_WF, scenarioBeforeDefrag_inv, h.1, by rw [h.2.1]; decide⟩

/-! ## Copy-out -/

theorem ite_lt_eq_min (a b : Nat) : (if a < b then a else b) = min a b := by
  split <;> omega

theorem drop_take_eq_cons (l : List Nat) (n i : Nat) (hn : n ≤ l.length) (hi : i < n) :
    (l.take n).drop i = l.getD i 0 :: (l.take n).drop (i + 1) := by
  have h1 : i < (l.take n).length := by simp; omega
  rw [List.drop_eq_getElem_cons h1, List.getElem_take]
  simp [List.getD_eq_getElem?_getD, List.getElem?_eq_getElem (by omega : i < l.length)]

theorem copyOutSpec_length (sb : SuperBlock) (data : Nat → Nat) (blocks : List Nat)
    (rem : Nat) :
    (copyOutSpec sb data blocks rem).length = min rem (blocks.length * sb.blockSize) := by
  induction blocks generalizing rem with
  | nil => simp [copyOutSpec]
  | cons b rest ih =>
    simp only [copyOutSpec, List.length_append, List.length_take, readBlock_length, ih,
      List.length_cons, Nat.add_mul, Nat.one_mul]
    omega

/-- The loop of copy-out on a store that serves every read in full emits what the
specification describes. -/
theorem copyOutLoop_eq_spec (sb : SuperBlock) (data : Nat → Nat) (inode : Inode)
    (hle : inode.blocksAllocated ≤ inode.blockIndex.length)
    (fuel i rem : Nat) (out : List Nat) (hfuel : i + fuel = inode.blocksAllocated) :
    copyOutLoop sb data inode fuel i rem out =
      out ++ copyOutSpec sb data
        ((inode.blockIndex.take inode.blocksAllocated).drop i) rem := by
  induction fuel generalizing i rem out with
  | zero =>
    have : (inode.blockIndex.take inode.blocksAllocated).drop i = [] := by
      apply List.drop_eq_nil_of_le; simp; omega
    simp [copyOutLoop, this, copyOutSpec]
  | succ f ih =>
    simp only [copyOutLoop]
    rw [if_pos (by omega : i < inode.blocksAllocated),
      drop_take_eq_cons _ _ _ hle (by omega), ih (i + 1) _ _ (by omega)]
    simp only [copyOutSpec, ite_lt_eq_min, List.append_assoc]
    congr 2
    unfold readBlock
    rw [readAt_take _ _ _ _ (Nat.min_le_right _ _)]

/-- The loop of copy-out with its checks: it ends with `copied` exactly when no read is
short and the output takes all the bytes, and then the output is what the specification
describes; otherwise it ends with a read or write error. -/
theorem copyOutLoopChecked_spec (sb : SuperBlock) (data : Nat → Nat) (fileLen sinkCap : Nat)
    (inode : Inode) (hle : inode.blocksAllocated ≤ inode.blockIndex.length)
    (fuel i rem : Nat) (out : List Nat) (hfuel : i + fuel = inode.blocksAllocated)
    (hout : out.length ≤ sinkCap) :
    ((copyOutLoopChecked sb data fileLen sinkCap inode fuel i rem out).1 = CopyOutOutcome.copied ↔
      (AllReadable sb fileLen ((inode.blockIndex.take inode.blocksAllocated).drop i) rem ∧
        out.length + (copyOutSpec sb data
          ((inode.blockIndex.take inode.blocksAllocated).drop i) rem).length ≤ sinkCap)) ∧
    ((copyOutLoopChecked sb data fileLen sinkCap inode fuel i rem out).1 = CopyOutOutcome.copied →
      (copyOutLoopChecked sb data fileLen sinkCap inode fuel i rem out).2 =
        out ++ copyOutSpec sb data
          ((inode.blockIndex.take inode.blocksAllocated).drop i) rem) ∧
    ((copyOutLoopChecked sb data fileLen sinkCap inode fuel i rem out).1 = CopyOutOutcome.copied ∨
      (copyOutLoopChecked sb data fileLen sinkCap inode fuel i rem out).1 =
        CopyOutOutcome.readError ∨
      (copyOutLoopChecked sb data fileLen sinkCap inode fuel i rem out).1 =
        CopyOutOutcome.writeError) := by
  induction fuel generalizing i rem out with
  | zero =>
    have : (inode.blockIndex.take inode.blocksAllocated).drop i = [] := by
      apply List.drop_eq_nil_of_le; simp; omega
    simp [copyOutLoopChecked, this, copyOutSpec, AllReadable, hout]
  | succ f ih =>
    simp only [copyOutLoopChecked]
    rw [if_pos (by omega : i < inode.blocksAllocated),
      drop_take_eq_cons _ _ _ hle (by omega)]
    simp only [copyOutSpec, AllReadable, ite_lt_eq_min, freadAt, readAt_length,
      List.length_append, List.length_take, readBlock_length]
    by_cases hread : min (min rem sb.blockSize)
        (fileLen - blockOffset sb (inode.blockIndex.getD i 0)) ≠ min rem sb.blockSize
    · rw [if_pos hread]
      refine ⟨⟨fun h => (by cases h), fun h => absurd h.1.1 (by omega)⟩,
        fun h => (by cases h), Or.inr (Or.inl rfl)⟩
    · rw [if_neg hread]
      have hr : min (min rem sb.blockSize)
          (fileLen - blockOffset sb (inode.blockIndex.getD i 0)) = min rem sb.blockSize := by
        omega
      rw [hr]
      by_cases hwrite : min (min rem sb.blockSize) (sinkCap - out.length) ≠
          min rem sb.blockSize
      · rw [if_pos hwrite]
        refine ⟨⟨fun h => (by cases h), fun h => absurd h.2 (by omega)⟩,
          fun h => (by cases h), Or.inr (Or.inr rfl)⟩
      · rw [if_neg hwrite]
        have hlen : (out ++ readAt data (blockOffset sb (inode.blockIndex.getD i 0))
            (min rem sb.blockSize)).length = out.length + min rem sb.blockSize := by
          simp [readAt_length]
        obtain ⟨h1, h2, h3⟩ := ih (i + 1) (rem - min rem sb.blockSize)
          (out ++ readAt data (blockOffset sb (inode.blockIndex.getD i 0))
            (min rem sb.blockSize)) (by omega) (by rw [hlen]; omega)
        rw [hlen] at h1
        refine ⟨?_, ?_, h3⟩
        · rw [h1]
          constructor
          · rintro ⟨ha, hb⟩; exact ⟨⟨by omega, ha⟩, by omega⟩
          · rintro ⟨⟨_, ha⟩, hb⟩; exact ⟨ha, by omega⟩
        · intro hc
          rw [h2 hc, List.append_assoc]
          congr 2
          unfold readBlock
          rw [readAt_take _ _ _ _ (Nat.min_le_right _ _)]

/-- C12. Copy-out of a used inode found by name, with `blocksAllocated =
ceil(fileSize / blockSize)` blocks in its list: `copyFileFromVirtualDisk` ends with
`copied` exactly when no read comes back short and the output file takes `fileSize` bytes,
and otherwise with a read or write error; when it ends with `copied` the output is the
concatenation, in list order, of the first `min(remaining, blockSize)` bytes of each
block, `remaining` starting at `fileSize` and going down by the bytes emitted, and it has
exactly `fileSize` bytes. -/
theorem copyFileFromVirtualDisk_emits_file (d : Disk) (fileLen sinkCap : Nat)
    (filename newFilename : List Nat) (outputExists overwrite : Bool) (idx : Nat)
    (hbs : 0 < d.sb.blockSize) (hfind : FirstNamed d.inodes filename idx)
    (hname : newFilename.length < MAX_FILENAME_LENGTH)
    (hgo : ¬ (outputExists = true ∧ overwrite = false))
    (hba : (inodeAt d.inodes idx).blocksAllocated =
      ceilDiv (inodeAt d.inodes idx).fileSize d.sb.blockSize)
    (hle : (inodeAt d.inodes idx).blocksAllocated ≤ (inodeAt d.inodes idx).blockIndex.length) :
    ((copyFileFromVirtualDisk d fileLen filename newFilename outputExists overwrite sinkCap).1 =
        CopyOutOutcome.copied ↔
      (AllReadable d.sb fileLen
          ((inodeAt d.inodes idx).blockIndex.take (inodeAt d.inodes idx).blocksAllocated)
          (inodeAt d.inodes idx).fileSize ∧
        (inodeAt d.inodes idx).fileSize ≤ sinkCap)) ∧
    ((copyFileFromVirtualDisk d fileLen filename newFilename outputExists overwrite sinkCap).1 =
        CopyOutOutcome.copied →
      (copyFileFromVirtualDisk d fileLen filename newFilename outputExists overwrite sinkCap).2 =
        copyOutSpec d.sb d.data
          ((inodeAt d.inodes idx).blockIndex.take (inodeAt d.inodes idx).blocksAllocated)
          (inodeAt d.inodes idx).fileSize ∧
      (copyFileFromVirtualDisk d fileLen filename newFilename outputExists overwrite
        sinkCap).2.length = (inodeAt d.inodes idx).fileSize ∧
      (copyFileFromVirtualDisk d fileLen filename newFilename outputExists overwrite sinkCap).2 =
        copyOut d.sb d.data (inodeAt d.inodes idx)) ∧
    ((copyFileFromVirtualDisk d fileLen filename newFilename outputExists overwrite sinkCap).1 =
        CopyOutOutcome.copied ∨
      (copyFileFromVirtualDisk d fileLen filename newFilename outputExists overwrite sinkCap).1 =
        CopyOutOutcome.readError ∨
      (copyFileFromVirtualDisk d fileLen filename newFilename outputExists overwrite sinkCap).1 =
        CopyOutOutcome.writeError) := by
  have hf : findFile d.inodes filename MAX_FILES 0 = some idx :=
    (findFile_some_iff_firstNamed _ _ _).mpr hfind
  have hn : ¬ newFilename.length ≥ MAX_FILENAME_LENGTH := by omega
  have hrun : copyFileFromVirtualDisk d fileLen filename newFilename outputExists overwrite
        sinkCap =
      copyOutLoopChecked d.sb d.data fileLen sinkCap (inodeAt d.inodes idx)
        (inodeAt d.inodes idx).blocksAllocated 0 (inodeAt d.inodes idx).fileSize [] := by
    simp only [copyFileFromVirtualDisk, hf, if_neg hn, if_neg hgo]
  obtain ⟨h1, h2, h3⟩ := copyOutLoopChecked_spec d.sb d.data fileLen sinkCap (inodeAt d.inodes idx)
    hle (inodeAt d.inodes idx).blocksAllocated 0 (inodeAt d.inodes idx).fileSize []
    (Nat.zero_add _) (Nat.zero_le _)
  simp only [List.drop_zero, List.length_nil, Nat.zero_add, List.nil_append] at h1 h2
  have hlen : (copyOutSpec d.sb d.data
      ((inodeAt d.inodes idx).blockIndex.take (inodeAt d.inodes idx).blocksAllocated)
      (inodeAt d.inodes idx).fileSize).length = (inodeAt d.inodes idx).fileSize := by
    rw [copyOutSpec_length, List.length_take, Nat.min_eq_left hle, hba]
    exact Nat.min_eq_left (le_ceilDiv_mul _ _ hbs)
  rw [hlen] at h1
  rw [hrun]
  refine ⟨h1, ?_, h3⟩
  intro hc
  have hout := h2 hc
  refine ⟨hout, by rw [hout, hlen], ?_⟩
  rw [hout]
  unfold copyOut
  rw [copyOutLoop_eq_spec _ _ _ hle _ _ _ _ (Nat.zero_add _)]
  simp

/-- C12 at the scenario: copy-out of `b` (slot 1, 300 bytes, blocks 3 and 4) from an image
file of 20000 bytes into an output that takes 1000 bytes ends with `copied` and 300 bytes
in the output. -/
theorem copyFileFromVirtualDisk_emits_file_witness :
    FirstNamed scenarioBeforeDefrag.inodes [98] 1 ∧
    (copyFileFromVirtualDisk scenarioBeforeDefrag 20000 [98] [120] false false 1000).1 =
      CopyOutOutcome.copied ∧
    (copyFileFromVirtualDisk scenarioBeforeDefrag 20000 [98] [120] false false
      1000).2.length = 300 :=
  have hfind : FirstNamed scenarioBeforeDefrag.inodes [98] 1 :=
    ⟨by decide, by decide, by decide, by decide⟩
  have h := copyFileFromVirtualDisk_emits_file scenarioBeforeDefrag 20000 1000 [98] [120]
    false false 1 (by decide) hfind (by decide) (by decide) (by decide) (by decide)
  have hc := h.1.mpr ⟨(show AllReadable scenarioBeforeDefrag.sb 20000 [3, 4] 300 from
    ⟨by decide, by decide, trivial⟩), by decide⟩
  ⟨hfind, hc, (h.2.1 hc).2.1⟩

/-! ## The geometry of the superblock in the widths of C -/

theorem toInt32_of_lt (n : Int) (h0 : 0 ≤ n) (h1 : n < 2 ^ 31) : toInt32 n = n := by
  unfold toInt32
  omega

/-- The `int` computations of `createVirtualDisk` on a quotient `q` with
`q + 7 < 2^31`: no conversion and no sum changes a value. -/
theorem geometry_fits (sizeofSuperBlock sizeofInode q : Nat) (hfit : q + 7 < 2 ^ 31)
    (hrec : sizeofSuperBlock + 64 * sizeofInode + 2 ^ 28 < 2 ^ 31) :
    toInt32 ((q : Nat) : Int) = (q : Int) ∧
    toInt32 ((MAX_FILES * sizeofInode % SIZE_MOD : Nat) : Int) = ((64 * sizeofInode : Nat) : Int) ∧
    toInt32 ((sizeofSuperBlock : Nat) : Int) = (sizeofSuperBlock : Int) ∧
    Int.tdiv (toInt32 ((q : Int) + 7)) 8 = (((q + 7) / 8 : Nat) : Int) ∧
    toInt32 ((sizeofSuperBlock : Int) + ((64 * sizeofInode : Nat) : Int)) =
      ((sizeofSuperBlock + 64 * sizeofInode : Nat) : Int) ∧
    toInt32 (((sizeofSuperBlock + 64 * sizeofInode : Nat) : Int) + (((q + 7) / 8 : Nat) : Int)) =
      ((sizeofSuperBlock + 64 * sizeofInode + (q + 7) / 8 : Nat) : Int) := by
  refine ⟨toInt32_of_lt _ (by omega) (by omega), ?_, toInt32_of_lt _ (by omega) (by omega),
    ?_, ?_, ?_⟩
  · have : MAX_FILES * sizeofInode % SIZE_MOD = 64 * sizeofInode := by
      simp only [MAX_FILES, SIZE_MOD]; omega
    rw [this]
    exact toInt32_of_lt _ (by omega) (by omega)
  · rw [toInt32_of_lt _ (by omega) (by omega), Int.tdiv_eq_ediv (by omega) (by omega)]
    omega
  · rw [toInt32_of_lt _ (by omega) (by omega)]
    omega
  · rw [toInt32_of_lt _ (by omega) (by omega)]
    omega

/-- C15, as stated, fails: with `diskSize = 2^32` and `blockSize = 1` the quotient is
`2^32`, and the `int` field `blocksCount` holds 0. -/
theorem createSuperBlock_blocksCount_truncates :
    ∃ sb, createSuperBlock 72 112 (List.replicate 32 0) [100] 4294967296 1 = some sb ∧
      sb.blocksCount = 0 ∧ ((4294967296 / 1 : Nat) : Int) = 4294967296 ∧
      ¬ GeometrySpec 72 112 4294967296 1 sb := by
  have hb : toInt32 ((4294967296 / 1 : Nat) : Int) = 0 := by
    unfold toInt32
    norm_num
  refine ⟨_, by simp only [createSuperBlock]; rfl, hb, by norm_num, fun h => ?_⟩
  have h1 := h.blocksCount
  rw [show ((4294967296 / 1 : Nat) : Int) = 4294967296 by norm_num] at h1
  have h2 : toInt32 ((4294967296 / 1 : Nat) : Int) = 4294967296 := h1
  rw [hb] at h2
  omega

/-- C15, amended. For `blockSize > 0` and `diskSize / blockSize + 7 < 2^31` (the record
sizes being small enough for the offsets to fit an `int`), `createVirtualDisk` computes
`blocksCount = floor(diskSize / blockSize)`, `bitmapSize = ceil(blocksCount / 8)`,
`inodeAreaSize = 64 * sizeof(Inode)`, `inodeAreaOffset = sizeof(SuperBlock)`,
`bitmapOffset = inodeAreaOffset + inodeAreaSize` and
`dataAreaOffset = bitmapOffset + bitmapSize` in its `int` fields, and these are the fields
of the superblock of `createVirtualDisk` over the natural numbers. -/
theorem createSuperBlock_geometry (sizeofSuperBlock sizeofInode : Nat)
    (stack diskName : List Nat) (diskSize blockSize : Nat) (hbs : 0 < blockSize)
    (hfit : diskSize / blockSize + 7 < 2 ^ 31)
    (hrec : sizeofSuperBlock + MAX_FILES * sizeofInode + 2 ^ 28 < 2 ^ 31) :
    ∃ sb, createSuperBlock sizeofSuperBlock sizeofInode stack diskName diskSize blockSize =
        some sb ∧
      GeometrySpec sizeofSuperBlock sizeofInode diskSize blockSize sb ∧
      sb.diskSize = diskSize ∧ sb.blockSize = blockSize ∧
      sb.blocksCount = ((createVirtualDisk sizeofSuperBlock sizeofInode diskName diskSize
        blockSize).sb.blocksCount : Int) ∧
      sb.inodeAreaSize = ((createVirtualDisk sizeofSuperBlock sizeofInode diskName diskSize
        blockSize).sb.inodeAreaSize : Int) ∧
      sb.inodeAreaOffset = ((createVirtualDisk sizeofSuperBlock sizeofInode diskName diskSize
        blockSize).sb.inodeAreaOffset : Int) ∧
      sb.bitmapSize = ((createVirtualDisk sizeofSuperBlock sizeofInode diskName diskSize
        blockSize).sb.bitmapSize : Int) ∧
      sb.bitmapOffset = ((createVirtualDisk sizeofSuperBlock sizeofInode diskName diskSize
        blockSize).sb.bitmapOffset : Int) ∧
      sb.dataAreaOffset = ((createVirtualDisk sizeofSuperBlock sizeofInode diskName diskSize
        blockSize).sb.dataAreaOffset : Int) := by
  have hne : blockSize ≠ 0 := by omega
  simp only [MAX_FILES] at hrec
  obtain ⟨hbc, hias, hiao, hbms, hbo, hdo⟩ :=
    geometry_fits sizeofSuperBlock sizeofInode (diskSize / blockSize) hfit hrec
  have hsb : createSuperBlock sizeofSuperBlock sizeofInode stack diskName diskSize blockSize =
      some { diskName := strcpy stack diskName, diskSize := diskSize, blockSize := blockSize,
             blocksCount := ((diskSize / blockSize : Nat) : Int),
             inodeAreaSize := ((64 * sizeofInode : Nat) : Int),
             inodeAreaOffset := ((sizeofSuperBlock : Nat) : Int),
             bitmapSize := (((diskSize / blockSize + 7) / 8 : Nat) : Int),
             bitmapOffset := ((sizeofSuperBlock + 64 * sizeofInode : Nat) : Int),
             dataAreaOffset :=
               ((sizeofSuperBlock + 64 * sizeofInode + (diskSize / blockSize + 7) / 8 : Nat) :
                 Int) } := by
    simp only [createSuperBlock, if_neg hne, hbc, hias, hiao, hbms, hbo, hdo]
  refine ⟨_, hsb, ⟨rfl, ?_, rfl, rfl, ?_, ?_⟩, rfl, rfl, ?_⟩
  · simp only [ceilDiv]
    rfl
  · simp only [Nat.cast_add]
  · simp only [Nat.cast_add]
  · exact ⟨rfl, rfl, rfl, rfl, rfl, rfl⟩

/-- C15 amended at the scenario disk: 4096 bytes in blocks of 256 bytes. -/
theorem createSuperBlock_geometry_witness :
    0 < 256 ∧ 4096 / 256 + 7 < 2 ^ 31 ∧
    ∃ sb, createSuperBlock 72 112 (List.replicate 32 0) [100] 4096 256 = some sb ∧
      GeometrySpec 72 112 4096 256 sb :=
  ⟨by decide, by decide,
    (createSuperBlock_geometry 72 112 (List.replicate 32 0) [100] 4096 256
      (by decide) (by decide) (by decide)).imp fun _ h => ⟨h.1, h.2.1⟩⟩

/-! ## The image file after `createVirtualDisk` -/

/-- C14 at the failing input `createVirtualDisk("disk", 2, 1)`: the record computed has
the name `disk` and 2 blocks; the zero byte written at offset `diskSize - 1 = 1` lands on
the second byte of the name in the file, so the record read back has the name `d` and is
not the record computed. -/
theorem createVirtualDisk_sentinel_clobbers_name :
    ∃ sb file,
      createSuperBlock SIZEOF_SUPERBLOCK SIZEOF_INODE (List.replicate 32 0)
        [100, 105, 115, 107] 2 1 = some sb ∧
      createImage (List.replicate 32 0) [100, 105, 115, 107] 2 1 = some file ∧
      cString sb.diskName = [100, 105, 115, 107] ∧ sb.blocksCount = 2 ∧
      cString (readSuperBlock file).diskName = [100] ∧
      readSuperBlock file ≠ sb := by
  refine ⟨_, _, rfl, rfl, by decide, by decide, by decide, by decide⟩

/-! ## The search of `defragmentDisk` on any table without repetition -/

/-- The loop over `kk` leaves the state as it is when no entry of slot `k` holds the
cursor, and else swaps at the first entry that does. -/
theorem swapSearchBlocks_cases (sb : SuperBlock) (cur i b k fuel kk0 : Nat)
    (st : DefragState) :
    (swapSearchBlocks sb cur i b k fuel kk0 st = st ∧
      ∀ kk, kk0 ≤ kk → kk < kk0 + fuel → kk < (inodeAt st.inodes k).blocksAllocated →
        blockAt st.inodes k kk ≠ st.nextFreeBlock) ∨
    ∃ kk1, kk1 < (inodeAt st.inodes k).blocksAllocated ∧
      blockAt st.inodes k kk1 = st.nextFreeBlock ∧
      swapSearchBlocks sb cur i b k fuel kk0 st = swapWith sb cur i b k kk1 st := by
  induction fuel generalizing kk0 with
  | zero => left; exact ⟨rfl, fun kk h1 h2 => by omega⟩
  | succ f ih =>
    simp only [swapSearchBlocks]
    by_cases hlt : kk0 < (inodeAt st.inodes k).blocksAllocated
    · rw [if_pos hlt]
      by_cases hm : blockAt st.inodes k kk0 = st.nextFreeBlock
      · rw [if_pos hm]
        right; exact ⟨kk0, hlt, hm, rfl⟩
      · rw [if_neg hm]
        rcases ih (kk0 + 1) with ⟨h1, h2⟩ | h
        · left
          refine ⟨h1, fun kk h3 h4 h5 => ?_⟩
          by_cases he : kk = kk0
          · rw [he]; exact hm
          · exact h2 kk (by omega) (by omega) h5
        · right; exact h
    · rw [if_neg hlt]
      left; exact ⟨rfl, fun kk h1 _ h3 => by omega⟩

/-- The entries of the table after the body of the swap. -/
theorem blockAt_swapWith (sb : SuperBlock) (cur i b k kk : Nat) (st : DefragState)
    (hi : i < st.inodes.length) (hb : b < (inodeAt st.inodes i).blockIndex.length)
    (hk : k < st.inodes.length) (hkk : kk < (inodeAt st.inodes k).blockIndex.length)
    (i' b' : Nat) :
    blockAt (swapWith sb cur i b k kk st).inodes i' b' =
      if i' = i ∧ b' = b then st.nextFreeBlock
      else if i' = k ∧ b' = kk then cur else blockAt st.inodes i' b' := by
  show blockAt (setBlockAt (setBlockAt st.inodes k kk cur) i b st.nextFreeBlock) i' b' = _
  rw [blockAt_setBlockAt _ _ _ _ _ _ (by rw [setBlockAt_length]; exact hi)
    (by rw [((setBlockAt_sameShape st.inodes k kk cur).2 i).2.2.2.2]; exact hb)]
  rw [blockAt_setBlockAt _ _ _ _ _ _ hk hkk]

theorem swapWith_sameShape (sb : SuperBlock) (cur i b k kk : Nat) (st : DefragState) :
    SameShape (swapWith sb cur i b k kk st).inodes st.inodes :=
  (setBlockAt_sameShape _ _ _ _).trans (setBlockAt_sameShape _ _ _ _)

theorem swapVal_eq_next (cur next v : Nat) (h : swapVal cur next v = next) : v = cur := by
  apply swapVal_injective cur next
  rw [h, swapVal_cur]

/-- Once the table is the exchanged one, the rest of the search keeps it: the only entry
that holds the cursor is the visited one, and a swap there writes the same entry twice. -/
theorem swapSearchFiles_swapped (sb : SuperBlock) (t0 : List Inode) (cur next i b : Nat)
    (hlen : t0.length = MAX_FILES)
    (hfit : ∀ j c, Pos t0 j c → c < (inodeAt t0 j).blockIndex.length)
    (hpos : Pos t0 i b) (hcur : blockAt t0 i b = cur)
    (hnd : ∀ i1 b1 i2 b2, Pos t0 i1 b1 → Pos t0 i2 b2 →
      blockAt t0 i1 b1 = blockAt t0 i2 b2 → i1 = i2 ∧ b1 = b2)
    (fuel k : Nat) (s : DefragState) (hk : k + fuel ≤ MAX_FILES)
    (hnext : s.nextFreeBlock = next)
    (hs : TableRel (swapVal cur next) t0 s.inodes) :
    (swapSearchFiles sb cur i b fuel k s).bitmap = s.bitmap ∧
    (swapSearchFiles sb cur i b fuel k s).nextFreeBlock = next ∧
    TableRel (swapVal cur next) t0 (swapSearchFiles sb cur i b fuel k s).inodes := by
  induction fuel generalizing k s with
  | zero => exact ⟨rfl, hnext, hs⟩
  | succ f ih =>
    simp only [swapSearchFiles]
    by_cases hu : (inodeAt s.inodes k).isUsed = false
    · rw [if_pos hu]; exact ih (k + 1) s (by omega) hnext hs
    · rw [if_neg hu]
      have hu' : (inodeAt t0 k).isUsed = true := by
        rw [← (hs.1.2 k).1]; simpa using hu
      rcases swapSearchBlocks_cases sb cur i b k (inodeAt s.inodes k).blocksAllocated 0 s
        with ⟨h1, _⟩ | ⟨kk1, hlt, hm, h1⟩
      · rw [h1]; exact ih (k + 1) s (by omega) hnext hs
      · rw [h1]
        have hpk : Pos t0 k kk1 := ⟨by omega, hu', by rw [← (hs.1.2 k).2.1]; exact hlt⟩
        have hv : blockAt t0 k kk1 = cur := by
          apply swapVal_eq_next cur next
          rw [← hs.2 k kk1 hpk, hm, hnext]
        obtain ⟨e1, e2⟩ := hnd k kk1 i b hpk hpos (by rw [hv, hcur])
        subst e1; subst e2
        have hiL : k < s.inodes.length := by rw [hs.1.1, hlen]; exact hpos.1
        have hbL : kk1 < (inodeAt s.inodes k).blockIndex.length := by
          rw [(hs.1.2 k).2.2.2.2]; exact hfit k kk1 hpos
        have hrel : TableRel (swapVal cur next) t0 (swapWith sb cur k kk1 k kk1 s).inodes := by
          refine ⟨(swapWith_sameShape _ _ _ _ _ _ _).trans hs.1, fun i' b' hp => ?_⟩
          rw [blockAt_swapWith sb cur k kk1 k kk1 s hiL hbL hiL hbL]
          by_cases he : i' = k ∧ b' = kk1
          · rw [if_pos he, he.1, he.2, ← hm]
            exact hs.2 k kk1 hpk
          · rw [if_neg he, if_neg he]; exact hs.2 i' b' hp
        have := ih (k + 1) (swapWith sb cur k kk1 k kk1 s) (by omega) hnext hrel
        exact this

/-- The search on a table without repetition: the bitmap and the cursor are kept, and the
table is kept too or becomes the one where the visited block and the cursor are exchanged
in every entry. -/
theorem swapSearchFiles_weak (sb : SuperBlock) (t0 : List Inode) (cur next i b : Nat)
    (hlen : t0.length = MAX_FILES)
    (hfit : ∀ j c, Pos t0 j c → c < (inodeAt t0 j).blockIndex.length)
    (hpos : Pos t0 i b) (hcur : blockAt t0 i b = cur)
    (hnd : ∀ i1 b1 i2 b2, Pos t0 i1 b1 → Pos t0 i2 b2 →
      blockAt t0 i1 b1 = blockAt t0 i2 b2 → i1 = i2 ∧ b1 = b2)
    (fuel k : Nat) (s : DefragState) (hk : k + fuel ≤ MAX_FILES)
    (hnext : s.nextFreeBlock = next)
    (hs : TableRel id t0 s.inodes) :
    (swapSearchFiles sb cur i b fuel k s).bitmap = s.bitmap ∧
    (swapSearchFiles sb cur i b fuel k s).nextFreeBlock = next ∧
    (TableRel id t0 (swapSearchFiles sb cur i b fuel k s).inodes ∨
      TableRel (swapVal cur next) t0 (swapSearchFiles sb cur i b fuel k s).inodes) := by
  induction fuel generalizing k s with
  | zero => exact ⟨rfl, hnext, Or.inl hs⟩
  | succ f ih =>
    simp only [swapSearchFiles]
    by_cases hu : (inodeAt s.inodes k).isUsed = false
    · rw [if_pos hu]; exact ih (k + 1) s (by omega) hnext hs
    · rw [if_neg hu]
      have hu' : (inodeAt t0 k).isUsed = true := by
        rw [← (hs.1.2 k).1]; simpa using hu
      rcases swapSearchBlocks_cases sb cur i b k (inodeAt s.inodes k).blocksAllocated 0 s
        with ⟨h1, _⟩ | ⟨kk1, hlt, hm, h1⟩
      · rw [h1]; exact ih (k + 1) s (by omega) hnext hs
      · rw [h1]
        have hpk : Pos t0 k kk1 := ⟨by omega, hu', by rw [← (hs.1.2 k).2.1]; exact hlt⟩
        have hv : blockAt t0 k kk1 = next := by
          rw [← hnext, ← hm]; exact (hs.2 k kk1 hpk).symm
        have hiL : i < s.inodes.length := by rw [hs.1.1, hlen]; exact hpos.1
        have hbL : b < (inodeAt s.inodes i).blockIndex.length := by
          rw [(hs.1.2 i).2.2.2.2]; exact hfit i b hpos
        have hkL : k < s.inodes.length := by rw [hs.1.1, hlen]; exact hpk.1
        have hkkL : kk1 < (inodeAt s.inodes k).blockIndex.length := by
          rw [(hs.1.2 k).2.2.2.2]; exact hfit k kk1 hpk
        have hrel : TableRel (swapVal cur next) t0 (swapWith sb cur i b k kk1 s).inodes := by
          refine ⟨(swapWith_sameShape _ _ _ _ _ _ _).trans hs.1, fun i' b' hp => ?_⟩
          rw [blockAt_swapWith sb cur i b k kk1 s hiL hbL hkL hkkL]
          by_cases he : i' = i ∧ b' = b
          · rw [if_pos he, he.1, he.2, hcur, swapVal_cur, hnext]
          · rw [if_neg he]
            by_cases he' : i' = k ∧ b' = kk1
            · rw [if_pos he', he'.1, he'.2, hv, swapVal_next]
            · rw [if_neg he', hs.2 i' b' hp]
              have hne1 : blockAt t0 i' b' ≠ cur := fun e =>
                he (hnd i' b' i b hp hpos (by rw [e, hcur]))
              have hne2 : blockAt t0 i' b' ≠ next := fun e =>
                he' (hnd i' b' k kk1 hp hpk (by rw [e, hv]))
              rw [swapVal_of_ne _ _ _ hne1 hne2]; rfl
        obtain ⟨r1, r2, r3⟩ := swapSearchFiles_swapped sb t0 cur next i b hlen hfit hpos hcur
          hnd f (k + 1) (swapWith sb cur i b k kk1 s) (by omega) hnext hrel
        exact ⟨r1, r2, Or.inr r3⟩

/-- A table without repetition whose block indices are below `n` has at most `n` pairs. -/
theorem rankBefore_le_of_nodup (ins : List Inode) (n : Nat)
    (hnd : ∀ i1 b1 i2 b2, Pos ins i1 b1 → Pos ins i2 b2 →
      blockAt ins i1 b1 = blockAt ins i2 b2 → i1 = i2 ∧ b1 = b2)
    (hb : ∀ i b, Pos ins i b → blockAt ins i b < n) :
    rankBefore ins MAX_FILES ≤ n := by
  rw [← scanUpTo_length]
  have hsub : scanUpTo ins MAX_FILES ⊆ List.range n := by
    intro x hx
    obtain ⟨i, b, h1, h2, h3, h4⟩ := (mem_scanUpTo _ _ _).mp hx
    rw [List.mem_range, ← h4]
    exact hb i b ⟨h1, h2, h3⟩
  have := (List.subperm_of_subset (scanUpTo_nodup ins MAX_FILES (Nat.le_refl _) hnd)
    hsub).length_le
  rwa [List.length_range] at this

/-- One visit of the scan keeps the weak invariant. -/
theorem defragStep_weak {sb : SuperBlock} {ins0 : List Inode} {bmLen : Nat}
    {st : DefragState} {i b : Nat}
    (hlen : ins0.length = MAX_FILES)
    (hblen : ∀ j, j < MAX_FILES → (inodeAt ins0 j).blockIndex.length = INODE_BLOCK_NUM)
    (halloc : ∀ j, j < MAX_FILES → (inodeAt ins0 j).isUsed = true →
      (inodeAt ins0 j).blocksAllocated ≤ INODE_BLOCK_NUM)
    (hbm : sb.blocksCount ≤ 8 * bmLen)
    (hinv : DefragWeak sb ins0 bmLen st i b) (hpos : Pos ins0 i b) :
    DefragWeak sb ins0 bmLen (defragStep sb i b st) i (b + 1) := by
  have hsh := hinv.shape
  have hiL : i < st.inodes.length := by rw [hsh.1, hlen]; exact hpos.1
  have hfit0 : ∀ j c, Pos ins0 j c → c < (inodeAt ins0 j).blockIndex.length := by
    intro j c hp
    rw [hblen j hp.1]
    have := halloc j hp.1 hp.2.1
    have := hp.2.2
    omega
  have hbL : b < (inodeAt st.inodes i).blockIndex.length := by
    rw [(hsh.2 i).2.2.2.2]; exact hfit0 i b hpos
  have hposS : ∀ j c, Pos st.inodes j c ↔ Pos ins0 j c := fun j c => hsh.pos j c
  -- the cursor is a block of the disk
  have hnextlt : st.nextFreeBlock < sb.blocksCount := by
    have h1 := rank_lt_total ins0 i b hpos
    have h2 := rankBefore_le_of_nodup st.inodes sb.blocksCount
      (fun i1 b1 i2 b2 h1 h2 => hinv.nodup i1 b1 i2 b2 ((hposS _ _).mp h1) ((hposS _ _).mp h2))
      (fun j c hp => hinv.bounds j c ((hposS _ _).mp hp))
    rw [rankBefore_congr _ _ hsh] at h2
    rw [hinv.next_eq]; omega
  have hnextbyte : st.nextFreeBlock / 8 < st.bitmap.length := by
    rw [hinv.bm_len]; omega
  by_cases hcn : blockAt st.inodes i b = st.nextFreeBlock
  · -- the block is in place
    have e : defragStep sb i b st = { st with nextFreeBlock := st.nextFreeBlock + 1 } := by
      simp only [defragStep, hcn, ne_eq, not_true_eq_false, if_false]
    rw [e]
    exact ⟨hsh, by show st.nextFreeBlock + 1 = _; rw [hinv.next_eq]; omega, hinv.bounds,
      hinv.nodup, hinv.listed_set, hinv.bm_len, hinv.bytes⟩
  · by_cases hused : isBlockUsed st.bitmap st.nextFreeBlock = true
    · -- the destination is marked: the search
      have e : defragStep sb i b st =
          { swapSearchFiles sb (blockAt st.inodes i b) i b MAX_FILES 0 st with
            nextFreeBlock :=
              (swapSearchFiles sb (blockAt st.inodes i b) i b MAX_FILES 0 st).nextFreeBlock +
                1 } := by
        simp only [defragStep, ne_eq, hcn, not_false_eq_true, if_true, hused]
      obtain ⟨r1, r2, r3⟩ := swapSearchFiles_weak sb st.inodes (blockAt st.inodes i b)
        st.nextFreeBlock i b (by rw [hsh.1, hlen])
        (fun j c hp => by rw [(hsh.2 j).2.2.2.2]; exact hfit0 j c ((hposS j c).mp hp))
        ((hposS i b).mpr hpos) rfl
        (fun i1 b1 i2 b2 h1 h2 => hinv.nodup i1 b1 i2 b2 ((hposS _ _).mp h1) ((hposS _ _).mp h2))
        MAX_FILES 0 st (by omega) rfl ⟨SameShape.refl _, fun _ _ _ => rfl⟩
      rw [e]
      rcases r3 with r3 | r3
      · refine ⟨r3.1.trans hsh, by show _ + 1 = _; rw [r2, hinv.next_eq]; omega, ?_, ?_, ?_,
          by show (swapSearchFiles _ _ _ _ _ _ _).bitmap.length = _; rw [r1]; exact hinv.bm_len,
          by show BytesOk (swapSearchFiles _ _ _ _ _ _ _).bitmap; rw [r1]; exact hinv.bytes⟩
        · intro i' b' hp
          show blockAt (swapSearchFiles _ _ _ _ _ _ _).inodes i' b' < _
          rw [r3.2 i' b' ((hposS _ _).mpr hp)]; exact hinv.bounds i' b' hp
        · intro i1 b1 i2 b2 h1 h2 he
          change blockAt (swapSearchFiles _ _ _ _ _ _ _).inodes i1 b1 =
            blockAt (swapSearchFiles _ _ _ _ _ _ _).inodes i2 b2 at he
          rw [r3.2 i1 b1 ((hposS _ _).mpr h1), r3.2 i2 b2 ((hposS _ _).mpr h2)] at he
          exact hinv.nodup i1 b1 i2 b2 h1 h2 he
        · intro i' b' hp
          show isBlockUsed (swapSearchFiles _ _ _ _ _ _ _).bitmap
            (blockAt (swapSearchFiles _ _ _ _ _ _ _).inodes i' b') = true
          rw [r1, r3.2 i' b' ((hposS _ _).mpr hp)]; exact hinv.listed_set i' b' hp
      · refine ⟨r3.1.trans hsh, by show _ + 1 = _; rw [r2, hinv.next_eq]; omega, ?_, ?_, ?_,
          by show (swapSearchFiles _ _ _ _ _ _ _).bitmap.length = _; rw [r1]; exact hinv.bm_len,
          by show BytesOk (swapSearchFiles _ _ _ _ _ _ _).bitmap; rw [r1]; exact hinv.bytes⟩
        · intro i' b' hp
          show blockAt (swapSearchFiles _ _ _ _ _ _ _).inodes i' b' < _
          rw [r3.2 i' b' ((hposS _ _).mpr hp)]
          unfold swapVal
          split
          · exact hnextlt
          · split
            · exact hinv.bounds i b hpos
            · exact hinv.bounds i' b' hp
        · intro i1 b1 i2 b2 h1 h2 he
          change blockAt (swapSearchFiles _ _ _ _ _ _ _).inodes i1 b1 =
            blockAt (swapSearchFiles _ _ _ _ _ _ _).inodes i2 b2 at he
          rw [r3.2 i1 b1 ((hposS _ _).mpr h1), r3.2 i2 b2 ((hposS _ _).mpr h2)] at he
          exact hinv.nodup i1 b1 i2 b2 h1 h2 (swapVal_injective _ _ _ _ he)
        · intro i' b' hp
          show isBlockUsed (swapSearchFiles _ _ _ _ _ _ _).bitmap
            (blockAt (swapSearchFiles _ _ _ _ _ _ _).inodes i' b') = true
          rw [r1, r3.2 i' b' ((hposS _ _).mpr hp)]
          unfold swapVal
          split
          · exact hused
          · split
            · exact hinv.listed_set i b hpos
            · exact hinv.listed_set i' b' hp
    · -- the destination is free: the block is moved
      have hfree : isBlockUsed st.bitmap st.nextFreeBlock = false := by simpa using hused
      have e : defragStep sb i b st =
          { moveBlock sb (blockAt st.inodes i b) i b st with
            nextFreeBlock := st.nextFreeBlock + 1 } := by
        simp only [defragStep, ne_eq, hcn, not_false_eq_true, if_true, hfree]
        rfl
      have hat : ∀ i' b', blockAt (setBlockAt st.inodes i b st.nextFreeBlock) i' b' =
          if i' = i ∧ b' = b then st.nextFreeBlock else blockAt st.inodes i' b' :=
        fun i' b' => blockAt_setBlockAt _ _ _ _ _ _ hiL hbL
      have hnotnext : ∀ i' b', Pos ins0 i' b' → blockAt st.inodes i' b' ≠ st.nextFreeBlock := by
        intro i' b' hp he
        have := hinv.listed_set i' b' hp
        rw [he, hfree] at this; cases this
      rw [e]
      refine ⟨(setBlockAt_sameShape _ _ _ _).trans hsh,
        by show st.nextFreeBlock + 1 = _; rw [hinv.next_eq]; omega, ?_, ?_, ?_, ?_, ?_⟩
      · intro i' b' hp
        show blockAt (setBlockAt st.inodes i b st.nextFreeBlock) i' b' < _
        rw [hat]
        split
        · exact hnextlt
        · exact hinv.bounds i' b' hp
      · intro i1 b1 i2 b2 h1 h2 he
        change blockAt (setBlockAt st.inodes i b st.nextFreeBlock) i1 b1 =
          blockAt (setBlockAt st.inodes i b st.nextFreeBlock) i2 b2 at he
        rw [hat, hat] at he
        by_cases e1 : i1 = i ∧ b1 = b
        · by_cases e2 : i2 = i ∧ b2 = b
          · exact ⟨e1.1.trans e2.1.symm, e1.2.trans e2.2.symm⟩
          · rw [if_pos e1, if_neg e2] at he
            exact absurd he.symm (hnotnext i2 b2 h2)
        · by_cases e2 : i2 = i ∧ b2 = b
          · rw [if_neg e1, if_pos e2] at he
            exact absurd he (hnotnext i1 b1 h1)
          · rw [if_neg e1, if_neg e2] at he
            exact hinv.nodup i1 b1 i2 b2 h1 h2 he
      · intro i' b' hp
        show isBlockUsed (setBlockUsed (setBlockUsed st.bitmap (blockAt st.inodes i b) false)
          st.nextFreeBlock true) (blockAt (setBlockAt st.inodes i b st.nextFreeBlock) i' b') = true
        rw [hat]
        by_cases e1 : i' = i ∧ b' = b
        · rw [if_pos e1]
          exact isBlockUsed_set_same _ _ _ (by rw [setBlockUsed_length]; exact hnextbyte)
        · rw [if_neg e1]
          have hne : blockAt st.inodes i b ≠ blockAt st.inodes i' b' := fun he =>
            e1 (hinv.nodup i' b' i b hp hpos he.symm)
          rw [isBlockUsed_set_other _ _ _ _ (fun he => hnotnext i' b' hp he.symm),
            isBlockUsed_set_other _ _ _ _ hne]
          exact hinv.listed_set i' b' hp
      · show (setBlockUsed (setBlockUsed st.bitmap _ false) _ true).length = bmLen
        rw [setBlockUsed_length, setBlockUsed_length]; exact hinv.bm_len
      · show BytesOk (setBlockUsed (setBlockUsed st.bitmap _ false) _ true)
        exact setBlockUsed_bytesOk _ _ _ (setBlockUsed_bytesOk _ _ _ hinv.bytes)

theorem defragBlocks_weak {sb : SuperBlock} {ins0 : List Inode} {bmLen : Nat} {i : Nat}
    (hlen : ins0.length = MAX_FILES)
    (hblen : ∀ j, j < MAX_FILES → (inodeAt ins0 j).blockIndex.length = INODE_BLOCK_NUM)
    (halloc : ∀ j, j < MAX_FILES → (inodeAt ins0 j).isUsed = true →
      (inodeAt ins0 j).blocksAllocated ≤ INODE_BLOCK_NUM)
    (hbm : sb.blocksCount ≤ 8 * bmLen)
    (hi : i < MAX_FILES) (hu : (inodeAt ins0 i).isUsed = true)
    (fuel b : Nat) (st : DefragState) (hfuel : b + fuel = (inodeAt ins0 i).blocksAllocated)
    (hinv : DefragWeak sb ins0 bmLen st i b) :
    DefragWeak sb ins0 bmLen (defragBlocks sb i fuel b st) i
      (inodeAt ins0 i).blocksAllocated := by
  induction fuel generalizing b st with
  | zero =>
    have : b = (inodeAt ins0 i).blocksAllocated := by omega
    rw [← this]; exact hinv
  | succ f ih =>
    simp only [defragBlocks]
    rw [if_pos (by rw [(hinv.shape.2 i).2.1]; omega)]
    exact ih (b + 1) _ (by omega)
      (defragStep_weak hlen hblen halloc hbm hinv ⟨hi, hu, by omega⟩)

/-- Passing from the end of slot `i` to the start of slot `i + 1`. -/
theorem DefragWeak.to_next_slot {sb : SuperBlock} {ins0 : List Inode} {bmLen : Nat}
    {st : DefragState} {i b : Nat} (hinv : DefragWeak sb ins0 bmLen st i b)
    (hb : b = if (inodeAt ins0 i).isUsed then (inodeAt ins0 i).blocksAllocated else 0) :
    DefragWeak sb ins0 bmLen st (i + 1) 0 :=
  ⟨hinv.shape, by rw [hinv.next_eq, hb]; simp only [rankBefore]; omega, hinv.bounds,
    hinv.nodup, hinv.listed_set, hinv.bm_len, hinv.bytes⟩

theorem defragFiles_weak {sb : SuperBlock} {ins0 : List Inode} {bmLen : Nat}
    (hlen : ins0.length = MAX_FILES)
    (hblen : ∀ j, j < MAX_FILES → (inodeAt ins0 j).blockIndex.length = INODE_BLOCK_NUM)
    (halloc : ∀ j, j < MAX_FILES → (inodeAt ins0 j).isUsed = true →
      (inodeAt ins0 j).blocksAllocated ≤ INODE_BLOCK_NUM)
    (hbm : sb.blocksCount ≤ 8 * bmLen)
    (fuel i : Nat) (st : DefragState) (hfuel : i + fuel = MAX_FILES)
    (hinv : DefragWeak sb ins0 bmLen st i 0) :
    DefragWeak sb ins0 bmLen (defragFiles sb fuel i st) MAX_FILES 0 := by
  induction fuel generalizing i st with
  | zero =>
    have : i = MAX_FILES := by omega
    rw [← this]; exact hinv
  | succ f ih =>
    simp only [defragFiles]
    by_cases hu : (inodeAt st.inodes i).isUsed = false
    · rw [if_pos hu]
      refine ih (i + 1) st (by omega) (hinv.to_next_slot ?_)
      rw [← (hinv.shape.2 i).1, hu]; rfl
    · rw [if_neg hu]
      have hu' : (inodeAt ins0 i).isUsed = true := by
        rw [← (hinv.shape.2 i).1]; simpa using hu
      have hb := defragBlocks_weak hlen hblen halloc hbm (by omega) hu'
        (inodeAt ins0 i).blocksAllocated 0 st (by omega) hinv
      rw [(hinv.shape.2 i).2.1]
      exact ih (i + 1) _ (by omega) (hb.to_next_slot (by rw [hu']; rfl))

/-- The weak invariant holds at the end of `defragmentDisk` on a well-formed image whose
listed blocks are pairwise different, below `blocksCount` and marked. -/
theorem defragRun_weak (d : Disk) (hwf : WF d) (hinv : AllocInv d) :
    DefragWeak d.sb d.inodes d.bitmap.length (defragRun d) MAX_FILES 0 := by
  unfold defragRun
  apply defragFiles_weak hwf.inodes_len
  · intro j hj
    exact hwf.blockIndex_len _ (inodeAt_mem _ _ (by rw [hwf.inodes_len]; exact hj))
  · exact hinv.alloc_le
  · rw [hwf.bitmap_len, hwf.bitmapSize_eq]; omega
  · rfl
  · exact ⟨SameShape.refl _, rfl, hinv.bounds, hinv.nodup, hinv.listed_set, rfl, hwf.bytes⟩

theorem defragmentDisk_allocInv (d : Disk) (hwf : WF d) (hinv : AllocInv d) :
    AllocInv (defragmentDisk d) := by
  have h := defragRun_weak d hwf hinv
  have hsh : SameShape (defragmentDisk d).inodes d.inodes := h.shape
  constructor
  · intro i hi hu
    rw [(hsh.2 i).1] at hu
    rw [(hsh.2 i).2.1]
    exact hinv.alloc_le i hi hu
  · intro i b hp
    exact h.bounds i b ((hsh.pos i b).mp hp)
  · intro i b i' b' hp hp'
    exact h.nodup i b i' b' ((hsh.pos i b).mp hp) ((hsh.pos i' b').mp hp')
  · intro i b hp
    exact h.listed_set i b ((hsh.pos i b).mp hp)

theorem defragmentDisk_WF_of_allocInv (d : Disk) (hwf : WF d) (hinv : AllocInv d) :
    WF (defragmentDisk d) := by
  have h := defragRun_weak d hwf hinv
  have hsh : SameShape (defragmentDisk d).inodes d.inodes := h.shape
  constructor
  · exact hwf.blockSize_pos
  · exact hwf.blockSize_lt
  · exact hwf.extent_lt
  · rw [hsh.1]; exact hwf.inodes_len
  · intro n hn
    obtain ⟨j, hj, he⟩ := List.mem_iff_getElem.mp hn
    have e : n = inodeAt (defragmentDisk d).inodes j := by
      simp only [inodeAt, List.getD_eq_getElem?_getD, List.getElem?_eq_getElem hj,
        Option.getD_some]
      exact he.symm
    have hj' : j < d.inodes.length := by rw [← hsh.1]; exact hj
    rw [e, (hsh.2 j).2.2.2.2]
    exact hwf.blockIndex_len _ (inodeAt_mem _ _ hj')
  · show (defragRun d).bitmap.length = _
    rw [h.bm_len]; exact hwf.bitmap_len
  · exact hwf.bitmapSize_eq
  · exact h.bytes

theorem DataModelInv.allocInv {d : Disk} (h : DataModelInv d) : AllocInv d :=
  ⟨h.alloc_le, h.bounds, h.nodup, fun i b hp => (h.consistent _).mpr ⟨i, b, hp, rfl⟩⟩

/-- Function `addNewFile` keeps the invariants, whatever the outcome and also when it
overwrites a slot. -/
theorem addNewFile_allocInv (d : Disk) (name : List Nat) (size : Nat) (ow : Bool)
    (hwf : WF d) (hinv : AllocInv d) :
    AllocInv (addNewFile d name size ow).disk := by
  rcases addNewFile_cases d name size ow with ⟨_, h⟩ | ⟨hok, _⟩
  · rw [h]; exact hinv
  · obtain ⟨hn, hr, hfr, idx, hidx, hs⟩ := addNewFile_added_inv d name size ow hwf hok
    obtain ⟨_, hsb, _, hbm, bl, hbl, htake, hin⟩ :=
      (addNewFile_of_slot d name size ow idx hwf hn hs hidx hr).2 hfr
    have hat : inodeAt (addNewFile d name size ow).disk.inodes idx =
        { fileName := name, fileSize := size, isUsed := true, blockIndex := bl,
          blocksAllocated := requiredBlocks d.sb size } := by
      rw [hin, inodeAt_set_same _ _ _ (by rw [hwf.inodes_len]; exact hidx)]
    have hother : ∀ j, j ≠ idx →
        inodeAt (addNewFile d name size ow).disk.inodes j = inodeAt d.inodes j := by
      intro j hj
      rw [hin, inodeAt_set_other _ _ _ _ (fun e => hj e.symm)]
    have hble : requiredBlocks d.sb size ≤ bl.length := by rw [hbl]; exact hr
    have hinb : ∀ x ∈ (freeBlocks d.sb d.bitmap).take (requiredBlocks d.sb size),
        x / 8 < d.bitmap.length := fun x hx =>
      hwf.byte_lt d x (mem_freeBlocks_take _ _ _ _ hx).1
    have hposNew : ∀ b, Pos (addNewFile d name size ow).disk.inodes idx b →
        b < requiredBlocks d.sb size ∧
        blockAt (addNewFile d name size ow).disk.inodes idx b ∈
          (freeBlocks d.sb d.bitmap).take (requiredBlocks d.sb size) := by
      intro b hp
      have hb : b < requiredBlocks d.sb size := by have := hp.2.2; rw [hat] at this; exact this
      refine ⟨hb, ?_⟩
      rw [← htake, mem_take_iff_getD _ _ _ hble]
      exact ⟨b, hb, by unfold blockAt; rw [hat]⟩
    have hposOld : ∀ i b, i ≠ idx → Pos (addNewFile d name size ow).disk.inodes i b →
        Pos d.inodes i b ∧
        blockAt (addNewFile d name size ow).disk.inodes i b = blockAt d.inodes i b := by
      intro i b hi hp
      unfold Pos blockAt at *
      rw [hother i hi] at hp
      rw [hother i hi]
      exact ⟨hp, rfl⟩
    have hfreeNotListed : ∀ x, x ∈ (freeBlocks d.sb d.bitmap).take (requiredBlocks d.sb size) →
        ∀ i b, Pos d.inodes i b → blockAt d.inodes i b ≠ x := by
      intro x hx i b hp he
      have h1 := (mem_freeBlocks_take _ _ _ _ hx).2
      have h2 := hinv.listed_set i b hp
      rw [he, h1] at h2; cases h2
    constructor
    · intro i hi hu
      by_cases he : i = idx
      · rw [he, hat]; exact hr
      · rw [hother i he] at hu ⊢; exact hinv.alloc_le i hi hu
    · intro i b hp
      rw [hsb]
      by_cases he : i = idx
      · rw [he] at hp ⊢
        exact (mem_freeBlocks_take _ _ _ _ (hposNew b hp).2).1
      · obtain ⟨hp', hb⟩ := hposOld i b he hp
        rw [hb]; exact hinv.bounds i b hp'
    · intro i b i' b' hp hp' heq
      by_cases he : i = idx
      · by_cases he' : i' = idx
        · rw [he] at hp heq; rw [he'] at hp' heq
          refine ⟨by rw [he, he'], ?_⟩
          apply getD_inj_of_nodup_take bl (requiredBlocks d.sb size) b b' hble
            (by rw [htake]; exact freeBlocks_take_nodup _ _ _) (hposNew b hp).1 (hposNew b' hp').1
          unfold blockAt at heq; rw [hat] at heq; exact heq
        · rw [he] at hp heq
          obtain ⟨hq, hb⟩ := hposOld i' b' he' hp'
          exact absurd (by rw [← hb, heq]) (hfreeNotListed _ (hposNew b hp).2 i' b' hq)
      · obtain ⟨hq, hb⟩ := hposOld i b he hp
        by_cases he' : i' = idx
        · rw [he'] at hp' heq
          exact absurd (by rw [← hb, heq]) (hfreeNotListed _ (hposNew b' hp').2 i b hq)
        · obtain ⟨hq', hb'⟩ := hposOld i' b' he' hp'
          rw [hb, hb'] at heq
          exact hinv.nodup i b i' b' hq hq' heq
    · intro i b hp
      rw [hbm, isBlockUsed_setBlocks _ _ _ _ hinb]
      by_cases he : i = idx
      · rw [he] at hp ⊢
        rw [if_pos (hposNew b hp).2]
      · obtain ⟨hq, hb⟩ := hposOld i b he hp
        rw [hb]
        split
        · rfl
        · exact hinv.listed_set i b hq

/-- Function `removeFile` keeps the invariants. -/
theorem removeFile_allocInv (d : Disk) (name : List Nat) (hwf : WF d) (hinv : AllocInv d) :
    AllocInv (removeFile d name).2 := by
  unfold removeFile
  cases hf : findFile d.inodes name MAX_FILES 0 with
  | none => exact hinv
  | some idx =>
    obtain ⟨_, hidx, hu, _, _⟩ := (findFile_eq_some_iff _ _ _ _ _).mp hf
    have hidx' : idx < MAX_FILES := by omega
    have hlen : idx < d.inodes.length := by rw [hwf.inodes_len]; exact hidx'
    have hba := hinv.alloc_le idx hidx' hu
    have hbl : (inodeAt d.inodes idx).blocksAllocated ≤ (inodeAt d.inodes idx).blockIndex.length := by
      rw [hwf.blockIndex_len _ (inodeAt_mem _ _ hlen)]; exact hba
    have hat : inodeAt (d.inodes.set idx (deleteInode (inodeAt d.inodes idx))) idx =
        deleteInode (inodeAt d.inodes idx) := inodeAt_set_same _ _ _ hlen
    have hother : ∀ j, j ≠ idx →
        inodeAt (d.inodes.set idx (deleteInode (inodeAt d.inodes idx))) j = inodeAt d.inodes j :=
      fun j hj => inodeAt_set_other _ _ _ _ (fun e => hj e.symm)
    have hpos : ∀ i b, Pos (d.inodes.set idx (deleteInode (inodeAt d.inodes idx))) i b →
        i ≠ idx ∧ Pos d.inodes i b ∧
        blockAt (d.inodes.set idx (deleteInode (inodeAt d.inodes idx))) i b =
          blockAt d.inodes i b := by
      intro i b hp
      have hne : i ≠ idx := by
        intro e
        have := hp.2.1
        rw [e, hat] at this
        simp [deleteInode] at this
      unfold Pos blockAt at *
      rw [hother i hne] at hp
      rw [hother i hne]
      exact ⟨hne, hp, rfl⟩
    have hmem : ∀ x, x ∈ (inodeAt d.inodes idx).blockIndex.take
          (inodeAt d.inodes idx).blocksAllocated ↔
        ∃ b, Pos d.inodes idx b ∧ blockAt d.inodes idx b = x := by
      intro x
      rw [mem_take_iff_getD _ _ _ hbl]
      constructor
      · rintro ⟨b, hb, he⟩; exact ⟨b, ⟨hidx', hu, hb⟩, he⟩
      · rintro ⟨b, hp, he⟩; exact ⟨b, hp.2.2, he⟩
    have hinb : ∀ x ∈ (inodeAt d.inodes idx).blockIndex.take
        (inodeAt d.inodes idx).blocksAllocated, x / 8 < d.bitmap.length := by
      intro x hx
      obtain ⟨b, hp, he⟩ := (hmem x).mp hx
      rw [← he]
      exact hwf.byte_lt d _ (hinv.bounds idx b hp)
    constructor
    · intro i hi hu'
      by_cases he : i = idx
      · rw [he, hat] at hu'; simp [deleteInode] at hu'
      · show (inodeAt (d.inodes.set idx _) i).blocksAllocated ≤ _
        change (inodeAt (d.inodes.set idx _) i).isUsed = true at hu'
        rw [hother i he] at hu' ⊢
        exact hinv.alloc_le i hi hu'
    · intro i b hp
      obtain ⟨_, hq, hb⟩ := hpos i b hp
      show blockAt (d.inodes.set idx _) i b < d.sb.blocksCount
      rw [hb]; exact hinv.bounds i b hq
    · intro i b i' b' hp hp' heq
      obtain ⟨_, hq, hb⟩ := hpos i b hp
      obtain ⟨_, hq', hb'⟩ := hpos i' b' hp'
      change blockAt (d.inodes.set idx _) i b = blockAt (d.inodes.set idx _) i' b' at heq
      rw [hb, hb'] at heq
      exact hinv.nodup i b i' b' hq hq' heq
    · intro i b hp
      obtain ⟨hne, hq, hb⟩ := hpos i b hp
      show isBlockUsed (setBlocks d.bitmap _ false)
        (blockAt (d.inodes.set idx (deleteInode (inodeAt d.inodes idx))) i b) = true
      rw [hb, isBlockUsed_setBlocks _ _ _ _ hinb]
      have hx : blockAt d.inodes i b ∉ (inodeAt d.inodes idx).blockIndex.take
          (inodeAt d.inodes idx).blocksAllocated := by
        intro hx
        obtain ⟨b', hp', he'⟩ := (hmem _).mp hx
        exact hne (hinv.nodup i b idx b' hq hp' he'.symm).1
      rw [if_neg hx]
      exact hinv.listed_set i b hq

/-- Every reachable image is well formed and keeps the invariants. -/
theorem Reachable.inv {d : Disk} (h : Reachable d) : WF d ∧ AllocInv d := by
  induction h with
  | create nm ds bs hname hpos hlt hsize hsent hfit =>
    exact ⟨createVirtualDisk_WF _ _ nm ds bs hpos hlt
        (Nat.lt_of_le_of_lt (Nat.div_mul_le_self ds bs) hsize),
      (createVirtualDisk_inv _ _ nm ds bs).allocInv⟩
  | add d name size ow _ ih =>
    exact ⟨addNewFile_WF d name size ow ih.1, addNewFile_allocInv d name size ow ih.1 ih.2⟩
  | remove d name _ ih =>
    exact ⟨removeFile_WF d name ih.1, removeFile_allocInv d name ih.1 ih.2⟩
  | defrag d _ ih =>
    exact ⟨defragmentDisk_WF_of_allocInv d ih.1 ih.2, defragmentDisk_allocInv d ih.1 ih.2⟩

theorem leValue_leBytes_8 (v : Nat) (h : v < 2 ^ 64) : leValue (leBytes 8 v) = v := by
  simp only [leBytes, List.range_succ, List.range_zero, List.nil_append, List.map_append,
    List.map_cons, List.map_nil, List.cons_append, leValue]
  norm_num
  omega

theorem leValue_leBytes_4 (v : Nat) (h : v < 2 ^ 32) : leValue (leBytes 4 v) = v := by
  simp only [leBytes, List.range_succ, List.range_zero, List.nil_append, List.map_append,
    List.map_cons, List.map_nil, List.cons_append, leValue]
  norm_num
  omega

theorem int32Value_int32Bytes (v : Int) (h0 : -2 ^ 31 ≤ v) (h1 : v < 2 ^ 31) :
    int32Value (int32Bytes v) = v := by
  unfold int32Value int32Bytes
  have hlt : (v % 2 ^ 32).toNat < 2 ^ 32 := by omega
  rw [leValue_leBytes_4 _ hlt]
  unfold toInt32
  omega
theorem drop_add_append (a : List Nat) (n k : Nat) (r : List Nat) (h : a.length = n) :
    (a ++ r).drop (n + k) = r.drop k := by
  rw [← h]; exact List.drop_append k

theorem take_append_len (a : List Nat) (n : Nat) (r : List Nat) (h : a.length = n) :
    (a ++ r).take n = a := List.take_left' h

/-- The fields of a record are read back from its bytes. -/
theorem fields_of_bytes (a b c d1 d2 d3 d4 d5 d6 : List Nat) (ha : a.length = 32)
    (hb : b.length = 8) (hc : c.length = 8) (h1 : d1.length = 4) (h2 : d2.length = 4)
    (h3 : d3.length = 4) (h4 : d4.length = 4) (h5 : d5.length = 4) (h6 : d6.length = 4) :
    (a ++ b ++ c ++ d1 ++ d2 ++ d3 ++ d4 ++ d5 ++ d6).take 32 = a ∧
    ((a ++ b ++ c ++ d1 ++ d2 ++ d3 ++ d4 ++ d5 ++ d6).drop 32).take 8 = b ∧
    ((a ++ b ++ c ++ d1 ++ d2 ++ d3 ++ d4 ++ d5 ++ d6).drop 40).take 8 = c ∧
    ((a ++ b ++ c ++ d1 ++ d2 ++ d3 ++ d4 ++ d5 ++ d6).drop 48).take 4 = d1 ∧
    ((a ++ b ++ c ++ d1 ++ d2 ++ d3 ++ d4 ++ d5 ++ d6).drop 52).take 4 = d2 ∧
    ((a ++ b ++ c ++ d1 ++ d2 ++ d3 ++ d4 ++ d5 ++ d6).drop 56).take 4 = d3 ∧
    ((a ++ b ++ c ++ d1 ++ d2 ++ d3 ++ d4 ++ d5 ++ d6).drop 60).take 4 = d4 ∧
    ((a ++ b ++ c ++ d1 ++ d2 ++ d3 ++ d4 ++ d5 ++ d6).drop 64).take 4 = d5 ∧
    ((a ++ b ++ c ++ d1 ++ d2 ++ d3 ++ d4 ++ d5 ++ d6).drop 68).take 4 = d6 := by
  simp only [List.append_assoc]
  have e32 : ∀ r : List Nat, (a ++ r).drop 32 = r := fun r => by
    have := drop_add_append a 32 0 r ha; simpa using this
  have eb : ∀ (k : Nat) (r : List Nat), (b ++ r).drop (8 + k) = r.drop k :=
    fun k r => drop_add_append b 8 k r hb
  have ec : ∀ (k : Nat) (r : List Nat), (c ++ r).drop (8 + k) = r.drop k :=
    fun k r => drop_add_append c 8 k r hc
  have e1 : ∀ (k : Nat) (r : List Nat), (d1 ++ r).drop (4 + k) = r.drop k :=
    fun k r => drop_add_append d1 4 k r h1
  have e2 : ∀ (k : Nat) (r : List Nat), (d2 ++ r).drop (4 + k) = r.drop k :=
    fun k r => drop_add_append d2 4 k r h2
  have e3 : ∀ (k : Nat) (r : List Nat), (d3 ++ r).drop (4 + k) = r.drop k :=
    fun k r => drop_add_append d3 4 k r h3
  have e4 : ∀ (k : Nat) (r : List Nat), (d4 ++ r).drop (4 + k) = r.drop k :=
    fun k r => drop_add_append d4 4 k r h4
  have e5 : ∀ (k : Nat) (r : List Nat), (d5 ++ r).drop (4 + k) = r.drop k :=
    fun k r => drop_add_append d5 4 k r h5
  have s40 : ∀ r : List Nat, (a ++ r).drop 40 = r.drop 8 := fun r => drop_add_append a 32 8 r ha
  have s48 : ∀ r : List Nat, (a ++ r).drop 48 = r.drop 16 := fun r => drop_add_append a 32 16 r ha
  have s52 : ∀ r : List Nat, (a ++ r).drop 52 = r.drop 20 := fun r => drop_add_append a 32 20 r ha
  have s56 : ∀ r : List Nat, (a ++ r).drop 56 = r.drop 24 := fun r => drop_add_append a 32 24 r ha
  have s60 : ∀ r : List Nat, (a ++ r).drop 60 = r.drop 28 := fun r => drop_add_append a 32 28 r ha
  have s64 : ∀ r : List Nat, (a ++ r).drop 64 = r.drop 32 := fun r => drop_add_append a 32 32 r ha
  have s68 : ∀ r : List Nat, (a ++ r).drop 68 = r.drop 36 := fun r => drop_add_append a 32 36 r ha
  refine ⟨take_append_len a 32 _ ha, ?_, ?_, ?_, ?_, ?_, ?_, ?_, ?_⟩
  · rw [e32]; exact take_append_len b 8 _ hb
  · rw [s40, eb 0, List.drop_zero]; exact take_append_len c 8 _ hc
  · rw [s48, eb 8, ec 0, List.drop_zero]; exact take_append_len d1 4 _ h1
  · rw [s52, eb 12, ec 4, e1 0, List.drop_zero]; exact take_append_len d2 4 _ h2
  · rw [s56, eb 16, ec 8, e1 4, e2 0, List.drop_zero]; exact take_append_len d3 4 _ h3
  · rw [s60, eb 20, ec 12, e1 8, e2 4, e3 0, List.drop_zero]; exact take_append_len d4 4 _ h4
  · rw [s64, eb 24, ec 16, e1 12, e2 8, e3 4, e4 0, List.drop_zero]
    exact take_append_len d5 4 _ h5
  · rw [s68, eb 28, ec 20, e1 16, e2 12, e3 8, e4 4, e5 0, List.drop_zero]
    have := take_append_len d6 4 [] h6
    simpa using this
theorem leBytes_length (w v : Nat) : (leBytes w v).length = w := by
  simp [leBytes]

theorem int32Bytes_length (v : Int) : (int32Bytes v).length = 4 := leBytes_length 4 _

theorem superBlockBytes_length (sb : SuperBlockC) (hname : sb.diskName.length = 32) :
    (superBlockBytes sb).length = SIZEOF_SUPERBLOCK := by
  simp only [superBlockBytes, List.length_append, List.length_take, leBytes_length,
    int32Bytes_length, hname, SIZEOF_SUPERBLOCK]
  rfl

/-- A record whose fields are within their widths is read back from its bytes. -/
theorem superBlockOfBytes_superBlockBytes (sb : SuperBlockC) (hname : sb.diskName.length = 32)
    (hds : sb.diskSize < 2 ^ 64) (hbs : sb.blockSize < 2 ^ 64)
    (h1 : -2 ^ 31 ≤ sb.blocksCount ∧ sb.blocksCount < 2 ^ 31)
    (h2 : -2 ^ 31 ≤ sb.inodeAreaSize ∧ sb.inodeAreaSize < 2 ^ 31)
    (h3 : -2 ^ 31 ≤ sb.inodeAreaOffset ∧ sb.inodeAreaOffset < 2 ^ 31)
    (h4 : -2 ^ 31 ≤ sb.bitmapSize ∧ sb.bitmapSize < 2 ^ 31)
    (h5 : -2 ^ 31 ≤ sb.bitmapOffset ∧ sb.bitmapOffset < 2 ^ 31)
    (h6 : -2 ^ 31 ≤ sb.dataAreaOffset ∧ sb.dataAreaOffset < 2 ^ 31) :
    superBlockOfBytes (superBlockBytes sb) = sb := by
  obtain ⟨e0, e1, e2, e3, e4, e5, e6, e7, e8⟩ := fields_of_bytes (sb.diskName.take 32)
    (leBytes 8 sb.diskSize) (leBytes 8 sb.blockSize) (int32Bytes sb.blocksCount)
    (int32Bytes sb.inodeAreaSize) (int32Bytes sb.inodeAreaOffset) (int32Bytes sb.bitmapSize)
    (int32Bytes sb.bitmapOffset) (int32Bytes sb.dataAreaOffset)
    (by rw [List.length_take, hname]; rfl) (leBytes_length _ _) (leBytes_length _ _)
    (int32Bytes_length _) (int32Bytes_length _) (int32Bytes_length _) (int32Bytes_length _)
    (int32Bytes_length _) (int32Bytes_length _)
  unfold superBlockOfBytes superBlockBytes
  rw [e0, e1, e2, e3, e4, e5, e6, e7, e8, leValue_leBytes_8 _ hds, leValue_leBytes_8 _ hbs,
    int32Value_int32Bytes _ h1.1 h1.2, int32Value_int32Bytes _ h2.1 h2.2,
    int32Value_int32Bytes _ h3.1 h3.2, int32Value_int32Bytes _ h4.1 h4.2,
    int32Value_int32Bytes _ h5.1 h5.2, int32Value_int32Bytes _ h6.1 h6.2,
    List.take_of_length_le (by omega)]

theorem strcpy_length (dst src : List Nat) (hd : dst.length = 32) (hs : src.length < 32) :
    (strcpy dst src).length = 32 := by
  simp only [strcpy, List.length_append, List.length_cons, List.length_nil, List.length_drop]
  omega

theorem cString_strcpy (dst src : List Nat) (hs : ∀ c ∈ src, c ≠ 0) :
    cString (strcpy dst src) = src := by
  unfold cString strcpy
  rw [List.append_assoc, List.takeWhile_append_of_pos (by
    intro c hc
    simpa using hs c hc)]
  simp [List.takeWhile]

/-- The record of `createVirtualDisk` when the block count is within `int`. -/
theorem createSuperBlock_of_fits (sizeofSuperBlock sizeofInode : Nat)
    (stack diskName : List Nat) (diskSize blockSize : Nat) (hbs : 0 < blockSize)
    (hfit : diskSize / blockSize + 7 < 2 ^ 31)
    (hrec : sizeofSuperBlock + MAX_FILES * sizeofInode + 2 ^ 28 < 2 ^ 31) :
    createSuperBlock sizeofSuperBlock sizeofInode stack diskName diskSize blockSize =
      some { diskName := strcpy stack diskName, diskSize := diskSize, blockSize := blockSize,
             blocksCount := ((diskSize / blockSize : Nat) : Int),
             inodeAreaSize := ((64 * sizeofInode : Nat) : Int),
             inodeAreaOffset := ((sizeofSuperBlock : Nat) : Int),
             bitmapSize := (((diskSize / blockSize + 7) / 8 : Nat) : Int),
             bitmapOffset := ((sizeofSuperBlock + 64 * sizeofInode : Nat) : Int),
             dataAreaOffset :=
               ((sizeofSuperBlock + 64 * sizeofInode + (diskSize / blockSize + 7) / 8 : Nat) :
                 Int) } := by
  have hne : blockSize ≠ 0 := by omega
  simp only [MAX_FILES] at hrec
  obtain ⟨hbc, hias, hiao, hbms, hbo, hdo⟩ :=
    geometry_fits sizeofSuperBlock sizeofInode (diskSize / blockSize) hfit hrec
  simp only [createSuperBlock, if_neg hne, hbc, hias, hiao, hbms, hbo, hdo]

/-- The bytes of the image file after `createVirtualDisk` when the block count is within
`int`: the record, then zeros up to the end of the bitmap, and the zero byte at `pos`. -/
theorem createImage_bytes (stack diskName : List Nat) (diskSize blockSize : Nat)
    (sb : SuperBlockC) (bsz : Nat)
    (hsb : createSuperBlock SIZEOF_SUPERBLOCK SIZEOF_INODE stack diskName diskSize blockSize =
      some sb)
    (h1 : sb.inodeAreaOffset = 72) (h2 : sb.bitmapOffset = 7240)
    (h3 : sb.bitmapSize = ((bsz : Nat) : Int)) :
    ∃ file pos, createImage stack diskName diskSize blockSize = some file ∧
      pos = (if (diskSize + SIZE_MOD - 1) % SIZE_MOD < 2 ^ 63
        then (diskSize + SIZE_MOD - 1) % SIZE_MOD else 7240 + bsz) ∧
      ∀ p, file p =
        if p = pos then 0
        else if 72 ≤ p then 0
        else (superBlockBytes sb).getD p 0 := by
  refine ⟨_, _, by simp only [createImage, hsb]; rw [if_neg (by rw [h3]; omega)], rfl, ?_⟩
  intro p
  simp only [writeAt, h1, h2, h3, Int.toNat_ofNat, List.length_replicate, List.length_cons,
    List.length_nil, SIZEOF_INODE, MAX_FILES]
  have e1 : (72 : Int).toNat = 72 := rfl
  have e2 : (7240 : Int).toNat = 7240 := rfl
  rw [e1, e2]
  by_cases hp : p = (if (diskSize + SIZE_MOD - 1) % SIZE_MOD < 2 ^ 63
        then (diskSize + SIZE_MOD - 1) % SIZE_MOD else 7240 + bsz)
  · rw [if_pos hp, if_pos ⟨by omega, by omega⟩]
    simp [List.getD_eq_getElem?_getD, hp]
  · rw [if_neg hp, if_neg (by omega)]
    by_cases h72 : 72 ≤ p
    · rw [if_pos h72]
      by_cases hb : 7240 ≤ p ∧ p < 7240 + bsz
      · rw [if_pos hb]
        simp only [List.getD_eq_getElem?_getD, List.getElem?_replicate]
        split <;> rfl
      · rw [if_neg hb]
        by_cases hi : 72 ≤ p ∧ p < 72 + 64 * 112
        · rw [if_pos hi]
          simp only [List.getD_eq_getElem?_getD, List.getElem?_replicate]
          split <;> rfl
        · rw [if_neg hi]
          by_cases h0 : 0 ≤ p ∧ p < 0 + (superBlockBytes sb).length
          · rw [if_pos h0]
            exfalso
            have hl : (superBlockBytes sb).length ≤ 72 := by
              simp only [superBlockBytes, List.length_append, List.length_take,
                leBytes_length, int32Bytes_length]
              omega
            omega
          · rw [if_neg h0]
    · rw [if_neg h72, if_neg (by omega), if_neg (by omega)]
      by_cases h0 : 0 ≤ p ∧ p < 0 + (superBlockBytes sb).length
      · rw [if_pos h0]; rfl
      · rw [if_neg h0, List.getD_eq_getElem?_getD, List.getElem?_eq_none (by omega)]
        rfl

/-- Round trip of creation where the zero byte of `createVirtualDisk` falls behind the
superblock (`diskSize` 0 or above 72): the record read back from the image file is the
record computed, with the name given, and every byte of the inode area and of the bitmap
is 0, so every slot is unused and every bit is clear. -/
theorem createImage_round_trip (stack diskName : List Nat) (diskSize blockSize : Nat)
    (hstack : stack.length = 32) (hname : diskName.length < 32)
    (hchars : ∀ c ∈ diskName, c ≠ 0) (hbs : 0 < blockSize) (hbs2 : blockSize < 2 ^ 64)
    (hds : diskSize < 2 ^ 64) (hfit : diskSize / blockSize + 7 < 2 ^ 31)
    (hsent : diskSize = 0 ∨ 72 < diskSize) :
    ∃ sb file,
      createSuperBlock SIZEOF_SUPERBLOCK SIZEOF_INODE stack diskName diskSize blockSize =
        some sb ∧
      createImage stack diskName diskSize blockSize = some file ∧
      readSuperBlock file = sb ∧ cString sb.diskName = diskName ∧
      ∀ p, SIZEOF_SUPERBLOCK ≤ p → p < sb.dataAreaOffset.toNat → file p = 0 := by
  have hsb := createSuperBlock_of_fits SIZEOF_SUPERBLOCK SIZEOF_INODE stack diskName diskSize
    blockSize hbs hfit (by decide)
  generalize diskSize / blockSize = q at hsb hfit
  obtain ⟨file, pos, himg, hpos, hfile⟩ := createImage_bytes stack diskName diskSize blockSize _
    ((q + 7) / 8) hsb rfl rfl rfl
  have hpos72 : 72 ≤ pos := by
    rw [hpos]
    simp only [SIZE_MOD]
    split <;> omega
  refine ⟨_, file, hsb, himg, ?_, cString_strcpy _ _ hchars, ?_⟩
  · have hlen := superBlockBytes_length
      { diskName := strcpy stack diskName, diskSize := diskSize, blockSize := blockSize,
        blocksCount := ((q : Nat) : Int),
        inodeAreaSize := ((64 * SIZEOF_INODE : Nat) : Int),
        inodeAreaOffset := ((SIZEOF_SUPERBLOCK : Nat) : Int),
        bitmapSize := (((q + 7) / 8 : Nat) : Int),
        bitmapOffset := ((SIZEOF_SUPERBLOCK + 64 * SIZEOF_INODE : Nat) : Int),
        dataAreaOffset :=
          ((SIZEOF_SUPERBLOCK + 64 * SIZEOF_INODE + (q + 7) / 8 : Nat) :
            Int) }
      (strcpy_length _ _ hstack hname)
    have hrt := superBlockOfBytes_superBlockBytes
      { diskName := strcpy stack diskName, diskSize := diskSize, blockSize := blockSize,
        blocksCount := ((q : Nat) : Int),
        inodeAreaSize := ((64 * SIZEOF_INODE : Nat) : Int),
        inodeAreaOffset := ((SIZEOF_SUPERBLOCK : Nat) : Int),
        bitmapSize := (((q + 7) / 8 : Nat) : Int),
        bitmapOffset := ((SIZEOF_SUPERBLOCK + 64 * SIZEOF_INODE : Nat) : Int),
        dataAreaOffset :=
          ((SIZEOF_SUPERBLOCK + 64 * SIZEOF_INODE + (q + 7) / 8 : Nat) :
            Int) }
      (strcpy_length _ _ hstack hname) hds hbs2
      (by simp only [SIZEOF_INODE, SIZEOF_SUPERBLOCK]; omega)
      (by simp only [SIZEOF_INODE, SIZEOF_SUPERBLOCK]; omega)
      (by simp only [SIZEOF_INODE, SIZEOF_SUPERBLOCK]; omega)
      (by simp only [SIZEOF_INODE, SIZEOF_SUPERBLOCK]; omega)
      (by simp only [SIZEOF_INODE, SIZEOF_SUPERBLOCK]; omega)
      (by simp only [SIZEOF_INODE, SIZEOF_SUPERBLOCK]; omega)
    unfold readSuperBlock
    rw [← hrt]
    congr 1
    apply List.ext_getElem
    · rw [readAt_length, hlen]
    · intro n h1 h2
      rw [readAt_length] at h1
      have hn : n < 72 := h1
      simp only [readAt, List.getElem_map, List.getElem_range, Nat.zero_add]
      rw [hfile n, if_neg (by omega), if_neg (by omega)]
      simp only [List.getD_eq_getElem?_getD, List.getElem?_eq_getElem h2, Option.getD_some]
  · intro p hp1 _
    have hp : 72 ≤ p := hp1
    rw [hfile p]
    split
    · rfl
    · rfl

/-! ## The data area and the disk size -/

/-- Function `addNewFile` leaves the superblock as it is. -/
theorem addNewFile_sb (d : Disk) (name : List Nat) (size : Nat) (ow : Bool) (hwf : WF d) :
    (addNewFile d name size ow).disk.sb = d.sb := by
  rcases addNewFile_cases d name size ow with ⟨_, h⟩ | ⟨hok, _⟩
  · rw [h]
  · obtain ⟨hn, hr, hfr, idx, hidx, hs⟩ := addNewFile_added_inv d name size ow hwf hok
    exact ((addNewFile_of_slot d name size ow idx hwf hn hs hidx hr).2 hfr).2.1

theorem removeFile_sb (d : Disk) (name : List Nat) : (removeFile d name).2.sb = d.sb := by
  unfold removeFile
  cases findFile d.inodes name MAX_FILES 0 <;> rfl

/-- The blocks of a superblock with `blocksCount * blockSize ≤ diskSize` lie within
`diskSize` bytes from `dataAreaOffset`. -/
theorem blockOffset_within (sb : SuperBlock) (b : Nat)
    (hext : sb.blocksCount * sb.blockSize ≤ sb.diskSize) (hb : b < sb.blocksCount) :
    sb.dataAreaOffset ≤ blockOffset sb b ∧
    blockOffset sb b + sb.blockSize ≤ sb.dataAreaOffset + sb.diskSize := by
  unfold blockOffset
  have h1 : (b + 1) * sb.blockSize ≤ sb.blocksCount * sb.blockSize :=
    Nat.mul_le_mul_right _ hb
  rw [Nat.add_mul, Nat.one_mul] at h1
  omega

/-- In every reachable image the data area of `blocksCount` blocks has at most `diskSize`
bytes, and every block listed by a used inode lies within `diskSize` bytes from
`dataAreaOffset`. -/
theorem Reachable.data_area {d : Disk} (h : Reachable d) :
    d.sb.blocksCount * d.sb.blockSize ≤ d.sb.diskSize ∧
    ∀ i b, Pos d.inodes i b →
      d.sb.dataAreaOffset ≤ blockOffset d.sb (blockAt d.inodes i b) ∧
      blockOffset d.sb (blockAt d.inodes i b) + d.sb.blockSize ≤
        d.sb.dataAreaOffset + d.sb.diskSize := by
  have hext : d.sb.blocksCount * d.sb.blockSize ≤ d.sb.diskSize := by
    induction h with
    | create nm ds bs hname hpos hlt hsize hsent hfit => exact Nat.div_mul_le_self ds bs
    | add d name size ow hd ih => rw [addNewFile_sb d name size ow hd.inv.1]; exact ih
    | remove d name hd ih => rw [removeFile_sb]; exact ih
    | defrag d hd ih => exact ih
  exact ⟨hext, fun i b hp => blockOffset_within d.sb _ hext (h.inv.2.bounds i b hp)⟩

/-! ## Reads and writes on a file of a given length -/

theorem freadAt_length (data : Nat → Nat) (fileLen offset n : Nat) :
    (freadAt data fileLen offset n).length = min n (fileLen - offset) := by
  simp [freadAt, readAt]

theorem freadAt_in_file (data : Nat → Nat) (fileLen offset n : Nat)
    (h : offset + n ≤ fileLen) : freadAt data fileLen offset n = readAt data offset n := by
  unfold freadAt
  rw [Nat.min_eq_left (by omega)]

theorem freadInto_length (data : Nat → Nat) (fileLen offset n : Nat) (buf : List Nat)
    (hbuf : buf.length = n) : (freadInto data fileLen offset n buf).length = n := by
  simp only [freadInto, List.length_append, List.length_drop, freadAt_length, hbuf]
  omega

theorem freadInto_in_file (data : Nat → Nat) (fileLen offset n : Nat) (buf : List Nat)
    (hbuf : buf.length = n) (h : offset + n ≤ fileLen) :
    freadInto data fileLen offset n buf = readAt data offset n := by
  unfold freadInto
  rw [freadAt_in_file _ _ _ _ h, readAt_length, List.drop_of_length_le (by omega),
    List.append_nil]

theorem fwriteAt_fileLen (data : Nat → Nat) (fileLen offset : Nat) (bytes : List Nat) :
    (fwriteAt data fileLen offset bytes).2 = fileLenAfterWrite fileLen offset bytes.length := by
  unfold fwriteAt
  split
  · rename_i h; simp [fileLenAfterWrite, h]
  · rfl

theorem le_fileLenAfterWrite (fileLen offset n : Nat) :
    fileLen ≤ fileLenAfterWrite fileLen offset n := by
  unfold fileLenAfterWrite
  split
  · exact Nat.le_refl _
  · exact Nat.le_max_left _ _

/-- A write on a file whose bytes behind the end are 0 in the embedding is the write of
the embedding, and the bytes behind the new end are 0 again. -/
theorem fwriteAt_eq_writeAt (data : Nat → Nat) (fileLen offset : Nat) (bytes : List Nat)
    (hz : ZeroBeyond data fileLen) :
    (fwriteAt data fileLen offset bytes).1 = writeAt data offset bytes ∧
    ZeroBeyond (fwriteAt data fileLen offset bytes).1 (fwriteAt data fileLen offset bytes).2 := by
  unfold fwriteAt
  by_cases h0 : bytes.length = 0
  · rw [if_pos h0]
    refine ⟨?_, hz⟩
    funext p
    unfold writeAt
    rw [if_neg (by omega)]
  · rw [if_neg h0]
    constructor
    · funext p
      unfold writeAt
      show (if offset ≤ p ∧ p < offset + bytes.length then bytes.getD (p - offset) 0
        else if fileLen ≤ p ∧ p < offset then 0 else data p) = _
      by_cases h1 : offset ≤ p ∧ p < offset + bytes.length
      · rw [if_pos h1, if_pos h1]
      · rw [if_neg h1, if_neg h1]
        by_cases h2 : fileLen ≤ p ∧ p < offset
        · rw [if_pos h2, hz p h2.1]
        · rw [if_neg h2]
    · intro p hp
      show (if offset ≤ p ∧ p < offset + bytes.length then bytes.getD (p - offset) 0
        else if fileLen ≤ p ∧ p < offset then 0 else data p) = 0
      have hp' : max fileLen (offset + bytes.length) ≤ p := by
        have : fileLenAfterWrite fileLen offset bytes.length =
            max fileLen (offset + bytes.length) := by
          simp [fileLenAfterWrite, h0]
        rw [← this]; exact hp
      rw [if_neg (by omega)]
      split
      · rfl
      · exact hz p (by omega)

theorem fileLenAfterWrite_in_file (fileLen offset n : Nat) (h : offset + n ≤ fileLen) :
    fileLenAfterWrite fileLen offset n = fileLen := by
  unfold fileLenAfterWrite
  split
  · rfl
  · exact Nat.max_eq_left h

/-! ## Defragmentation on a file whose listed blocks lie inside it -/

theorem freshBuffer_length (heap : Nat → Nat → Nat) (k n : Nat) :
    (freshBuffer heap k n).length = n := by
  simp [freshBuffer]

/-- An entry of the table after `inodes[i].blockIndex[b] = v` is `v` or the entry of
before. -/
theorem blockAt_setBlockAt_cases (ins : List Inode) (i b v i' b' : Nat) :
    blockAt (setBlockAt ins i b v) i' b' = v ∨
    blockAt (setBlockAt ins i b v) i' b' = blockAt ins i' b' := by
  by_cases hi : i < ins.length
  · by_cases hb : b < (inodeAt ins i).blockIndex.length
    · rw [blockAt_setBlockAt _ _ _ _ _ _ hi hb]
      split
      · exact Or.inl rfl
      · exact Or.inr rfl
    · right
      unfold blockAt
      by_cases h : i = i'
      · subst h
        rw [inodeAt_setBlockAt_same _ _ _ _ hi]
        show ((inodeAt ins i).blockIndex.set b v).getD b' 0 = _
        rw [List.set_eq_of_length_le (by omega)]
      · rw [inodeAt_setBlockAt_other _ _ _ _ _ h]
  · right
    have : setBlockAt ins i b v = ins := by
      unfold setBlockAt; exact List.set_eq_of_length_le (by omega)
    rw [this]

theorem InFile.mono {sb : SuperBlock} {ins : List Inode} {n m : Nat} (h : InFile sb ins n)
    (hle : n ≤ m) : InFile sb ins m :=
  fun x hx => Nat.le_trans (h x hx) hle

theorem InFile.setBlockAt {sb : SuperBlock} {ins : List Inode} {n : Nat} (h : InFile sb ins n)
    (i b v : Nat) (hv : blockOffset sb v + sb.blockSize ≤ n) :
    InFile sb (setBlockAt ins i b v) n := by
  intro x hx
  obtain ⟨i', b', hp, he⟩ := (mem_scanOrder _ _).mp hx
  have hp' : Pos ins i' b' := ((setBlockAt_sameShape ins i b v).pos i' b').mp hp
  rcases blockAt_setBlockAt_cases ins i b v i' b' with h1 | h1
  · rw [← he, h1]; exact hv
  · rw [← he, h1]
    exact h _ ((mem_scanOrder _ _).mpr ⟨i', b', hp', rfl⟩)

theorem InFile.of_pos {sb : SuperBlock} {ins : List Inode} {n : Nat} (h : InFile sb ins n)
    (i b : Nat) (hp : Pos ins i b) : blockOffset sb (blockAt ins i b) + sb.blockSize ≤ n :=
  h _ ((mem_scanOrder _ _).mpr ⟨i, b, hp, rfl⟩)

/-- The body of the swap with both blocks inside the file is the swap of the embedding,
and the file keeps its length. -/
theorem swapWithOnFile_exact (sb : SuperBlock) (heap : Nat → Nat → Nat) (cur i b k kk : Nat)
    (fs : DefragFileState) (hok : FileOk sb fs)
    (hcur : blockOffset sb cur + sb.blockSize ≤ fs.fileLen)
    (hnext : blockOffset sb fs.nextFreeBlock + sb.blockSize ≤ fs.fileLen) :
    (swapWithOnFile sb heap cur i b k kk fs).toState = swapWith sb cur i b k kk fs.toState ∧
    (swapWithOnFile sb heap cur i b k kk fs).fileLen = fs.fileLen ∧
    SameShape (swapWithOnFile sb heap cur i b k kk fs).inodes fs.inodes ∧
    FileOk sb (swapWithOnFile sb heap cur i b k kk fs) := by
  have ht : freadInto fs.data fs.fileLen (blockOffset sb cur) sb.blockSize fs.tempBlock =
      readAt fs.data (blockOffset sb cur) sb.blockSize :=
    freadInto_in_file _ _ _ _ _ hok.temp hcur
  have hs : freadInto fs.data fs.fileLen (blockOffset sb fs.nextFreeBlock) sb.blockSize
      (freshBuffer heap fs.mallocs sb.blockSize) =
      readAt fs.data (blockOffset sb fs.nextFreeBlock) sb.blockSize :=
    freadInto_in_file _ _ _ _ _ (freshBuffer_length _ _ _) hnext
  obtain ⟨w1d, w1z⟩ := fwriteAt_eq_writeAt fs.data fs.fileLen (blockOffset sb cur)
    (readAt fs.data (blockOffset sb fs.nextFreeBlock) sb.blockSize) hok.zero
  have w1l : (fwriteAt fs.data fs.fileLen (blockOffset sb cur)
      (readAt fs.data (blockOffset sb fs.nextFreeBlock) sb.blockSize)).2 = fs.fileLen := by
    rw [fwriteAt_fileLen, readAt_length]; exact fileLenAfterWrite_in_file _ _ _ hcur
  rw [w1l] at w1z
  obtain ⟨w2d, w2z⟩ := fwriteAt_eq_writeAt _ fs.fileLen (blockOffset sb fs.nextFreeBlock)
    (readAt fs.data (blockOffset sb cur) sb.blockSize) w1z
  have w2l : (fwriteAt (fwriteAt fs.data fs.fileLen (blockOffset sb cur)
      (readAt fs.data (blockOffset sb fs.nextFreeBlock) sb.blockSize)).1 fs.fileLen
      (blockOffset sb fs.nextFreeBlock) (readAt fs.data (blockOffset sb cur) sb.blockSize)).2 =
      fs.fileLen := by
    rw [fwriteAt_fileLen, readAt_length]; exact fileLenAfterWrite_in_file _ _ _ hnext
  have hdata : (swapWithOnFile sb heap cur i b k kk fs).data =
      swapData sb fs.data cur fs.nextFreeBlock := by
    show (fwriteAt (fwriteAt fs.data fs.fileLen (blockOffset sb cur) _).1
      (fwriteAt fs.data fs.fileLen (blockOffset sb cur) _).2 _ _).1 = _
    rw [ht, hs, w1l, w2d, w1d]
    rfl
  have hlen : (swapWithOnFile sb heap cur i b k kk fs).fileLen = fs.fileLen := by
    show (fwriteAt (fwriteAt fs.data fs.fileLen (blockOffset sb cur) _).1
      (fwriteAt fs.data fs.fileLen (blockOffset sb cur) _).2 _ _).2 = _
    rw [ht, hs, w1l, w2l]
  refine ⟨?_, hlen, swapWith_sameShape sb cur i b k kk fs.toState, ?_, ?_, ?_⟩
  · show ({ inodes := (swapWithOnFile sb heap cur i b k kk fs).inodes,
            bitmap := fs.bitmap,
            data := (swapWithOnFile sb heap cur i b k kk fs).data,
            nextFreeBlock := fs.nextFreeBlock } : DefragState) = _
    rw [hdata]
    rfl
  · rw [hlen]
    exact (hok.inFile.setBlockAt k kk cur hcur).setBlockAt i b fs.nextFreeBlock hnext
  · rw [hlen]
    show ZeroBeyond (fwriteAt (fwriteAt fs.data fs.fileLen (blockOffset sb cur) _).1
      (fwriteAt fs.data fs.fileLen (blockOffset sb cur) _).2 _ _).1 _
    rw [ht, hs, w1l]
    rw [w2l] at w2z
    exact w2z
  · show (freadInto fs.data fs.fileLen (blockOffset sb cur) sb.blockSize fs.tempBlock).length = _
    exact freadInto_length _ _ _ _ _ hok.temp

theorem swapSearchBlocksOnFile_exact (sb : SuperBlock) (heap : Nat → Nat → Nat)
    (cur i b k : Nat) (hk : k < MAX_FILES) (fuel kk : Nat) (fs : DefragFileState)
    (hu : (inodeAt fs.inodes k).isUsed = true) (hok : FileOk sb fs)
    (hcur : blockOffset sb cur + sb.blockSize ≤ fs.fileLen) :
    (swapSearchBlocksOnFile sb heap cur i b k fuel kk fs).toState =
      swapSearchBlocks sb cur i b k fuel kk fs.toState ∧
    (swapSearchBlocksOnFile sb heap cur i b k fuel kk fs).fileLen = fs.fileLen ∧
    SameShape (swapSearchBlocksOnFile sb heap cur i b k fuel kk fs).inodes fs.inodes ∧
    FileOk sb (swapSearchBlocksOnFile sb heap cur i b k fuel kk fs) := by
  induction fuel generalizing kk with
  | zero => exact ⟨rfl, rfl, SameShape.refl _, hok⟩
  | succ f ih =>
    simp only [swapSearchBlocksOnFile, swapSearchBlocks]
    show (if kk < (inodeAt fs.inodes k).blocksAllocated then _ else _ : DefragFileState).toState =
        (if kk < (inodeAt fs.inodes k).blocksAllocated then
          (if blockAt fs.inodes k kk = fs.nextFreeBlock then _ else _) else _) ∧ _
    by_cases hlt : kk < (inodeAt fs.inodes k).blocksAllocated
    · rw [if_pos hlt, if_pos hlt]
      by_cases hm : blockAt fs.inodes k kk = fs.nextFreeBlock
      · rw [if_pos hm, if_pos hm]
        have hnext : blockOffset sb fs.nextFreeBlock + sb.blockSize ≤ fs.fileLen := by
          rw [← hm]; exact hok.inFile.of_pos k kk ⟨hk, hu, hlt⟩
        exact swapWithOnFile_exact sb heap cur i b k kk fs hok hcur hnext
      · rw [if_neg hm, if_neg hm]
        exact ih (kk + 1)
    · rw [if_neg hlt, if_neg hlt]
      exact ⟨rfl, rfl, SameShape.refl _, hok⟩

theorem swapSearchFilesOnFile_exact (sb : SuperBlock) (heap : Nat → Nat → Nat)
    (cur i b : Nat) (fuel k : Nat) (fs : DefragFileState) (hk : k + fuel ≤ MAX_FILES)
    (hok : FileOk sb fs) (hcur : blockOffset sb cur + sb.blockSize ≤ fs.fileLen) :
    (swapSearchFilesOnFile sb heap cur i b fuel k fs).toState =
      swapSearchFiles sb cur i b fuel k fs.toState ∧
    (swapSearchFilesOnFile sb heap cur i b fuel k fs).fileLen = fs.fileLen ∧
    SameShape (swapSearchFilesOnFile sb heap cur i b fuel k fs).inodes fs.inodes ∧
    FileOk sb (swapSearchFilesOnFile sb heap cur i b fuel k fs) := by
  induction fuel generalizing k fs with
  | zero => exact ⟨rfl, rfl, SameShape.refl _, hok⟩
  | succ f ih =>
    simp only [swapSearchFilesOnFile, swapSearchFiles]
    show (if (inodeAt fs.inodes k).isUsed = false then _ else _ : DefragFileState).toState =
        (if (inodeAt fs.inodes k).isUsed = false then _ else
          swapSearchFiles sb cur i b f (k + 1)
            (swapSearchBlocks sb cur i b k (inodeAt fs.inodes k).blocksAllocated 0 fs.toState)) ∧ _
    by_cases hu : (inodeAt fs.inodes k).isUsed = false
    · rw [if_pos hu, if_pos hu]
      exact ih (k + 1) fs (by omega) hok hcur
    · rw [if_neg hu, if_neg hu]
      have hu' : (inodeAt fs.inodes k).isUsed = true := by simpa using hu
      obtain ⟨h1, h2, h3, h4⟩ := swapSearchBlocksOnFile_exact sb heap cur i b k (by omega)
        (inodeAt fs.inodes k).blocksAllocated 0 fs hu' hok hcur
      obtain ⟨r1, r2, r3, r4⟩ := ih (k + 1) _ (by omega) h4 (by rw [h2]; exact hcur)
      rw [h1] at r1
      exact ⟨r1, r2.trans h2, r3.trans h3, r4⟩

theorem moveBlockOnFile_exact (sb : SuperBlock) (cur i b : Nat) (fs : DefragFileState)
    (hbs : 0 < sb.blockSize) (hok : FileOk sb fs)
    (hcur : blockOffset sb cur + sb.blockSize ≤ fs.fileLen) :
    (moveBlockOnFile sb cur i b fs).toState = moveBlock sb cur i b fs.toState ∧
    fs.fileLen ≤ (moveBlockOnFile sb cur i b fs).fileLen ∧
    SameShape (moveBlockOnFile sb cur i b fs).inodes fs.inodes ∧
    FileOk sb (moveBlockOnFile sb cur i b fs) := by
  have ht : freadInto fs.data fs.fileLen (blockOffset sb cur) sb.blockSize fs.tempBlock =
      readAt fs.data (blockOffset sb cur) sb.blockSize :=
    freadInto_in_file _ _ _ _ _ hok.temp hcur
  obtain ⟨wd, wz⟩ := fwriteAt_eq_writeAt fs.data fs.fileLen (blockOffset sb fs.nextFreeBlock)
    (readAt fs.data (blockOffset sb cur) sb.blockSize) hok.zero
  have hdata : (moveBlockOnFile sb cur i b fs).data =
      writeAt fs.data (blockOffset sb fs.nextFreeBlock)
        (readAt fs.data (blockOffset sb cur) sb.blockSize) := by
    show (fwriteAt fs.data fs.fileLen _ _).1 = _
    rw [ht, wd]
  have hlen : (moveBlockOnFile sb cur i b fs).fileLen =
      fileLenAfterWrite fs.fileLen (blockOffset sb fs.nextFreeBlock) sb.blockSize := by
    show (fwriteAt fs.data fs.fileLen _ _).2 = _
    rw [ht, fwriteAt_fileLen, readAt_length]
  have hge : blockOffset sb fs.nextFreeBlock + sb.blockSize ≤
      fileLenAfterWrite fs.fileLen (blockOffset sb fs.nextFreeBlock) sb.blockSize := by
    unfold fileLenAfterWrite
    rw [if_neg (by omega)]
    exact Nat.le_max_right _ _
  refine ⟨?_, by rw [hlen]; exact le_fileLenAfterWrite _ _ _,
    setBlockAt_sameShape _ _ _ _, ?_, ?_, ?_⟩
  · show ({ inodes := setBlockAt fs.inodes i b fs.nextFreeBlock,
            bitmap := setBlockUsed (setBlockUsed fs.bitmap cur false) fs.nextFreeBlock true,
            data := (moveBlockOnFile sb cur i b fs).data,
            nextFreeBlock := fs.nextFreeBlock } : DefragState) = _
    rw [hdata]
    rfl
  · rw [hlen]
    exact (hok.inFile.mono (le_fileLenAfterWrite _ _ _)).setBlockAt i b fs.nextFreeBlock hge
  · rw [hlen]
    show ZeroBeyond (fwriteAt fs.data fs.fileLen _ _).1 _
    rw [ht]
    rw [fwriteAt_fileLen, readAt_length] at wz
    exact wz
  · show (freadInto fs.data fs.fileLen (blockOffset sb cur) sb.blockSize fs.tempBlock).length = _
    exact freadInto_length _ _ _ _ _ hok.temp

/-- One visit of the scan on a file whose listed blocks lie inside it is the visit of the
embedding. -/
theorem defragStepOnFile_exact (sb : SuperBlock) (heap : Nat → Nat → Nat) (i b : Nat)
    (fs : DefragFileState) (hbs : 0 < sb.blockSize) (hok : FileOk sb fs)
    (hpos : Pos fs.inodes i b) :
    (defragStepOnFile sb heap i b fs).toState = defragStep sb i b fs.toState ∧
    fs.fileLen ≤ (defragStepOnFile sb heap i b fs).fileLen ∧
    SameShape (defragStepOnFile sb heap i b fs).inodes fs.inodes ∧
    FileOk sb (defragStepOnFile sb heap i b fs) := by
  have hcur := hok.inFile.of_pos i b hpos
  by_cases hcn : blockAt fs.inodes i b ≠ fs.nextFreeBlock
  · by_cases hused : isBlockUsed fs.bitmap fs.nextFreeBlock = true
    · obtain ⟨h1, h2, h3, h4⟩ := swapSearchFilesOnFile_exact sb heap (blockAt fs.inodes i b) i b
        MAX_FILES 0 fs (by omega) hok hcur
      have e1 : defragStepOnFile sb heap i b fs =
          { swapSearchFilesOnFile sb heap (blockAt fs.inodes i b) i b MAX_FILES 0 fs with
            nextFreeBlock :=
              (swapSearchFilesOnFile sb heap (blockAt fs.inodes i b) i b MAX_FILES 0
                fs).nextFreeBlock + 1 } := by
        unfold defragStepOnFile
        simp only [hcn, hused, if_true, ne_eq, not_false_eq_true]
      have e2 : defragStep sb i b fs.toState =
          { swapSearchFiles sb (blockAt fs.inodes i b) i b MAX_FILES 0 fs.toState with
            nextFreeBlock :=
              (swapSearchFiles sb (blockAt fs.inodes i b) i b MAX_FILES 0
                fs.toState).nextFreeBlock + 1 } := by
        have hcn2 : blockAt fs.toState.inodes i b ≠ fs.toState.nextFreeBlock := hcn
        have hused2 : isBlockUsed fs.toState.bitmap fs.toState.nextFreeBlock = true := hused
        unfold defragStep
        simp only [hcn2, hused2, if_true, ne_eq, not_false_eq_true]
        rfl
      rw [e1, e2, ← h1]
      exact ⟨rfl, Nat.le_of_eq h2.symm, h3, ⟨h4.inFile, h4.zero, h4.temp⟩⟩
    · obtain ⟨h1, h2, h3, h4⟩ := moveBlockOnFile_exact sb (blockAt fs.inodes i b) i b fs hbs
        hok hcur
      have e1 : defragStepOnFile sb heap i b fs =
          { moveBlockOnFile sb (blockAt fs.inodes i b) i b fs with
            nextFreeBlock := (moveBlockOnFile sb (blockAt fs.inodes i b) i b fs).nextFreeBlock + 1 } := by
        unfold defragStepOnFile
        simp only [hcn, hused, if_true, ne_eq, not_false_eq_true]
        rfl
      have e2 : defragStep sb i b fs.toState =
          { moveBlock sb (blockAt fs.inodes i b) i b fs.toState with
            nextFreeBlock := (moveBlock sb (blockAt fs.inodes i b) i b fs.toState).nextFreeBlock + 1 } := by
        have hcn2 : blockAt fs.toState.inodes i b ≠ fs.toState.nextFreeBlock := hcn
        have hused2 : ¬ isBlockUsed fs.toState.bitmap fs.toState.nextFreeBlock = true := hused
        unfold defragStep
        simp only [hcn2, hused2, if_true, ne_eq, not_false_eq_true]
        rfl
      rw [e1, e2, ← h1]
      exact ⟨rfl, h2, h3, ⟨h4.inFile, h4.zero, h4.temp⟩⟩
  · have e1 : defragStepOnFile sb heap i b fs =
        { fs with nextFreeBlock := fs.nextFreeBlock + 1 } := by
      unfold defragStepOnFile
      simp only [hcn, if_false]
    have e2 : defragStep sb i b fs.toState =
        { fs.toState with nextFreeBlock := fs.toState.nextFreeBlock + 1 } := by
      have hcn2 : ¬ blockAt fs.toState.inodes i b ≠ fs.toState.nextFreeBlock := hcn
      unfold defragStep
      simp only [hcn2, if_false]
    rw [e1, e2]
    exact ⟨rfl, Nat.le_refl _, SameShape.refl _, ⟨hok.inFile, hok.zero, hok.temp⟩⟩

theorem defragBlocksOnFile_exact (sb : SuperBlock) (heap : Nat → Nat → Nat) (i : Nat)
    (hi : i < MAX_FILES) (hbs : 0 < sb.blockSize) (fuel b : Nat) (fs : DefragFileState)
    (hu : (inodeAt fs.inodes i).isUsed = true) (hok : FileOk sb fs) :
    (defragBlocksOnFile sb heap i fuel b fs).toState = defragBlocks sb i fuel b fs.toState ∧
    fs.fileLen ≤ (defragBlocksOnFile sb heap i fuel b fs).fileLen ∧
    SameShape (defragBlocksOnFile sb heap i fuel b fs).inodes fs.inodes ∧
    FileOk sb (defragBlocksOnFile sb heap i fuel b fs) := by
  induction fuel generalizing b fs with
  | zero => exact ⟨rfl, Nat.le_refl _, SameShape.refl _, hok⟩
  | succ f ih =>
    by_cases hlt : b < (inodeAt fs.inodes i).blocksAllocated
    · have e1 : defragBlocksOnFile sb heap i (f + 1) b fs =
          defragBlocksOnFile sb heap i f (b + 1) (defragStepOnFile sb heap i b fs) := by
        simp only [defragBlocksOnFile, hlt, if_true]
      have hlt2 : b < (inodeAt fs.toState.inodes i).blocksAllocated := hlt
      have e2 : defragBlocks sb i (f + 1) b fs.toState =
          defragBlocks sb i f (b + 1) (defragStep sb i b fs.toState) := by
        simp only [defragBlocks, hlt2, if_true]
      obtain ⟨h1, h2, h3, h4⟩ := defragStepOnFile_exact sb heap i b fs hbs hok ⟨hi, hu, hlt⟩
      have hu' : (inodeAt (defragStepOnFile sb heap i b fs).inodes i).isUsed = true := by
        rw [(h3.2 i).1]; exact hu
      obtain ⟨r1, r2, r3, r4⟩ := ih (b + 1) _ hu' h4
      rw [e1, e2, ← h1]
      exact ⟨r1, Nat.le_trans h2 r2, r3.trans h3, r4⟩
    · have e1 : defragBlocksOnFile sb heap i (f + 1) b fs = fs := by
        simp only [defragBlocksOnFile, hlt, if_false]
      have hlt2 : ¬ b < (inodeAt fs.toState.inodes i).blocksAllocated := hlt
      have e2 : defragBlocks sb i (f + 1) b fs.toState = fs.toState := by
        simp only [defragBlocks, hlt2, if_false]
      rw [e1, e2]
      exact ⟨rfl, Nat.le_refl _, SameShape.refl _, hok⟩

theorem defragFilesOnFile_exact (sb : SuperBlock) (heap : Nat → Nat → Nat)
    (hbs : 0 < sb.blockSize) (fuel i : Nat) (fs : DefragFileState)
    (hi : i + fuel ≤ MAX_FILES) (hok : FileOk sb fs) :
    (defragFilesOnFile sb heap fuel i fs).toState = defragFiles sb fuel i fs.toState ∧
    fs.fileLen ≤ (defragFilesOnFile sb heap fuel i fs).fileLen ∧
    SameShape (defragFilesOnFile sb heap fuel i fs).inodes fs.inodes ∧
    FileOk sb (defragFilesOnFile sb heap fuel i fs) := by
  induction fuel generalizing i fs with
  | zero => exact ⟨rfl, Nat.le_refl _, SameShape.refl _, hok⟩
  | succ f ih =>
    by_cases hu : (inodeAt fs.inodes i).isUsed = false
    · have e1 : defragFilesOnFile sb heap (f + 1) i fs =
          defragFilesOnFile sb heap f (i + 1) fs := by
        simp only [defragFilesOnFile, hu, if_true]
      have hu2 : (inodeAt fs.toState.inodes i).isUsed = false := hu
      have e2 : defragFiles sb (f + 1) i fs.toState = defragFiles sb f (i + 1) fs.toState := by
        simp only [defragFiles, hu2, if_true]
      rw [e1, e2]
      exact ih (i + 1) fs (by omega) hok
    · have hu' : (inodeAt fs.inodes i).isUsed = true := by simpa using hu
      have e1 : defragFilesOnFile sb heap (f + 1) i fs =
          defragFilesOnFile sb heap f (i + 1)
            (defragBlocksOnFile sb heap i (inodeAt fs.inodes i).blocksAllocated 0 fs) := by
        show (if (inodeAt fs.inodes i).isUsed = false then _ else _) = _
        exact if_neg hu
      have hu2 : ¬ (inodeAt fs.toState.inodes i).isUsed = false := hu
      have e2 : defragFiles sb (f + 1) i fs.toState =
          defragFiles sb f (i + 1)
            (defragBlocks sb i (inodeAt fs.inodes i).blocksAllocated 0 fs.toState) := by
        show (if (inodeAt fs.toState.inodes i).isUsed = false then _ else _) = _
        exact if_neg hu2
      obtain ⟨h1, h2, h3, h4⟩ := defragBlocksOnFile_exact sb heap i (by omega) hbs
        (inodeAt fs.inodes i).blocksAllocated 0 fs hu' hok
      obtain ⟨r1, r2, r3, r4⟩ := ih (i + 1) _ (by omega) h4
      rw [e1, e2, ← h1]
      exact ⟨r1, Nat.le_trans h2 r2, r3.trans h3, r4⟩

/-- On a file that holds every listed block, with blocks of at least one byte,
`defragmentDisk` leaves the table, the bitmap and the bytes of the embedding
`defragmentDisk`, whatever the allocated buffers held. -/
theorem defragRunOnFile_exact (d : Disk) (fileLen : Nat) (heap : Nat → Nat → Nat)
    (hbs : 0 < d.sb.blockSize) (hin : InFile d.sb d.inodes fileLen)
    (hz : ZeroBeyond d.data fileLen) :
    (defragRunOnFile d fileLen heap).toState = defragRun d ∧
    fileLen ≤ (defragRunOnFile d fileLen heap).fileLen ∧
    FileOk d.sb (defragRunOnFile d fileLen heap) := by
  obtain ⟨h1, h2, _, h4⟩ := defragFilesOnFile_exact d.sb heap hbs MAX_FILES 0
    { inodes := d.inodes, bitmap := d.bitmap, data := d.data, fileLen := fileLen,
      nextFreeBlock := 0, tempBlock := freshBuffer heap 0 d.sb.blockSize, mallocs := 1 }
    (by omega) ⟨hin, hz, freshBuffer_length heap 0 d.sb.blockSize⟩
  exact ⟨h1, h2, h4⟩

theorem defragmentDiskOnFile_exact (d : Disk) (fileLen : Nat) (heap : Nat → Nat → Nat)
    (hbs : 0 < d.sb.blockSize) (hin : InFile d.sb d.inodes fileLen)
    (hz : ZeroBeyond d.data fileLen) :
    (defragmentDiskOnFile d fileLen heap).1 = defragmentDisk d ∧
    fileLen ≤ (defragmentDiskOnFile d fileLen heap).2 ∧
    InFile d.sb (defragmentDiskOnFile d fileLen heap).1.inodes
      (defragmentDiskOnFile d fileLen heap).2 ∧
    ZeroBeyond (defragmentDiskOnFile d fileLen heap).1.data
      (defragmentDiskOnFile d fileLen heap).2 := by
  obtain ⟨h1, h2, h3⟩ := defragRunOnFile_exact d fileLen heap hbs hin hz
  refine ⟨?_, h2, h3.inFile, h3.zero⟩
  have hi : (defragRunOnFile d fileLen heap).inodes = (defragRun d).inodes :=
    congrArg DefragState.inodes h1
  have hb : (defragRunOnFile d fileLen heap).bitmap = (defragRun d).bitmap :=
    congrArg DefragState.bitmap h1
  have hd : (defragRunOnFile d fileLen heap).data = (defragRun d).data :=
    congrArg DefragState.data h1
  unfold defragmentDiskOnFile defragmentDisk
  simp only [hi, hb, hd]

theorem freadInto_length_congr (data data' : Nat → Nat) (fileLen offset n : Nat)
    (buf buf' : List Nat) (h : buf.length = buf'.length) :
    (freadInto data fileLen offset n buf).length =
      (freadInto data' fileLen offset n buf').length := by
  simp only [freadInto, List.length_append, List.length_drop, freadAt_length, h]

theorem swapWithOnFile_sameLayout (sb : SuperBlock) (h1 h2 : Nat → Nat → Nat)
    (cur i b k kk : Nat) (fs fs' : DefragFileState) (h : SameLayout fs fs') :
    SameLayout (swapWithOnFile sb h1 cur i b k kk fs) (swapWithOnFile sb h2 cur i b k kk fs') := by
  obtain ⟨e1, e2, e3, e4, e5⟩ := h
  have ht := freadInto_length_congr fs.data fs'.data fs.fileLen (blockOffset sb cur)
    sb.blockSize fs.tempBlock fs'.tempBlock e5
  have hs := freadInto_length_congr fs.data fs'.data fs.fileLen
    (blockOffset sb fs.nextFreeBlock) sb.blockSize
    (freshBuffer h1 fs.mallocs sb.blockSize) (freshBuffer h2 fs'.mallocs sb.blockSize)
    (by rw [freshBuffer_length, freshBuffer_length])
  refine ⟨?_, e2, ?_, e4, ?_⟩
  · show setBlockAt (setBlockAt fs.inodes k kk cur) i b fs.nextFreeBlock =
      setBlockAt (setBlockAt fs'.inodes k kk cur) i b fs'.nextFreeBlock
    rw [e1, e4]
  · show (fwriteAt (fwriteAt fs.data fs.fileLen _ _).1 (fwriteAt fs.data fs.fileLen _ _).2 _ _).2 =
      (fwriteAt (fwriteAt fs'.data fs'.fileLen _ _).1 (fwriteAt fs'.data fs'.fileLen _ _).2 _ _).2
    rw [fwriteAt_fileLen, fwriteAt_fileLen, fwriteAt_fileLen, fwriteAt_fileLen, ← e3, ← e4,
      ht, hs]
  · show (freadInto fs.data fs.fileLen _ _ fs.tempBlock).length =
      (freadInto fs'.data fs'.fileLen _ _ fs'.tempBlock).length
    rw [← e3]
    exact ht

theorem swapSearchBlocksOnFile_sameLayout (sb : SuperBlock) (h1 h2 : Nat → Nat → Nat)
    (cur i b k fuel kk : Nat) (fs fs' : DefragFileState) (h : SameLayout fs fs') :
    SameLayout (swapSearchBlocksOnFile sb h1 cur i b k fuel kk fs)
      (swapSearchBlocksOnFile sb h2 cur i b k fuel kk fs') := by
  induction fuel generalizing kk with
  | zero => exact h
  | succ f ih =>
    show SameLayout
      (if kk < (inodeAt fs.inodes k).blocksAllocated then
        (if blockAt fs.inodes k kk = fs.nextFreeBlock then _ else _) else _)
      (if kk < (inodeAt fs'.inodes k).blocksAllocated then
        (if blockAt fs'.inodes k kk = fs'.nextFreeBlock then _ else _) else _)
    rw [← h.1, ← h.2.2.2.1]
    by_cases hlt : kk < (inodeAt fs.inodes k).blocksAllocated
    · rw [if_pos hlt, if_pos hlt]
      by_cases hm : blockAt fs.inodes k kk = fs.nextFreeBlock
      · rw [if_pos hm, if_pos hm]
        exact swapWithOnFile_sameLayout sb h1 h2 cur i b k kk fs fs' h
      · rw [if_neg hm, if_neg hm]
        exact ih (kk + 1)
    · rw [if_neg hlt, if_neg hlt]
      exact h

theorem swapSearchFilesOnFile_sameLayout (sb : SuperBlock) (h1 h2 : Nat → Nat → Nat)
    (cur i b fuel k : Nat) (fs fs' : DefragFileState) (h : SameLayout fs fs') :
    SameLayout (swapSearchFilesOnFile sb h1 cur i b fuel k fs)
      (swapSearchFilesOnFile sb h2 cur i b fuel k fs') := by
  induction fuel generalizing k fs fs' with
  | zero => exact h
  | succ f ih =>
    show SameLayout
      (if (inodeAt fs.inodes k).isUsed = false then _ else _)
      (if (inodeAt fs'.inodes k).isUsed = false then _ else
        swapSearchFilesOnFile sb h2 cur i b f (k + 1)
          (swapSearchBlocksOnFile sb h2 cur i b k (inodeAt fs'.inodes k).blocksAllocated 0 fs'))
    rw [← h.1]
    by_cases hu : (inodeAt fs.inodes k).isUsed = false
    · rw [if_pos hu, if_pos hu]
      exact ih (k + 1) fs fs' h
    · rw [if_neg hu, if_neg hu]
      exact ih (k + 1) _ _ (swapSearchBlocksOnFile_sameLayout sb h1 h2 cur i b k _ 0 fs fs' h)

theorem moveBlockOnFile_sameLayout (sb : SuperBlock) (cur i b : Nat)
    (fs fs' : DefragFileState) (h : SameLayout fs fs') :
    SameLayout (moveBlockOnFile sb cur i b fs) (moveBlockOnFile sb cur i b fs') := by
  obtain ⟨e1, e2, e3, e4, e5⟩ := h
  have ht := freadInto_length_congr fs.data fs'.data fs.fileLen (blockOffset sb cur)
    sb.blockSize fs.tempBlock fs'.tempBlock e5
  refine ⟨?_, ?_, ?_, e4, ?_⟩
  · show setBlockAt fs.inodes i b fs.nextFreeBlock = setBlockAt fs'.inodes i b fs'.nextFreeBlock
    rw [e1, e4]
  · show setBlockUsed (setBlockUsed fs.bitmap cur false) fs.nextFreeBlock true =
      setBlockUsed (setBlockUsed fs'.bitmap cur false) fs'.nextFreeBlock true
    rw [e2, e4]
  · show (fwriteAt fs.data fs.fileLen _ _).2 = (fwriteAt fs'.data fs'.fileLen _ _).2
    rw [fwriteAt_fileLen, fwriteAt_fileLen, ← e3, ← e4, ht]
  · show (freadInto fs.data fs.fileLen _ _ fs.tempBlock).length =
      (freadInto fs'.data fs'.fileLen _ _ fs'.tempBlock).length
    rw [← e3]
    exact ht

theorem SameLayout.advance {fs fs' : DefragFileState} (h : SameLayout fs fs') :
    SameLayout { fs with nextFreeBlock := fs.nextFreeBlock + 1 }
      { fs' with nextFreeBlock := fs'.nextFreeBlock + 1 } :=
  ⟨h.1, h.2.1, h.2.2.1, congrArg (· + 1) h.2.2.2.1, h.2.2.2.2⟩

theorem defragStepOnFile_sameLayout (sb : SuperBlock) (h1 h2 : Nat → Nat → Nat) (i b : Nat)
    (fs fs' : DefragFileState) (h : SameLayout fs fs') :
    SameLayout (defragStepOnFile sb h1 i b fs) (defragStepOnFile sb h2 i b fs') := by
  unfold defragStepOnFile
  apply SameLayout.advance
  show SameLayout
    (if blockAt fs.inodes i b ≠ fs.nextFreeBlock then
      (if isBlockUsed fs.bitmap fs.nextFreeBlock = true then _ else _) else _)
    (if blockAt fs'.inodes i b ≠ fs'.nextFreeBlock then
      (if isBlockUsed fs'.bitmap fs'.nextFreeBlock = true then
        swapSearchFilesOnFile sb h2 (blockAt fs'.inodes i b) i b MAX_FILES 0 fs'
      else moveBlockOnFile sb (blockAt fs'.inodes i b) i b fs') else fs')
  rw [← h.1, ← h.2.1, ← h.2.2.2.1]
  by_cases hcn : blockAt fs.inodes i b ≠ fs.nextFreeBlock
  · rw [if_pos hcn, if_pos hcn]
    by_cases hused : isBlockUsed fs.bitmap fs.nextFreeBlock = true
    · rw [if_pos hused, if_pos hused]
      exact swapSearchFilesOnFile_sameLayout sb h1 h2 _ i b MAX_FILES 0 fs fs' h
    · rw [if_neg hused, if_neg hused]
      exact moveBlockOnFile_sameLayout sb _ i b fs fs' h
  · rw [if_neg hcn, if_neg hcn]
    exact h

theorem defragBlocksOnFile_sameLayout (sb : SuperBlock) (h1 h2 : Nat → Nat → Nat)
    (i fuel b : Nat) (fs fs' : DefragFileState) (h : SameLayout fs fs') :
    SameLayout (defragBlocksOnFile sb h1 i fuel b fs) (defragBlocksOnFile sb h2 i fuel b fs') := by
  induction fuel generalizing b fs fs' with
  | zero => exact h
  | succ f ih =>
    show SameLayout
      (if b < (inodeAt fs.inodes i).blocksAllocated then _ else _)
      (if b < (inodeAt fs'.inodes i).blocksAllocated then
        defragBlocksOnFile sb h2 i f (b + 1) (defragStepOnFile sb h2 i b fs') else fs')
    rw [← h.1]
    by_cases hlt : b < (inodeAt fs.inodes i).blocksAllocated
    · rw [if_pos hlt, if_pos hlt]
      exact ih (b + 1) _ _ (defragStepOnFile_sameLayout sb h1 h2 i b fs fs' h)
    · rw [if_neg hlt, if_neg hlt]
      exact h

theorem defragFilesOnFile_sameLayout (sb : SuperBlock) (h1 h2 : Nat → Nat → Nat)
    (fuel i : Nat) (fs fs' : DefragFileState) (h : SameLayout fs fs') :
    SameLayout (defragFilesOnFile sb h1 fuel i fs) (defragFilesOnFile sb h2 fuel i fs') := by
  induction fuel generalizing i fs fs' with
  | zero => exact h
  | succ f ih =>
    show SameLayout
      (if (inodeAt fs.inodes i).isUsed = false then _ else _)
      (if (inodeAt fs'.inodes i).isUsed = false then defragFilesOnFile sb h2 f (i + 1) fs' else
        defragFilesOnFile sb h2 f (i + 1)
          (defragBlocksOnFile sb h2 i (inodeAt fs'.inodes i).blocksAllocated 0 fs'))
    rw [← h.1]
    by_cases hu : (inodeAt fs.inodes i).isUsed = false
    · rw [if_pos hu, if_pos hu]
      exact ih (i + 1) fs fs' h
    · rw [if_neg hu, if_neg hu]
      exact ih (i + 1) _ _ (defragBlocksOnFile_sameLayout sb h1 h2 i _ 0 fs fs' h)

theorem defragRunOnFile_sameLayout (d : Disk) (fileLen : Nat) (h1 h2 : Nat → Nat → Nat) :
    SameLayout (defragRunOnFile d fileLen h1) (defragRunOnFile d fileLen h2) := by
  unfold defragRunOnFile
  exact defragFilesOnFile_sameLayout d.sb h1 h2 MAX_FILES 0 _ _
    ⟨rfl, rfl, rfl, rfl, by
      show (freshBuffer h1 0 d.sb.blockSize).length = (freshBuffer h2 0 d.sb.blockSize).length
      rw [freshBuffer_length, freshBuffer_length]⟩

/-- The table, the bitmap and the length of the file that `defragmentDisk` leaves do not
depend on what the allocated buffers held. -/
theorem defragmentDiskOnFile_layout (d : Disk) (fileLen : Nat) (h1 h2 : Nat → Nat → Nat) :
    (defragmentDiskOnFile d fileLen h1).1.sb = d.sb ∧
    (defragmentDiskOnFile d fileLen h1).1.inodes = (defragmentDiskOnFile d fileLen h2).1.inodes ∧
    (defragmentDiskOnFile d fileLen h1).1.bitmap = (defragmentDiskOnFile d fileLen h2).1.bitmap ∧
    (defragmentDiskOnFile d fileLen h1).2 = (defragmentDiskOnFile d fileLen h2).2 := by
  have h := defragRunOnFile_sameLayout d fileLen h1 h2
  unfold defragmentDiskOnFile
  exact ⟨rfl, h.1, h.2.1, h.2.2.1⟩

/-- The outcome of the checked copy loop and the number of bytes it writes depend on the
table and on the length of the image file, not on the bytes of the image. -/
theorem copyOutLoopChecked_layout (sb : SuperBlock) (data data' : Nat → Nat)
    (fileLen sinkCap : Nat) (inode : Inode) (fuel i rem : Nat) (out out' : List Nat)
    (h : out.length = out'.length) :
    (copyOutLoopChecked sb data fileLen sinkCap inode fuel i rem out).1 =
      (copyOutLoopChecked sb data' fileLen sinkCap inode fuel i rem out').1 ∧
    (copyOutLoopChecked sb data fileLen sinkCap inode fuel i rem out).2.length =
      (copyOutLoopChecked sb data' fileLen sinkCap inode fuel i rem out').2.length := by
  induction fuel generalizing i rem out out' with
  | zero => exact ⟨rfl, h⟩
  | succ f ih =>
    simp only [copyOutLoopChecked]
    by_cases hi : i < inode.blocksAllocated
    · rw [if_pos hi, if_pos hi]
      simp only [freadAt_length, h]
      generalize (if rem < sb.blockSize then rem else sb.blockSize) = n
      by_cases hread : min n (fileLen - blockOffset sb (inode.blockIndex.getD i 0)) ≠ n
      · rw [if_pos hread, if_pos hread]
        exact ⟨rfl, h⟩
      · rw [if_neg hread, if_neg hread]
        by_cases hwrite : min (min n (fileLen - blockOffset sb (inode.blockIndex.getD i 0)))
            (sinkCap - out'.length) ≠ min n (fileLen - blockOffset sb (inode.blockIndex.getD i 0))
        · rw [if_pos hwrite, if_pos hwrite]
          refine ⟨rfl, ?_⟩
          simp only [List.length_append, List.length_take, freadAt_length, h]
        · rw [if_neg hwrite, if_neg hwrite]
          exact ih _ _ _ _ (by simp only [List.length_append, freadAt_length, h])
    · rw [if_neg hi, if_neg hi]
      exact ⟨rfl, h⟩

theorem copyFileFromVirtualDisk_layout (d d' : Disk) (fileLen : Nat)
    (filename newFilename : List Nat) (outputExists overwrite : Bool) (sinkCap : Nat)
    (hsb : d.sb = d'.sb) (hin : d.inodes = d'.inodes) :
    (copyFileFromVirtualDisk d fileLen filename newFilename outputExists overwrite sinkCap).1 =
      (copyFileFromVirtualDisk d' fileLen filename newFilename outputExists overwrite
        sinkCap).1 ∧
    (copyFileFromVirtualDisk d fileLen filename newFilename outputExists overwrite
        sinkCap).2.length =
      (copyFileFromVirtualDisk d' fileLen filename newFilename outputExists overwrite
        sinkCap).2.length := by
  unfold copyFileFromVirtualDisk
  rw [hsb, hin]
  cases findFile d'.inodes filename MAX_FILES 0 with
  | none => exact ⟨rfl, rfl⟩
  | some idx =>
    dsimp only
    split
    · exact ⟨rfl, rfl⟩
    · split
      · exact ⟨rfl, rfl⟩
      · exact copyOutLoopChecked_layout _ _ _ _ _ _ _ _ _ _ _ rfl

theorem addNewFile_data (d : Disk) (name : List Nat) (size : Nat) (ow : Bool) :
    (addNewFile d name size ow).disk.data = d.data := by
  unfold addNewFile
  repeat (first | rfl | split)

theorem copyInLoop_zeroBeyond (sb : SuperBlock) (inode : Inode) (fuel i : Nat)
    (data : Nat → Nat) (fileLen : Nat) (source : List Nat) (hz : ZeroBeyond data fileLen) :
    ZeroBeyond (copyInLoop sb inode fuel i data fileLen source).1
      (copyInLoop sb inode fuel i data fileLen source).2.1 := by
  induction fuel generalizing i data fileLen source with
  | zero => exact hz
  | succ f ih =>
    unfold copyInLoop
    by_cases hi : i < inode.blocksAllocated
    · rw [if_pos hi]
      exact ih _ _ _ _ (fwriteAt_eq_writeAt _ _ _ _ hz).2
    · rw [if_neg hi]
      exact hz

/-- Function `copyFileToVirtualDisk` keeps the embedding at 0 behind the end of the
image file. -/
theorem copyFileToVirtualDisk_zeroBeyond (d : Disk) (fileLen : Nat)
    (source newFilename : List Nat) (overwrite : Bool) (hz : ZeroBeyond d.data fileLen) :
    ZeroBeyond (copyFileToVirtualDisk d fileLen source newFilename overwrite).2.1.data
      (copyFileToVirtualDisk d fileLen source newFilename overwrite).2.2 := by
  unfold copyFileToVirtualDisk
  dsimp only
  split
  · exact hz
  · split
    · split
      · exact copyInLoop_zeroBeyond _ _ _ _ _ _ _ hz
      · exact hz
    · split
      · show ZeroBeyond (addNewFile d newFilename source.length overwrite).disk.data fileLen
        rw [addNewFile_data]; exact hz
      · show ZeroBeyond (addNewFile d newFilename source.length overwrite).disk.data fileLen
        rw [addNewFile_data]; exact hz

theorem findFile_sameShape {a b : List Inode} (h : SameShape a b) (name : List Nat)
    (fuel i : Nat) : findFile a name fuel i = findFile b name fuel i := by
  induction fuel generalizing i with
  | zero => rfl
  | succ f ih =>
    simp only [findFile]
    rw [(h.2 i).1, (h.2 i).2.2.1, ih]

/-- The checked copy loop on two images gives the same result when the blocks of the two
inodes, in list order, lie inside the two files and hold the same bytes. -/
theorem copyOutLoopChecked_congr (sb : SuperBlock) (d1 d2 : Nat → Nat) (len1 len2 sinkCap : Nat)
    (n1 n2 : Inode) (hba : n1.blocksAllocated = n2.blocksAllocated)
    (hblk : ∀ b, b < n1.blocksAllocated →
      readBlock sb d1 (n1.blockIndex.getD b 0) = readBlock sb d2 (n2.blockIndex.getD b 0))
    (hin1 : ∀ b, b < n1.blocksAllocated →
      blockOffset sb (n1.blockIndex.getD b 0) + sb.blockSize ≤ len1)
    (hin2 : ∀ b, b < n1.blocksAllocated →
      blockOffset sb (n2.blockIndex.getD b 0) + sb.blockSize ≤ len2)
    (fuel i rem : Nat) (out : List Nat) :
    copyOutLoopChecked sb d1 len1 sinkCap n1 fuel i rem out =
      copyOutLoopChecked sb d2 len2 sinkCap n2 fuel i rem out := by
  induction fuel generalizing i rem out with
  | zero => rfl
  | succ f ih =>
    simp only [copyOutLoopChecked]
    by_cases hi : i < n1.blocksAllocated
    · rw [if_pos hi, if_pos (hba ▸ hi : i < n2.blocksAllocated)]
      have hle : (if rem < sb.blockSize then rem else sb.blockSize) ≤ sb.blockSize := by
        split <;> omega
      have e1 : freadAt d1 len1 (blockOffset sb (n1.blockIndex.getD i 0))
            (if rem < sb.blockSize then rem else sb.blockSize) =
          readAt d1 (blockOffset sb (n1.blockIndex.getD i 0))
            (if rem < sb.blockSize then rem else sb.blockSize) :=
        freadAt_in_file _ _ _ _ (by have := hin1 i hi; omega)
      have e2 : freadAt d2 len2 (blockOffset sb (n2.blockIndex.getD i 0))
            (if rem < sb.blockSize then rem else sb.blockSize) =
          readAt d2 (blockOffset sb (n2.blockIndex.getD i 0))
            (if rem < sb.blockSize then rem else sb.blockSize) :=
        freadAt_in_file _ _ _ _ (by have := hin2 i hi; omega)
      have e : readAt d1 (blockOffset sb (n1.blockIndex.getD i 0))
            (if rem < sb.blockSize then rem else sb.blockSize) =
          readAt d2 (blockOffset sb (n2.blockIndex.getD i 0))
            (if rem < sb.blockSize then rem else sb.blockSize) := by
        rw [← readAt_take _ _ _ _ hle, ← readAt_take _ _ _ _ hle]
        have := hblk i hi
        unfold readBlock at this
        rw [this]
      rw [e1, e2, e]
      simp only [ih]
    · rw [if_neg hi, if_neg (hba ▸ hi : ¬ i < n2.blocksAllocated)]

/-- On a well-formed image that satisfies the data-model invariants and whose file holds
every listed block, `copyFileFromVirtualDisk` with its checks gives for every name the same
outcome and the same bytes before and after `defragmentDisk`, whatever the allocated
buffers held. -/
theorem defragmentDiskOnFile_preserves_copy_out (d : Disk) (fileLen : Nat)
    (heap : Nat → Nat → Nat) (hwf : WF d) (hinv : DataModelInv d)
    (hin : InFile d.sb d.inodes fileLen) (hz : ZeroBeyond d.data fileLen)
    (filename newFilename : List Nat) (outputExists overwrite : Bool) (sinkCap : Nat) :
    copyFileFromVirtualDisk (defragmentDiskOnFile d fileLen heap).1
        (defragmentDiskOnFile d fileLen heap).2 filename newFilename outputExists overwrite
        sinkCap =
      copyFileFromVirtualDisk d fileLen filename newFilename outputExists overwrite sinkCap := by
  obtain ⟨hx, _, hin', _⟩ := defragmentDiskOnFile_exact d fileLen heap hwf.blockSize_pos hin hz
  rw [hx] at hin' ⊢
  generalize (defragmentDiskOnFile d fileLen heap).2 = len' at hin' ⊢
  have h := defragRun_inv d hwf hinv
  have hsh : SameShape (defragmentDisk d).inodes d.inodes := h.shape
  unfold copyFileFromVirtualDisk
  rw [findFile_sameShape hsh]
  cases hf : findFile d.inodes filename MAX_FILES 0 with
  | none => rfl
  | some idx =>
    obtain ⟨_, hlt, hu, _, _⟩ := (findFile_eq_some_iff _ _ _ _ _).mp hf
    have hidx : idx < MAX_FILES := by omega
    obtain ⟨s1, s2, s3, s4, _⟩ := hsh.2 idx
    dsimp only
    rw [s2, s4]
    show (if newFilename.length ≥ MAX_FILENAME_LENGTH then _ else
        if outputExists = true ∧ overwrite = false then _ else
          copyOutLoopChecked d.sb (defragmentDisk d).data len' sinkCap
            (inodeAt (defragmentDisk d).inodes idx) _ 0 _ []) = _
    rw [copyOutLoopChecked_congr d.sb (defragmentDisk d).data d.data len' fileLen sinkCap
      (inodeAt (defragmentDisk d).inodes idx) (inodeAt d.inodes idx) s2
      (fun b hb => h.content idx b ⟨hidx, hu, by rw [← s2]; exact hb⟩)
      (fun b hb => hin'.of_pos idx b ⟨hidx, by rw [s1]; exact hu, hb⟩)
      (fun b hb => hin.of_pos idx b ⟨hidx, hu, by rw [← s2]; exact hb⟩)]

/-! ## Defragmentation and copy-out on the image file of the scenario -/

/-- C5 at the failing input `create d 4096 256`, `add a 600`, `add b 300`, `rm a`,
`add c 256`, `defrag`, `cpout b`. The image before `defrag` is well formed and satisfies
the data-model invariants; its file has the 7242 bytes that `createVirtualDisk` wrote,
which is `dataAreaOffset`, and `b` (slot 1, 300 bytes) lists the blocks 3 and 4, the first
at offset 8010. Before `defrag`, `copyFileFromVirtualDisk` of `b` ends with a read error
and no byte written. After `defragmentDisk`, whatever the allocated buffers held, the file
has 8010 bytes, `b` has its name and size and lists the blocks 1 and 2, and
`copyFileFromVirtualDisk` of `b` succeeds with 300 bytes; these are the bytes `tempBlock`
held when it was allocated (300 times 0 for a buffer of zeros, 300 times 7 for a buffer of
sevens). -/
theorem defragmentDiskOnFile_changes_copy_out (heap : Nat → Nat → Nat) :
    (WF scenarioBeforeDefrag ∧ DataModelInv scenarioBeforeDefrag) ∧
    createFileLen 72 112 4096 256 = 7242 ∧
    scenarioBeforeDefrag.sb.dataAreaOffset = 7242 ∧
    ((inodeAt scenarioBeforeDefrag.inodes 1).isUsed = true ∧
      (inodeAt scenarioBeforeDefrag.inodes 1).fileName = [98] ∧
      (inodeAt scenarioBeforeDefrag.inodes 1).fileSize = 300 ∧
      (inodeAt scenarioBeforeDefrag.inodes 1).blocksAllocated = 2 ∧
      (inodeAt scenarioBeforeDefrag.inodes 1).blockIndex.take 2 = [3, 4] ∧
      blockOffset scenarioBeforeDefrag.sb 3 = 8010) ∧
    copyFileFromVirtualDisk scenarioBeforeDefrag 7242 [98] [120] false false 1000 =
      (CopyOutOutcome.readError, []) ∧
    (defragmentDiskOnFile scenarioBeforeDefrag 7242 heap).2 = 8010 ∧
    ((inodeAt (defragmentDiskOnFile scenarioBeforeDefrag 7242 heap).1.inodes 1).isUsed = true ∧
      (inodeAt (defragmentDiskOnFile scenarioBeforeDefrag 7242 heap).1.inodes 1).fileName =
        [98] ∧
      (inodeAt (defragmentDiskOnFile scenarioBeforeDefrag 7242 heap).1.inodes 1).fileSize =
        300 ∧
      (inodeAt (defragmentDiskOnFile scenarioBeforeDefrag 7242 heap).1.inodes
        1).blockIndex.take 2 = [1, 2]) ∧
    ((copyFileFromVirtualDisk (defragmentDiskOnFile scenarioBeforeDefrag 7242 heap).1
        (defragmentDiskOnFile scenarioBeforeDefrag 7242 heap).2 [98] [120] false false
        1000).1 = CopyOutOutcome.copied ∧
      (copyFileFromVirtualDisk (defragmentDiskOnFile scenarioBeforeDefrag 7242 heap).1
        (defragmentDiskOnFile scenarioBeforeDefrag 7242 heap).2 [98] [120] false false
        1000).2.length = 300) ∧
    copyFileFromVirtualDisk (defragmentDiskOnFile scenarioBeforeDefrag 7242 (fun _ _ => 0)).1
        (defragmentDiskOnFile scenarioBeforeDefrag 7242 (fun _ _ => 0)).2 [98] [120] false
        false 1000 = (CopyOutOutcome.copied, List.replicate 300 0) ∧
    copyFileFromVirtualDisk (defragmentDiskOnFile scenarioBeforeDefrag 7242 (fun _ _ => 7)).1
        (defragmentDiskOnFile scenarioBeforeDefrag 7242 (fun _ _ => 7)).2 [98] [120] false
        false 1000 = (CopyOutOutcome.copied, List.replicate 300 7) := by
  obtain ⟨hsb, hi, _, hl⟩ :=
    defragmentDiskOnFile_layout scenarioBeforeDefrag 7242 heap (fun _ _ => 0)
  obtain ⟨hsb0, _, _, _⟩ :=
    defragmentDiskOnFile_layout scenarioBeforeDefrag 7242 (fun _ _ => 0) (fun _ _ => 0)
  have hl0 : (defragmentDiskOnFile scenarioBeforeDefrag 7242 (fun _ _ => 0)).2 = 8010 := by
    decide
  have hc := copyFileFromVirtualDisk_layout
    (defragmentDiskOnFile scenarioBeforeDefrag 7242 heap).1
    (defragmentDiskOnFile scenarioBeforeDefrag 7242 (fun _ _ => 0)).1
    (defragmentDiskOnFile scenarioBeforeDefrag 7242 heap).2 [98] [120] false false 1000
    (hsb.trans hsb0.symm) hi
  rw [hl, hl0] at hc
  refine ⟨⟨scenarioBeforeDefrag_WF, scenarioBeforeDefrag_inv⟩, by decide, by decide, by decide,
    by decide, hl.trans hl0, ?_, ?_, by decide, by decide⟩
  · rw [hi]
    decide
  · rw [hl, hl0, hc.1, hc.2]
    decide

/-! ## Copy-in into the blocks of an existing file -/

/-- C6 at the failing input `create d 256 16`, `add a 16`, `cpin` of the 16-byte host file
`1, ..., 16` stored as `a` with the overwrite accepted. Slot 0 (`a`, 16 bytes) lists the
one block 0 of 16 bytes at offset 7242, the end of the file that `createVirtualDisk` wrote.
The copy ends well and the file has 7250 bytes: block 0 holds the 8 bytes `1, ..., 8`, not
the 16 bytes of the source, and `copyFileFromVirtualDisk` of `a` ends with a read error. -/
theorem copyFileToVirtualDisk_writes_pointer_size :
    sampleSource.length = 16 ∧
    createFileLen 72 112 256 16 = 7242 ∧
    (copyInBefore.sb.blockSize = 16 ∧
      findFile copyInBefore.inodes [97] MAX_FILES 0 = some 0 ∧
      (inodeAt copyInBefore.inodes 0).fileSize = 16 ∧
      (inodeAt copyInBefore.inodes 0).blocksAllocated = 1 ∧
      blockAt copyInBefore.inodes 0 0 = 0 ∧
      blockOffset copyInBefore.sb 0 = 7242) ∧
    (copyFileToVirtualDisk copyInBefore (createFileLen 72 112 256 16) sampleSource [97]
      true).1 = CopyInOutcome.copied ∧
    (copyFileToVirtualDisk copyInBefore (createFileLen 72 112 256 16) sampleSource [97]
      true).2.1.inodes = copyInBefore.inodes ∧
    (copyFileToVirtualDisk copyInBefore (createFileLen 72 112 256 16) sampleSource [97]
      true).2.2 = 7250 ∧
    freadAt (copyFileToVirtualDisk copyInBefore (createFileLen 72 112 256 16) sampleSource
      [97] true).2.1.data 7250 (blockOffset copyInBefore.sb 0) 16 =
      [1, 2, 3, 4, 5, 6, 7, 8] ∧
    freadAt (copyFileToVirtualDisk copyInBefore (createFileLen 72 112 256 16) sampleSource
      [97] true).2.1.data 7250 (blockOffset copyInBefore.sb 0) 16 ≠ sampleSource.take 16 ∧
    copyFileFromVirtualDisk (copyFileToVirtualDisk copyInBefore (createFileLen 72 112 256 16)
      sampleSource [97] true).2.1 7250 [97] [120] false false 100 =
      (CopyOutOutcome.readError, []) :=
  ⟨by decide, by decide, by decide, by decide, rfl, by decide, by decide, by decide, by decide⟩

/-! ## Contents after a defragmentation that follows an overwrite -/

theorem createVirtualDisk_zeroBeyond (s1 s2 : Nat) (nm : List Nat) (ds bs len : Nat) :
    ZeroBeyond (createVirtualDisk s1 s2 nm ds bs).data len :=
  fun _ _ => rfl

theorem contentAdds_zeroBeyond (len : Nat) : ZeroBeyond contentAdds.data len := by
  unfold contentAdds
  rw [addNewFile_data, addNewFile_data, addNewFile_data]
  exact createVirtualDisk_zeroBeyond _ _ _ _ _ _

theorem contentBefore_zeroBeyond : ZeroBeyond contentBefore.1.data contentBefore.2 := by
  unfold contentBefore
  exact copyFileToVirtualDisk_zeroBeyond _ _ _ _ _
    (copyFileToVirtualDisk_zeroBeyond _ _ _ _ _ (contentAdds_zeroBeyond _))

theorem contentBefore_inFile :
    InFile contentBefore.1.sb contentBefore.1.inodes contentBefore.2 := by
  unfold InFile
  decide

/-- C21 at the failing input `create d 128 8`, `add a 8`, `add a 8` (overwrite accepted),
`add b 8`, `cpin` of `1, ..., 8` as `a`, `cpin` of `21, ..., 28` as `b` (overwrite accepted
both times), `defrag`. The inode table and bitmap before `defrag` are those of the
reachable image after the three `add` calls (bit 0 is set and no inode lists block 0); the
file has 7266 bytes and holds the blocks 1 and 2; `copyFileFromVirtualDisk` gives
`1, ..., 8` for `a` and `21, ..., 28` for `b`. After `defragmentDisk`, whatever the
allocated buffers held, the file has its 7266 bytes, the two slots have exchanged their
block numbers, and `copyFileFromVirtualDisk` gives `21, ..., 28` for `a` and `1, ..., 8`
for `b`. -/
theorem defragmentDiskOnFile_exchanges_contents (heap : Nat → Nat → Nat) :
    Reachable contentAdds ∧
    (contentBefore.1.sb = contentAdds.sb ∧ contentBefore.1.inodes = contentAdds.inodes ∧
      contentBefore.1.bitmap = contentAdds.bitmap) ∧
    (isBlockUsed contentBefore.1.bitmap 0 = true ∧
      scanOrder contentBefore.1.inodes = [1, 2]) ∧
    (contentBefore.2 = 7266 ∧ blockOffset contentBefore.1.sb 1 = 7250 ∧
      blockOffset contentBefore.1.sb 2 = 7258 ∧ contentBefore.1.sb.blockSize = 8) ∧
    (copyFileFromVirtualDisk contentBefore.1 contentBefore.2 [97] [120] false false 100 =
        (CopyOutOutcome.copied, [1, 2, 3, 4, 5, 6, 7, 8]) ∧
      copyFileFromVirtualDisk contentBefore.1 contentBefore.2 [98] [120] false false 100 =
        (CopyOutOutcome.copied, [21, 22, 23, 24, 25, 26, 27, 28])) ∧
    (defragmentDiskOnFile contentBefore.1 contentBefore.2 heap).2 = 7266 ∧
    ((inodeAt (defragmentDiskOnFile contentBefore.1 contentBefore.2 heap).1.inodes 0).fileName =
        [97] ∧
      (inodeAt (defragmentDiskOnFile contentBefore.1 contentBefore.2 heap).1.inodes 1).fileName =
        [98] ∧
      scanOrder (defragmentDiskOnFile contentBefore.1 contentBefore.2 heap).1.inodes = [2, 1]) ∧
    (copyFileFromVirtualDisk (defragmentDiskOnFile contentBefore.1 contentBefore.2 heap).1
        (defragmentDiskOnFile contentBefore.1 contentBefore.2 heap).2 [97] [120] false false
        100 = (CopyOutOutcome.copied, [21, 22, 23, 24, 25, 26, 27, 28]) ∧
      copyFileFromVirtualDisk (defragmentDiskOnFile contentBefore.1 contentBefore.2 heap).1
        (defragmentDiskOnFile contentBefore.1 contentBefore.2 heap).2 [98] [120] false false
        100 = (CopyOutOutcome.copied, [1, 2, 3, 4, 5, 6, 7, 8])) := by
  obtain ⟨hx, _, _, _⟩ := defragmentDiskOnFile_exact contentBefore.1 contentBefore.2 heap
    (by decide) contentBefore_inFile contentBefore_zeroBeyond
  obtain ⟨_, _, _, hl⟩ :=
    defragmentDiskOnFile_layout contentBefore.1 contentBefore.2 heap (fun _ _ => 0)
  have hl0 : (defragmentDiskOnFile contentBefore.1 contentBefore.2 (fun _ _ => 0)).2 = 7266 := by
    decide
  rw [hx, hl, hl0]
  exact ⟨Reachable.add _ _ _ _ (Reachable.add _ _ _ _ (Reachable.add _ _ _ _
      (Reachable.create [100] 128 8 (by decide) (by decide) (by decide) (by decide)
        (by decide) (by decide)))),
    ⟨rfl, rfl, rfl⟩, by decide, by decide, by decide, rfl, by decide, by decide⟩

/-! ## The data area and the file that creation leaves -/

/-- C22 at the failing input `create d 4096 256` (LP64). The record that
`createVirtualDisk` computes has 16 blocks and `dataAreaOffset` 7242, so
`dataAreaOffset + blocksCount * blockSize` is 11338, above the disk size 4096; the file
that creation leaves has 7242 bytes, the sentinel byte at offset 4095 lying inside the
inode table. Block 0 starts at offset 7242, behind the 4096 bytes and at the end of the
file. After `add a 600`, copy-out of `a` seeks to that offset and ends with a read error;
copy-in of 600 bytes as `a` writes behind it and leaves a file of 7762 bytes; and in the
scenario `defragmentDisk` leaves a file of 8010 bytes, whatever the allocated buffers
held. -/
theorem createVirtualDisk_data_area_outside_file (heap : Nat → Nat → Nat) :
    (∃ sb, createSuperBlock 72 112 [] [100] 4096 256 = some sb ∧ sb.diskSize = 4096 ∧
      sb.blockSize = 256 ∧ sb.blocksCount = 16 ∧ sb.dataAreaOffset = 7242 ∧
      ¬ (sb.dataAreaOffset + sb.blocksCount * (sb.blockSize : Int) ≤ (sb.diskSize : Int))) ∧
    (scenarioDisk.sb.diskSize = 4096 ∧ scenarioDisk.sb.blocksCount = 16 ∧
      scenarioDisk.sb.dataAreaOffset = 7242 ∧
      ¬ (scenarioDisk.sb.dataAreaOffset + scenarioDisk.sb.blocksCount * scenarioDisk.sb.blockSize
          ≤ scenarioDisk.sb.diskSize)) ∧
    createFileLen 72 112 4096 256 = 7242 ∧
    (scenarioDisk.sb.diskSize ≤ blockOffset scenarioDisk.sb 0 ∧
      createFileLen 72 112 4096 256 ≤ blockOffset scenarioDisk.sb 0) ∧
    ((inodeAt (addNewFile scenarioDisk [97] 600 false).disk.inodes 0).fileName = [97] ∧
      (inodeAt (addNewFile scenarioDisk [97] 600 false).disk.inodes 0).blockIndex.take 3 =
        [0, 1, 2]) ∧
    copyFileFromVirtualDisk (addNewFile scenarioDisk [97] 600 false).disk
        (createFileLen 72 112 4096 256) [97] [120] false false 1000 =
      (CopyOutOutcome.readError, []) ∧
    ((copyFileToVirtualDisk (addNewFile scenarioDisk [97] 600 false).disk
        (createFileLen 72 112 4096 256) (List.replicate 600 1) [97] true).1 =
        CopyInOutcome.copied ∧
      (copyFileToVirtualDisk (addNewFile scenarioDisk [97] 600 false).disk
        (createFileLen 72 112 4096 256) (List.replicate 600 1) [97] true).2.2 = 7762) ∧
    (defragmentDiskOnFile scenarioBeforeDefrag (createFileLen 72 112 4096 256) heap).2 =
      8010 := by
  obtain ⟨_, _, _, hl⟩ := defragmentDiskOnFile_layout scenarioBeforeDefrag
    (createFileLen 72 112 4096 256) heap (fun _ _ => 0)
  rw [hl]
  refine ⟨⟨_, rfl, rfl, rfl, ?_, ?_, ?_⟩, by decide, by decide, by decide, by decide, by decide,
    by decide, by decide⟩
  · decide
  · decide
  · decide

/-! ### The table and the bitmap do not depend on the bytes read -/

theorem swapSearchBlocksOnFile_table (sb : SuperBlock) (heap : Nat → Nat → Nat)
    (cur i b k fuel kk : Nat) (fs : DefragFileState) (st : DefragState) (h : SameTable fs st) :
    SameTable (swapSearchBlocksOnFile sb heap cur i b k fuel kk fs)
      (swapSearchBlocks sb cur i b k fuel kk st) := by
  induction fuel generalizing kk with
  | zero => exact h
  | succ f ih =>
    show SameTable
      (if kk < (inodeAt fs.inodes k).blocksAllocated then
        (if blockAt fs.inodes k kk = fs.nextFreeBlock then
          swapWithOnFile sb heap cur i b k kk fs
        else swapSearchBlocksOnFile sb heap cur i b k f (kk + 1) fs) else fs)
      (if kk < (inodeAt st.inodes k).blocksAllocated then
        (if blockAt st.inodes k kk = st.nextFreeBlock then swapWith sb cur i b k kk st
        else swapSearchBlocks sb cur i b k f (kk + 1) st) else st)
    rw [← h.1, ← h.2.2]
    by_cases hlt : kk < (inodeAt fs.inodes k).blocksAllocated
    · rw [if_pos hlt, if_pos hlt]
      by_cases hm : blockAt fs.inodes k kk = fs.nextFreeBlock
      · rw [if_pos hm, if_pos hm]
        refine ⟨?_, h.2.1, h.2.2⟩
        show setBlockAt (setBlockAt fs.inodes k kk cur) i b fs.nextFreeBlock =
          setBlockAt (setBlockAt st.inodes k kk cur) i b st.nextFreeBlock
        rw [h.1, h.2.2]
      · rw [if_neg hm, if_neg hm]
        exact ih (kk + 1)
    · rw [if_neg hlt, if_neg hlt]
      exact h

theorem swapSearchFilesOnFile_table (sb : SuperBlock) (heap : Nat → Nat → Nat)
    (cur i b fuel k : Nat) (fs : DefragFileState) (st : DefragState) (h : SameTable fs st) :
    SameTable (swapSearchFilesOnFile sb heap cur i b fuel k fs)
      (swapSearchFiles sb cur i b fuel k st) := by
  induction fuel generalizing k fs st with
  | zero => exact h
  | succ f ih =>
    show SameTable
      (if (inodeAt fs.inodes k).isUsed = false then
        swapSearchFilesOnFile sb heap cur i b f (k + 1) fs
      else swapSearchFilesOnFile sb heap cur i b f (k + 1)
        (swapSearchBlocksOnFile sb heap cur i b k (inodeAt fs.inodes k).blocksAllocated 0 fs))
      (if (inodeAt st.inodes k).isUsed = false then swapSearchFiles sb cur i b f (k + 1) st
      else swapSearchFiles sb cur i b f (k + 1)
        (swapSearchBlocks sb cur i b k (inodeAt st.inodes k).blocksAllocated 0 st))
    rw [← h.1]
    by_cases hu : (inodeAt fs.inodes k).isUsed = false
    · rw [if_pos hu, if_pos hu]
      exact ih (k + 1) fs st h
    · rw [if_neg hu, if_neg hu]
      exact ih (k + 1) _ _ (swapSearchBlocksOnFile_table sb heap cur i b k _ 0 fs st h)

theorem moveBlockOnFile_table (sb : SuperBlock) (cur i b : Nat) (fs : DefragFileState)
    (st : DefragState) (h : SameTable fs st) :
    SameTable (moveBlockOnFile sb cur i b fs) (moveBlock sb cur i b st) := by
  refine ⟨?_, ?_, h.2.2⟩
  · show setBlockAt fs.inodes i b fs.nextFreeBlock = setBlockAt st.inodes i b st.nextFreeBlock
    rw [h.1, h.2.2]
  · show setBlockUsed (setBlockUsed fs.bitmap cur false) fs.nextFreeBlock true =
      setBlockUsed (setBlockUsed st.bitmap cur false) st.nextFreeBlock true
    rw [h.2.1, h.2.2]

theorem SameTable.succ_cursor {fs : DefragFileState} {st : DefragState} (h : SameTable fs st) :
    SameTable { fs with nextFreeBlock := fs.nextFreeBlock + 1 }
      { st with nextFreeBlock := st.nextFreeBlock + 1 } :=
  ⟨h.1, h.2.1, congrArg (· + 1) h.2.2⟩

theorem defragStepOnFile_table (sb : SuperBlock) (heap : Nat → Nat → Nat) (i b : Nat)
    (fs : DefragFileState) (st : DefragState) (h : SameTable fs st) :
    SameTable (defragStepOnFile sb heap i b fs) (defragStep sb i b st) := by
  unfold defragStepOnFile defragStep
  apply SameTable.succ_cursor
  show SameTable
    (if blockAt fs.inodes i b ≠ fs.nextFreeBlock then
      (if isBlockUsed fs.bitmap fs.nextFreeBlock = true then
        swapSearchFilesOnFile sb heap (blockAt fs.inodes i b) i b MAX_FILES 0 fs
      else moveBlockOnFile sb (blockAt fs.inodes i b) i b fs) else fs)
    (if blockAt st.inodes i b ≠ st.nextFreeBlock then
      (if isBlockUsed st.bitmap st.nextFreeBlock = true then
        swapSearchFiles sb (blockAt st.inodes i b) i b MAX_FILES 0 st
      else moveBlock sb (blockAt st.inodes i b) i b st) else st)
  rw [← h.1, ← h.2.1, ← h.2.2]
  by_cases hcn : blockAt fs.inodes i b ≠ fs.nextFreeBlock
  · rw [if_pos hcn, if_pos hcn]
    by_cases hused : isBlockUsed fs.bitmap fs.nextFreeBlock = true
    · rw [if_pos hused, if_pos hused]
      exact swapSearchFilesOnFile_table sb heap _ i b MAX_FILES 0 fs st h
    · rw [if_neg hused, if_neg hused]
      exact moveBlockOnFile_table sb _ i b fs st h
  · rw [if_neg hcn, if_neg hcn]
    exact h

theorem defragBlocksOnFile_table (sb : SuperBlock) (heap : Nat → Nat → Nat)
    (i fuel b : Nat) (fs : DefragFileState) (st : DefragState) (h : SameTable fs st) :
    SameTable (defragBlocksOnFile sb heap i fuel b fs) (defragBlocks sb i fuel b st) := by
  induction fuel generalizing b fs st with
  | zero => exact h
  | succ f ih =>
    show SameTable
      (if b < (inodeAt fs.inodes i).blocksAllocated then
        defragBlocksOnFile sb heap i f (b + 1) (defragStepOnFile sb heap i b fs) else fs)
      (if b < (inodeAt st.inodes i).blocksAllocated then
        defragBlocks sb i f (b + 1) (defragStep sb i b st) else st)
    rw [← h.1]
    by_cases hlt : b < (inodeAt fs.inodes i).blocksAllocated
    · rw [if_pos hlt, if_pos hlt]
      exact ih (b + 1) _ _ (defragStepOnFile_table sb heap i b fs st h)
    · rw [if_neg hlt, if_neg hlt]
      exact h

theorem defragFilesOnFile_table (sb : SuperBlock) (heap : Nat → Nat → Nat)
    (fuel i : Nat) (fs : DefragFileState) (st : DefragState) (h : SameTable fs st) :
    SameTable (defragFilesOnFile sb heap fuel i fs) (defragFiles sb fuel i st) := by
  induction fuel generalizing i fs st with
  | zero => exact h
  | succ f ih =>
    show SameTable
      (if (inodeAt fs.inodes i).isUsed = false then defragFilesOnFile sb heap f (i + 1) fs else
        defragFilesOnFile sb heap f (i + 1)
          (defragBlocksOnFile sb heap i (inodeAt fs.inodes i).blocksAllocated 0 fs))
      (if (inodeAt st.inodes i).isUsed = false then defragFiles sb f (i + 1) st else
        defragFiles sb f (i + 1)
          (defragBlocks sb i (inodeAt st.inodes i).blocksAllocated 0 st))
    rw [← h.1]
    by_cases hu : (inodeAt fs.inodes i).isUsed = false
    · rw [if_pos hu, if_pos hu]
      exact ih (i + 1) fs st h
    · rw [if_neg hu, if_neg hu]
      exact ih (i + 1) _ _ (defragBlocksOnFile_table sb heap i _ 0 fs st h)

theorem defragRunOnFile_table (d : Disk) (fileLen : Nat) (heap : Nat → Nat → Nat) :
    SameTable (defragRunOnFile d fileLen heap) (defragRun d) := by
  unfold defragRunOnFile defragRun
  exact defragFilesOnFile_table d.sb heap MAX_FILES 0 _ _ ⟨rfl, rfl, rfl⟩

/-- Function `defragmentDisk` on an image file of any length leaves the superblock, the
inode table and the bitmap of the embedding `defragmentDisk`, whatever the allocated
buffers held: short reads bear on the bytes of the blocks only. -/
theorem defragmentDiskOnFile_table (d : Disk) (fileLen : Nat) (heap : Nat → Nat → Nat) :
    (defragmentDiskOnFile d fileLen heap).1.sb = (defragmentDisk d).sb ∧
    (defragmentDiskOnFile d fileLen heap).1.inodes = (defragmentDisk d).inodes ∧
    (defragmentDiskOnFile d fileLen heap).1.bitmap = (defragmentDisk d).bitmap := by
  have h := defragRunOnFile_table d fileLen heap
  unfold defragmentDiskOnFile defragmentDisk
  exact ⟨rfl, h.1, h.2.1⟩

theorem removeFile_data (d : Disk) (name : List Nat) : (removeFile d name).2.data = d.data := by
  unfold removeFile
  cases findFile d.inodes name MAX_FILES 0 <;> rfl

/-- The scenario on a file of 8522 bytes, which holds the blocks 0, 3 and 4 that the inodes
list: copy-out of `b` gives the same result before and after `defragmentDisk`. -/
theorem defragmentDiskOnFile_preserves_copy_out_scenario (heap : Nat → Nat → Nat) :
    InFile scenarioBeforeDefrag.sb scenarioBeforeDefrag.inodes 8522 ∧
    ZeroBeyond scenarioBeforeDefrag.data 8522 ∧
    copyFileFromVirtualDisk (defragmentDiskOnFile scenarioBeforeDefrag 8522 heap).1
        (defragmentDiskOnFile scenarioBeforeDefrag 8522 heap).2 [98] [120] false false 1000 =
      copyFileFromVirtualDisk scenarioBeforeDefrag 8522 [98] [120] false false 1000 ∧
    (copyFileFromVirtualDisk scenarioBeforeDefrag 8522 [98] [120] false false 1000).1 =
      CopyOutOutcome.copied :=
  have hin : InFile scenarioBeforeDefrag.sb scenarioBeforeDefrag.inodes 8522 := by
    unfold InFile
    decide
  have hz : ZeroBeyond scenarioBeforeDefrag.data 8522 := by
    unfold scenarioBeforeDefrag scenarioAfterRemove
    rw [addNewFile_data, removeFile_data, addNewFile_data, addNewFile_data]
    exact createVirtualDisk_zeroBeyond _ _ _ _ _ _
  ⟨hin, hz, defragmentDiskOnFile_preserves_copy_out scenarioBeforeDefrag 8522 heap
    scenarioBeforeDefrag_WF scenarioBeforeDefrag_inv hin hz [98] [120] false false 1000,
    by decide⟩

end VFS
